import Mathlib

/-!
Shallow embedding of the line-level diff engine of
`src/core/diff_engine.rs` (ChronoSchismLogViewer), together with proofs of
the specification's claims about it.

Conventions of the embedding:
* Rust `Vec<T>` / slices become `List T`; indices are `Nat`.
* `Vec<Option<usize>>` correspondence arrays become `List (Option Nat)`.
* The `HashMap<&ComparableLine, (usize, usize)>` symbol table is modelled
  extensionally by its lookup function (the algorithm only ever performs
  key lookups on it, never iteration).
* Rust `==` on `ComparableLine` compares only `comparable_text`; the
  embedding uses `lineEq` for that comparison.
* Each `while`/`for` loop becomes a recursive `...Go` function over the
  loop counter.  To keep every definition structurally recursive (so that
  concrete runs reduce inside the kernel), each loop additionally carries
  a `gas` argument that is exactly the loop variant (e.g. `A.length - i`);
  the wrappers supply the exact value, so the `gas = 0` base case
  coincides with the loop's exit condition and the behaviour is
  identical to the source's loop.
-/

namespace ChronoDiff

structure ComparableLine where
  original_text : String
  comparable_text : String
deriving DecidableEq, Inhabited, Repr

/-- Rust `impl PartialEq for ComparableLine`: equality solely on
`comparable_text`. -/
def lineEq (a b : ComparableLine) : Bool :=
  a.comparable_text == b.comparable_text

inductive DiffState where
  | Added
  | Deleted
  | Unchanged
  | Moved
deriving DecidableEq, Inhabited, Repr

structure LineContent where
  line_number : Nat
  text : String
deriving DecidableEq, Inhabited, Repr

structure DiffLine where
  state : DiffState
  left : Option LineContent
  right : Option LineContent
  moved_from : Option Nat
  moved_to : Option Nat
deriving DecidableEq, Inhabited, Repr

/-- Rust `DiffLine::new`: movement fields start out `None`. -/
def DiffLine.new (state : DiffState) (left right : Option LineContent) : DiffLine :=
  ⟨state, left, right, none, none⟩

structure DiffStatistics where
  additions : Nat
  deletions : Nat
  moves : Nat
  unchanged : Nat
deriving DecidableEq, Inhabited, Repr

/-- Rust `DiffStatistics::from_lines`. -/
def DiffStatistics.from_lines (lines : List DiffLine) : DiffStatistics :=
  lines.foldl
    (fun s l =>
      match l.state with
      | .Added => { s with additions := s.additions + 1 }
      | .Deleted => { s with deletions := s.deletions + 1 }
      | .Unchanged => { s with unchanged := s.unchanged + 1 }
      | .Moved => { s with moves := s.moves + 1 })
    ⟨0, 0, 0, 0⟩

structure MovedBlock where
  source_start : Nat
  source_end : Nat
  destination_start : Nat
  destination_end : Nat
deriving DecidableEq, Inhabited, Repr

structure DiffResult where
  lines : List DiffLine
  statistics : DiffStatistics
  moved_blocks : List MovedBlock
deriving DecidableEq, Inhabited, Repr

/-- Rust `DiffResult::with_moved_blocks`. -/
def DiffResult.with_moved_blocks (lines : List DiffLine) (moved_blocks : List MovedBlock) :
    DiffResult :=
  ⟨lines, DiffStatistics.from_lines lines, moved_blocks⟩

/-! ### Symbol table (`build_symbol_table`) -/

/-- Number of occurrences of a comparison key in a sequence. -/
def countKey (ls : List ComparableLine) (key : String) : Nat :=
  (ls.filter (fun l => l.comparable_text == key)).length

/-- Rust `build_symbol_table`, modelled extensionally: the map's lookup
returns `some (count_in_A, count_in_B)` exactly for the keys that occur in
at least one of the sequences (those are the keys ever inserted). -/
def build_symbol_table (A B : List ComparableLine) : ComparableLine → Option (Nat × Nat) :=
  fun l =>
    let ca := countKey A l.comparable_text
    let cb := countKey B l.comparable_text
    if ca = 0 ∧ cb = 0 then none else some (ca, cb)

/-! ### Anchor linking (`link_unique_anchors`, `link_non_unique_matches`) -/

/-- Loop body of `link_unique_anchors` over index `i` of `A`;
`gas = A.length - i`. -/
def linkUniqueGo (A B : List ComparableLine) (tbl : ComparableLine → Option (Nat × Nat)) :
    Nat → Nat → List (Option Nat) → List (Option Nat) →
    List (Option Nat) × List (Option Nat)
  | 0, _, oa, na => (oa, na)
  | gas + 1, i, oa, na =>
    if i < A.length then
      match tbl (A.getD i default) with
      | some (1, 1) =>
        match B.findIdx? (fun l => lineEq l (A.getD i default)) with
        | some j => linkUniqueGo A B tbl gas (i + 1) (oa.set i (some j)) (na.set j (some i))
        | none => linkUniqueGo A B tbl gas (i + 1) oa na
      | _ => linkUniqueGo A B tbl gas (i + 1) oa na
    else (oa, na)

/-- Rust `link_unique_anchors`. -/
def link_unique_anchors (A B : List ComparableLine)
    (tbl : ComparableLine → Option (Nat × Nat)) :
    List (Option Nat) × List (Option Nat) :=
  linkUniqueGo A B tbl A.length 0 (List.replicate A.length none) (List.replicate B.length none)

/-- Inner scan of `link_non_unique_matches`: first `j` in `B` (from `j`
upward) that is still unlinked and has an equal key; `gas = B.length - j`. -/
def findFirstUnlinked (B : List ComparableLine) (na : List (Option Nat))
    (line : ComparableLine) : Nat → Nat → Option Nat
  | 0, _ => none
  | gas + 1, j =>
    if j < B.length then
      if (na.getD j none).isNone && lineEq line (B.getD j default) then some j
      else findFirstUnlinked B na line gas (j + 1)
    else none

/-- Loop body of `link_non_unique_matches` over index `i` of `A`;
`gas = A.length - i`. -/
def linkNonUniqueGo (A B : List ComparableLine) (tbl : ComparableLine → Option (Nat × Nat)) :
    Nat → Nat → List (Option Nat) → List (Option Nat) →
    List (Option Nat) × List (Option Nat)
  | 0, _, oa, na => (oa, na)
  | gas + 1, i, oa, na =>
    if i < A.length then
      if (oa.getD i none).isSome then linkNonUniqueGo A B tbl gas (i + 1) oa na
      else
        match tbl (A.getD i default) with
        | some (count_a, count_b) =>
          if count_a = 0 ∨ count_b = 0 then linkNonUniqueGo A B tbl gas (i + 1) oa na
          else
            match findFirstUnlinked B na (A.getD i default) B.length 0 with
            | some j => linkNonUniqueGo A B tbl gas (i + 1) (oa.set i (some j)) (na.set j (some i))
            | none => linkNonUniqueGo A B tbl gas (i + 1) oa na
        | none => linkNonUniqueGo A B tbl gas (i + 1) oa na
    else (oa, na)

/-- Rust `link_non_unique_matches`. -/
def link_non_unique_matches (A B : List ComparableLine)
    (tbl : ComparableLine → Option (Nat × Nat)) (oa na : List (Option Nat)) :
    List (Option Nat) × List (Option Nat) :=
  linkNonUniqueGo A B tbl A.length 0 oa na

/-- The correspondence arrays after both linking passes. -/
def diffLinks (A B : List ComparableLine) (tbl : ComparableLine → Option (Nat × Nat)) :
    List (Option Nat) × List (Option Nat) :=
  let st := link_unique_anchors A B tbl
  link_non_unique_matches A B tbl st.1 st.2

/-! ### Alignment builder (`build_diff_lines`) -/

/-- The `Deleted` line emitted for position `i` of `A`. -/
def deletedLine (A : List ComparableLine) (i : Nat) : DiffLine :=
  DiffLine.new .Deleted (some ⟨i + 1, (A.getD i default).original_text⟩) none

/-- The `Added` line emitted for position `j` of `B`. -/
def addedLine (B : List ComparableLine) (j : Nat) : DiffLine :=
  DiffLine.new .Added none (some ⟨j + 1, (B.getD j default).original_text⟩)

/-- The `Unchanged` line emitted for a matched pair `(i, j)`. -/
def unchangedLine (A B : List ComparableLine) (i j : Nat) : DiffLine :=
  DiffLine.new .Unchanged (some ⟨i + 1, (A.getD i default).original_text⟩)
    (some ⟨j + 1, (B.getD j default).original_text⟩)

/-- Inner `while i_ptr < i_match` loop of `build_diff_lines`: emit
deletions for old lines occurring before the matched index; returns the
extended result list, updated `processed_old`, and new `i_ptr`;
`gas = i_match - i_ptr`. -/
def flushBeforeGo (A : List ComparableLine) (oa : List (Option Nat)) (j i_match : Nat) :
    Nat → List DiffLine → List Bool → Nat → List DiffLine × List Bool × Nat
  | 0, res, processed, i_ptr => (res, processed, i_ptr)
  | gas + 1, res, processed, i_ptr =>
    if i_ptr < i_match then
      if processed.getD i_ptr false then
        flushBeforeGo A oa j i_match gas res processed (i_ptr + 1)
      else
        match oa.getD i_ptr none with
        | some mapped_j =>
          if mapped_j ≥ j then (res, processed, i_ptr)
          else flushBeforeGo A oa j i_match gas res (processed.set i_ptr true) (i_ptr + 1)
        | none =>
          flushBeforeGo A oa j i_match gas (res ++ [deletedLine A i_ptr])
            (processed.set i_ptr true) (i_ptr + 1)
    else (res, processed, i_ptr)

/-- The `while i_ptr < lines_a.len() && processed_old[i_ptr]` skip loop;
`gas = n - i_ptr`. -/
def skipProcessedGo (n : Nat) (processed : List Bool) : Nat → Nat → Nat
  | 0, i_ptr => i_ptr
  | gas + 1, i_ptr =>
    if i_ptr < n then
      if processed.getD i_ptr false then skipProcessedGo n processed gas (i_ptr + 1) else i_ptr
    else i_ptr

/-- The matched-old computation at step `j`:
`na.get(j).copied().flatten().filter(|&i| oa[i] == Some(j) && !processed[i])`. -/
def matchedOld (oa na : List (Option Nat)) (processed : List Bool) (j : Nat) : Option Nat :=
  match na.getD j none with
  | some i => if oa.getD i none = some j ∧ processed.getD i false = false then some i else none
  | none => none

/-- Outer `for j in 0..lines_b.len()` loop of `build_diff_lines`.  State:
result lines, matched-info triples `(line_index, old_index, new_index)`,
`processed_old`, `i_ptr`; `gas = B.length - j`. -/
def buildGo (A B : List ComparableLine) (oa na : List (Option Nat)) :
    Nat → Nat → List DiffLine → List (Nat × Nat × Nat) → List Bool → Nat →
    List DiffLine × List (Nat × Nat × Nat) × List Bool × Nat
  | 0, _, res, matched, processed, i_ptr => (res, matched, processed, i_ptr)
  | gas + 1, j, res, matched, processed, i_ptr =>
    if j < B.length then
      match matchedOld oa na processed j with
      | some i_match =>
        let fl := flushBeforeGo A oa j i_match (i_match - i_ptr) res processed i_ptr
        let res1 := fl.1
        let p1 := fl.2.1
        let ip1 := fl.2.2
        let line_index := res1.length
        let res2 := res1 ++ [unchangedLine A B i_match j]
        let matched2 := matched ++ [(line_index, i_match, j)]
        let p2 := p1.set i_match true
        let ip2 := if ip1 = i_match then ip1 + 1 else ip1
        let ip3 := skipProcessedGo A.length p2 (A.length - ip2) ip2
        buildGo A B oa na gas (j + 1) res2 matched2 p2 ip3
      | none =>
        buildGo A B oa na gas (j + 1) (res ++ [addedLine B j]) matched processed i_ptr
    else (res, matched, processed, i_ptr)

/-- Final `while i_ptr < lines_a.len()` flush of remaining old lines;
`gas = A.length - i_ptr`. -/
def flushRemainingGo (A : List ComparableLine) :
    Nat → List DiffLine → List Bool → Nat → List DiffLine
  | 0, res, _, _ => res
  | gas + 1, res, processed, i_ptr =>
    if i_ptr < A.length then
      if processed.getD i_ptr false then flushRemainingGo A gas res processed (i_ptr + 1)
      else
        flushRemainingGo A gas (res ++ [deletedLine A i_ptr]) (processed.set i_ptr true)
          (i_ptr + 1)
    else res

/-- `build_diff_lines` up to (but not including) `classify_matched_lines`:
the emitted lines and the matched-info list. -/
def build_matched (A B : List ComparableLine) (oa na : List (Option Nat)) :
    List DiffLine × List (Nat × Nat × Nat) :=
  let st := buildGo A B oa na B.length 0 [] [] (List.replicate A.length false) 0
  (flushRemainingGo A (A.length - st.2.2.2) st.1 st.2.2.1 st.2.2.2, st.2.1)

/-! ### LIS (`longest_increasing_subsequence_indices`) -/

/-- The `while left < right` binary search of the patience-sorting loop;
`gas ≥ right - left` (each step shrinks the interval by at least one). -/
def bsearchGo (seq tails : List Nat) (value : Nat) : Nat → Nat → Nat → Nat
  | 0, left, _ => left
  | gas + 1, left, right =>
    if left < right then
      let mid := (left + right) / 2
      if seq.getD (tails.getD mid 0) 0 < value then bsearchGo seq tails value gas (mid + 1) right
      else bsearchGo seq tails value gas left mid
    else left

/-- Main patience-sorting loop over the sequence; state is
`(tail_indices, predecessors, length)`; `gas = seq.length - i`. -/
def lisGo (seq : List Nat) :
    Nat → Nat → List Nat → List (Option Nat) → Nat → List Nat × List (Option Nat) × Nat
  | 0, _, tails, preds, len => (tails, preds, len)
  | gas + 1, i, tails, preds, len =>
    if i < seq.length then
      let value := seq.getD i 0
      let left := bsearchGo seq tails value len 0 len
      let preds1 := if 0 < left then preds.set i (some (tails.getD (left - 1) 0)) else preds
      let tails1 := tails.set left i
      let len1 := if left + 1 > len then left + 1 else len
      lisGo seq gas (i + 1) tails1 preds1 len1
    else (tails, preds, len)

/-- Reconstruction of the LIS by following predecessor links from `k`.
The source pushes then reverses; here the chain is produced directly in
increasing order.  `gas = k + 1` suffices because a predecessor link
always points strictly backwards on states produced by `lisGo`. -/
def buildChain (preds : List (Option Nat)) : Nat → Nat → List Nat
  | 0, k => [k]
  | gas + 1, k =>
    match preds.getD k none with
    | some prev => buildChain preds gas prev ++ [k]
    | none => [k]

/-- Rust `longest_increasing_subsequence_indices`. -/
def longest_increasing_subsequence_indices (seq : List Nat) : List Nat :=
  if seq.isEmpty then []
  else
    let st := lisGo seq seq.length 0 (List.replicate seq.length 0)
      (List.replicate seq.length none) 0
    if st.2.2 = 0 then []
    else buildChain st.2.1 (st.1.getD (st.2.2 - 1) 0) (st.1.getD (st.2.2 - 1) 0)

/-! ### Move classification (`classify_matched_lines`) -/

/-- `is_in_lis` flags: positions listed in the LIS are marked, guarded by
the source's `get_mut` bounds check. -/
def markLis (n : Nat) (lis : List Nat) : List Bool :=
  lis.foldl (fun acc idx => if idx < n then acc.set idx true else acc) (List.replicate n false)

/-- One matched line relabelled by the classifier: kept `Unchanged` with
movement cleared, or made `Moved` with 1-based movement fields. -/
def relabel (flag : Bool) (old_idx new_idx : Nat) (l : DiffLine) : DiffLine :=
  if flag then { l with state := .Unchanged, moved_from := none, moved_to := none }
  else { l with state := .Moved, moved_from := some (old_idx + 1), moved_to := some (new_idx + 1) }

/-- Loop of `classify_matched_lines` over the matched-info entries;
`idx` indexes `is_in_lis`, `cur` is the open block
`(source_start, source_end, dest_start, dest_end)`. -/
def classifyGo (isin : List Bool) :
    List (Nat × Nat × Nat) → Nat → List DiffLine → Option (Nat × Nat × Nat × Nat) →
    List MovedBlock → List DiffLine × List MovedBlock
  | [], _, lines, cur, blocks =>
    match cur with
    | some c => (lines, blocks ++ [⟨c.1, c.2.1, c.2.2.1, c.2.2.2⟩])
    | none => (lines, blocks)
  | (line_idx, old_idx, new_idx) :: tl, idx, lines, cur, blocks =>
    let l0 := lines.getD line_idx default
    if isin.getD idx false then
      let lines1 := lines.set line_idx (relabel true old_idx new_idx l0)
      let blocks1 :=
        match cur with
        | some c => blocks ++ [⟨c.1, c.2.1, c.2.2.1, c.2.2.2⟩]
        | none => blocks
      classifyGo isin tl (idx + 1) lines1 none blocks1
    else
      let lines1 := lines.set line_idx (relabel false old_idx new_idx l0)
      let cur1 :=
        match cur with
        | some c => some (c.1, old_idx + 1, c.2.2.1, new_idx + 1)
        | none => some (old_idx + 1, old_idx + 1, new_idx + 1, new_idx + 1)
      classifyGo isin tl (idx + 1) lines1 cur1 blocks

/-- Rust `classify_matched_lines`: relabels matched lines in place and
returns the moved blocks. -/
def classify_matched_lines (lines : List DiffLine) (matched : List (Nat × Nat × Nat)) :
    List DiffLine × List MovedBlock :=
  if matched.isEmpty then (lines, [])
  else
    let sequence := matched.map (fun m => m.2.1)
    let lis := longest_increasing_subsequence_indices sequence
    let isin := markLis matched.length lis
    classifyGo isin matched 0 lines none []

/-- Rust `build_diff_lines` (including the classification pass it ends
with). -/
def build_diff_lines (A B : List ComparableLine) (oa na : List (Option Nat)) :
    List DiffLine × List MovedBlock :=
  let bm := build_matched A B oa na
  classify_matched_lines bm.1 bm.2

/-- `compute_diff` parameterized by the symbol-table lookup function. -/
def compute_diffWith (tbl : ComparableLine → Option (Nat × Nat))
    (A B : List ComparableLine) : DiffResult :=
  let links := diffLinks A B tbl
  let lb := build_diff_lines A B links.1 links.2
  DiffResult.with_moved_blocks lb.1 lb.2

/-- Rust `compute_diff` (the `DiffEngineOperations` impl for
`HeckelDiffEngine`). -/
def compute_diff (A B : List ComparableLine) : DiffResult :=
  compute_diffWith (build_symbol_table A B) A B

/-! ### Spec model of the moved-block grouping (for the amended C1) -/

/-- Matched entries paired with their `is_in_lis` flags, in match order. -/
def flagEntries (isin : List Bool) : Nat → List (Nat × Nat × Nat) → List (Bool × Nat × Nat)
  | _, [] => []
  | idx, (_, oi, ni) :: tl => (isin.getD idx false, oi, ni) :: flagEntries isin (idx + 1) tl

/-- Modelled from the spec, amended: scanning the flagged matches in
order, a block opens at the first non-LIS match of a run with that
match's 1-based source/destination numbers as the start fields, extends
while matches are non-LIS overwriting the end fields with the current
(hence, on closing, the last) source/destination numbers, and closes at
an LIS match or at the end of the list. -/
def specBlocksGo : List (Bool × Nat × Nat) → Option (Nat × Nat × Nat × Nat) → List MovedBlock
  | [], none => []
  | [], some c => [⟨c.1, c.2.1, c.2.2.1, c.2.2.2⟩]
  | (true, _, _) :: tl, none => specBlocksGo tl none
  | (true, _, _) :: tl, some c => ⟨c.1, c.2.1, c.2.2.1, c.2.2.2⟩ :: specBlocksGo tl none
  | (false, oi, ni) :: tl, none => specBlocksGo tl (some (oi + 1, oi + 1, ni + 1, ni + 1))
  | (false, oi, ni) :: tl, some c => specBlocksGo tl (some (c.1, oi + 1, c.2.2.1, ni + 1))

/-! ### Checked mirror (for C5)

Every index access that panics in the source (`v[i]` on slices and
vectors) is guarded here and returns `none` on the out-of-bounds branch;
checked accesses of the source (`.get`, `get_mut`, iterators) keep their
total modelling.  The reconstruction `loop` of
`longest_increasing_subsequence_indices`, which in the source only
terminates because predecessor links point strictly backwards, fails
(`none`) when its gas runs out, so totality of the mirror also certifies
its termination. -/

/-- Checked write `l[i] = a`; `none` models the Rust panic. -/
def setC {α : Type} (l : List α) (i : Nat) (a : α) : Option (List α) :=
  if i < l.length then some (l.set i a) else none

/-- Checked `link_unique_anchors` loop. -/
def linkUniqueGoC (A B : List ComparableLine) (tbl : ComparableLine → Option (Nat × Nat)) :
    Nat → Nat → List (Option Nat) → List (Option Nat) →
    Option (List (Option Nat) × List (Option Nat))
  | 0, _, oa, na => some (oa, na)
  | gas + 1, i, oa, na =>
    if i < A.length then
      match tbl (A.getD i default) with
      | some (1, 1) =>
        match B.findIdx? (fun l => lineEq l (A.getD i default)) with
        | some j =>
          match setC oa i (some j) with
          | none => none
          | some oa1 =>
            match setC na j (some i) with
            | none => none
            | some na1 => linkUniqueGoC A B tbl gas (i + 1) oa1 na1
        | none => linkUniqueGoC A B tbl gas (i + 1) oa na
      | _ => linkUniqueGoC A B tbl gas (i + 1) oa na
    else some (oa, na)

/-- Checked inner scan of `link_non_unique_matches` (its `na[j]` read). -/
def findFirstUnlinkedC (B : List ComparableLine) (na : List (Option Nat))
    (line : ComparableLine) : Nat → Nat → Option (Option Nat)
  | 0, _ => some none
  | gas + 1, j =>
    if j < B.length then
      match na[j]? with
      | none => none
      | some v =>
        if v.isNone && lineEq line (B.getD j default) then some (some j)
        else findFirstUnlinkedC B na line gas (j + 1)
    else some none

/-- Checked `link_non_unique_matches` loop. -/
def linkNonUniqueGoC (A B : List ComparableLine) (tbl : ComparableLine → Option (Nat × Nat)) :
    Nat → Nat → List (Option Nat) → List (Option Nat) →
    Option (List (Option Nat) × List (Option Nat))
  | 0, _, oa, na => some (oa, na)
  | gas + 1, i, oa, na =>
    if i < A.length then
      match oa[i]? with
      | none => none
      | some v =>
        if v.isSome then linkNonUniqueGoC A B tbl gas (i + 1) oa na
        else
          match tbl (A.getD i default) with
          | some (count_a, count_b) =>
            if count_a = 0 ∨ count_b = 0 then linkNonUniqueGoC A B tbl gas (i + 1) oa na
            else
              match findFirstUnlinkedC B na (A.getD i default) B.length 0 with
              | none => none
              | some (some j) =>
                match setC oa i (some j) with
                | none => none
                | some oa1 =>
                  match setC na j (some i) with
                  | none => none
                  | some na1 => linkNonUniqueGoC A B tbl gas (i + 1) oa1 na1
              | some none => linkNonUniqueGoC A B tbl gas (i + 1) oa na
          | none => linkNonUniqueGoC A B tbl gas (i + 1) oa na
    else some (oa, na)

/-- Checked version of both linking passes. -/
def diffLinksC (A B : List ComparableLine) (tbl : ComparableLine → Option (Nat × Nat)) :
    Option (List (Option Nat) × List (Option Nat)) :=
  match linkUniqueGoC A B tbl A.length 0 (List.replicate A.length none)
      (List.replicate B.length none) with
  | none => none
  | some st => linkNonUniqueGoC A B tbl A.length 0 st.1 st.2

/-- Checked matched-old computation (its `processed_old[i]` read; the
`na.get(j)`/`oa.get(i)` reads of the source are already checked there). -/
def matchedOldC (oa na : List (Option Nat)) (processed : List Bool) (j : Nat) :
    Option (Option Nat) :=
  match na.getD j none with
  | none => some none
  | some i =>
    if oa.getD i none = some j then
      match processed[i]? with
      | none => none
      | some p => some (if p = false then some i else none)
    else some none

/-- Checked inner flush loop of `build_diff_lines`. -/
def flushBeforeGoC (A : List ComparableLine) (oa : List (Option Nat)) (j i_match : Nat) :
    Nat → List DiffLine → List Bool → Nat → Option (List DiffLine × List Bool × Nat)
  | 0, res, processed, i_ptr => some (res, processed, i_ptr)
  | gas + 1, res, processed, i_ptr =>
    if i_ptr < i_match then
      match processed[i_ptr]? with
      | none => none
      | some p =>
        if p then flushBeforeGoC A oa j i_match gas res processed (i_ptr + 1)
        else
          match oa[i_ptr]? with
          | none => none
          | some (some mapped_j) =>
            if mapped_j ≥ j then some (res, processed, i_ptr)
            else
              match setC processed i_ptr true with
              | none => none
              | some p1 => flushBeforeGoC A oa j i_match gas res p1 (i_ptr + 1)
          | some none =>
            match A[i_ptr]? with
            | none => none
            | some la =>
              match setC processed i_ptr true with
              | none => none
              | some p1 =>
                flushBeforeGoC A oa j i_match gas
                  (res ++ [DiffLine.new .Deleted (some ⟨i_ptr + 1, la.original_text⟩) none])
                  p1 (i_ptr + 1)
    else some (res, processed, i_ptr)

/-- Checked skip loop of `build_diff_lines`. -/
def skipProcessedGoC (n : Nat) (processed : List Bool) : Nat → Nat → Option Nat
  | 0, i_ptr => some i_ptr
  | gas + 1, i_ptr =>
    if i_ptr < n then
      match processed[i_ptr]? with
      | none => none
      | some p => if p then skipProcessedGoC n processed gas (i_ptr + 1) else some i_ptr
    else some i_ptr

/-- Checked outer loop of `build_diff_lines`. -/
def buildGoC (A B : List ComparableLine) (oa na : List (Option Nat)) :
    Nat → Nat → List DiffLine → List (Nat × Nat × Nat) → List Bool → Nat →
    Option (List DiffLine × List (Nat × Nat × Nat) × List Bool × Nat)
  | 0, _, res, matched, processed, i_ptr => some (res, matched, processed, i_ptr)
  | gas + 1, j, res, matched, processed, i_ptr =>
    if j < B.length then
      match matchedOldC oa na processed j with
      | none => none
      | some (some i_match) =>
        match flushBeforeGoC A oa j i_match (i_match - i_ptr) res processed i_ptr with
        | none => none
        | some fl =>
          match A[i_match]? with
          | none => none
          | some la =>
            match B[j]? with
            | none => none
            | some lb =>
              match setC fl.2.1 i_match true with
              | none => none
              | some p2 =>
                let ip2 := if fl.2.2 = i_match then fl.2.2 + 1 else fl.2.2
                match skipProcessedGoC A.length p2 (A.length - ip2) ip2 with
                | none => none
                | some ip3 =>
                  buildGoC A B oa na gas (j + 1)
                    (fl.1 ++ [DiffLine.new .Unchanged
                      (some ⟨i_match + 1, la.original_text⟩)
                      (some ⟨j + 1, lb.original_text⟩)])
                    (matched ++ [(fl.1.length, i_match, j)]) p2 ip3
      | some none =>
        match B[j]? with
        | none => none
        | some lb =>
          buildGoC A B oa na gas (j + 1)
            (res ++ [DiffLine.new .Added none (some ⟨j + 1, lb.original_text⟩)])
            matched processed i_ptr
    else some (res, matched, processed, i_ptr)

/-- Checked final flush of `build_diff_lines`. -/
def flushRemainingGoC (A : List ComparableLine) :
    Nat → List DiffLine → List Bool → Nat → Option (List DiffLine)
  | 0, res, _, _ => some res
  | gas + 1, res, processed, i_ptr =>
    if i_ptr < A.length then
      match processed[i_ptr]? with
      | none => none
      | some p =>
        if p then flushRemainingGoC A gas res processed (i_ptr + 1)
        else
          match A[i_ptr]? with
          | none => none
          | some la =>
            match setC processed i_ptr true with
            | none => none
            | some p1 =>
              flushRemainingGoC A gas
                (res ++ [DiffLine.new .Deleted (some ⟨i_ptr + 1, la.original_text⟩) none])
                p1 (i_ptr + 1)
    else some res

/-- Checked binary search of the patience loop (its
`sequence[tail_indices[mid]]` read). -/
def bsearchGoC (seq tails : List Nat) (value : Nat) : Nat → Nat → Nat → Option Nat
  | 0, left, _ => some left
  | gas + 1, left, right =>
    if left < right then
      match tails[(left + right) / 2]? with
      | none => none
      | some t =>
        match seq[t]? with
        | none => none
        | some sv =>
          if sv < value then bsearchGoC seq tails value gas ((left + right) / 2 + 1) right
          else bsearchGoC seq tails value gas left ((left + right) / 2)
    else some left

/-- Checked patience-sorting loop (its `predecessors[i]`,
`tail_indices[left - 1]` and `tail_indices[left]` accesses). -/
def lisGoC (seq : List Nat) :
    Nat → Nat → List Nat → List (Option Nat) → Nat →
    Option (List Nat × List (Option Nat) × Nat)
  | 0, _, tails, preds, len => some (tails, preds, len)
  | gas + 1, i, tails, preds, len =>
    if i < seq.length then
      match bsearchGoC seq tails (seq.getD i 0) len 0 len with
      | none => none
      | some left =>
        match (if 0 < left then
            match tails[left - 1]? with
            | none => none
            | some t => setC preds i (some t)
          else some preds) with
        | none => none
        | some preds1 =>
          match setC tails left i with
          | none => none
          | some tails1 =>
            lisGoC seq gas (i + 1) tails1 preds1
              (if left + 1 > len then left + 1 else len)
    else some (tails, preds, len)

/-- Checked chain reconstruction (its `predecessors[k]` read); `none` on
exhausted gas models the `loop` not terminating. -/
def buildChainC (preds : List (Option Nat)) : Nat → Nat → Option (List Nat)
  | 0, k =>
    (match preds[k]? with
     | none => none
     | some (some _) => none
     | some none => some [k])
  | gas + 1, k =>
    match preds[k]? with
    | none => none
    | some (some prev) =>
      match buildChainC preds gas prev with
      | none => none
      | some rest => some (rest ++ [k])
    | some none => some [k]

/-- Checked `longest_increasing_subsequence_indices` (its
`tail_indices[length - 1]` read and the reconstruction loop). -/
def lisIndicesC (seq : List Nat) : Option (List Nat) :=
  if seq.isEmpty then some []
  else
    match lisGoC seq seq.length 0 (List.replicate seq.length 0)
      (List.replicate seq.length none) 0 with
    | none => none
    | some st =>
      if st.2.2 = 0 then some []
      else
        match st.1[st.2.2 - 1]? with
        | none => none
        | some k => buildChainC st.2.1 k k

/-- Checked classification loop (its `lines[*line_idx]` access and the
`is_in_lis[idx]` read). -/
def classifyGoC (isin : List Bool) :
    List (Nat × Nat × Nat) → Nat → List DiffLine → Option (Nat × Nat × Nat × Nat) →
    List MovedBlock → Option (List DiffLine × List MovedBlock)
  | [], _, lines, cur, blocks =>
    match cur with
    | some c => some (lines, blocks ++ [⟨c.1, c.2.1, c.2.2.1, c.2.2.2⟩])
    | none => some (lines, blocks)
  | (line_idx, old_idx, new_idx) :: tl, idx, lines, cur, blocks =>
    match lines[line_idx]? with
    | none => none
    | some l0 =>
      match isin[idx]? with
      | none => none
      | some flag =>
        if flag then
          match setC lines line_idx (relabel true old_idx new_idx l0) with
          | none => none
          | some lines1 =>
            classifyGoC isin tl (idx + 1) lines1 none
              (match cur with
               | some c => blocks ++ [⟨c.1, c.2.1, c.2.2.1, c.2.2.2⟩]
               | none => blocks)
        else
          match setC lines line_idx (relabel false old_idx new_idx l0) with
          | none => none
          | some lines1 =>
            classifyGoC isin tl (idx + 1) lines1
              (match cur with
               | some c => some (c.1, old_idx + 1, c.2.2.1, new_idx + 1)
               | none => some (old_idx + 1, old_idx + 1, new_idx + 1, new_idx + 1))
              blocks

/-- Checked `classify_matched_lines`. -/
def classify_matched_linesC (lines : List DiffLine) (matched : List (Nat × Nat × Nat)) :
    Option (List DiffLine × List MovedBlock) :=
  if matched.isEmpty then some (lines, [])
  else
    match lisIndicesC (matched.map (fun m => m.2.1)) with
    | none => none
    | some lis => classifyGoC (markLis matched.length lis) matched 0 lines none []

/-- Checked `build_diff_lines`. -/
def build_diff_linesC (A B : List ComparableLine) (oa na : List (Option Nat)) :
    Option (List DiffLine × List MovedBlock) :=
  match buildGoC A B oa na B.length 0 [] [] (List.replicate A.length false) 0 with
  | none => none
  | some st =>
    match flushRemainingGoC A (A.length - st.2.2.2) st.1 st.2.2.1 st.2.2.2 with
    | none => none
    | some res => classify_matched_linesC res st.2.1

/-- Checked `compute_diff`: `none` wherever the source would panic (or,
in the reconstruction loop, diverge). -/
def compute_diffC (A B : List ComparableLine) : Option DiffResult :=
  match diffLinksC A B (build_symbol_table A B) with
  | none => none
  | some links =>
    match build_diff_linesC A B links.1 links.2 with
    | none => none
    | some lb => some (DiffResult.with_moved_blocks lb.1 lb.2)

/-! ## Generic list lemmas -/

theorem getD_set_self {α : Type} (l : List α) (i : Nat) (a d : α) (h : i < l.length) :
    (l.set i a).getD i d = a := by
  rw [List.getD_eq_getElem _ _ (by simpa using h)]
  simp [List.getElem_set, h]

theorem getD_set_ne {α : Type} (l : List α) (i j : Nat) (a d : α) (h : i ≠ j) :
    (l.set i a).getD j d = l.getD j d := by
  rcases Nat.lt_or_ge j l.length with hj | hj
  · rw [List.getD_eq_getElem _ _ (by simpa using hj), List.getD_eq_getElem _ _ hj]
    rw [List.getElem_set_of_ne (fun hh => h hh)]
  · rw [List.getD_eq_default _ _ (by simpa using hj), List.getD_eq_default _ _ hj]

theorem getD_replicate_lt {α : Type} (n i : Nat) (a d : α) (h : i < n) :
    (List.replicate n a).getD i d = a := by
  rw [List.getD_eq_getElem _ _ (by simpa using h)]
  simp

theorem one_le_countP {α : Type} (p : α → Bool) (d : α) :
    ∀ (l : List α) (i : Nat), i < l.length → p (l.getD i d) → 1 ≤ l.countP p := by
  intro l
  induction l with
  | nil => intro i h; simp at h
  | cons x xs ih =>
    intro i h hp
    match i with
    | 0 =>
      simp only [List.getD_cons_zero] at hp
      rw [List.countP_cons, if_pos hp]
      omega
    | i + 1 =>
      simp only [List.getD_cons_succ] at hp
      have := ih i (by simpa using h) hp
      rw [List.countP_cons]
      split <;> omega

theorem two_le_countP {α : Type} (p : α → Bool) (d : α) :
    ∀ (l : List α) (i i' : Nat), i < i' → i' < l.length → p (l.getD i d) → p (l.getD i' d) →
      2 ≤ l.countP p := by
  intro l
  induction l with
  | nil => intro i i' _ h2 _ _; simp at h2
  | cons x xs ih =>
    intro i i' h1 h2 hp hp'
    match i, i' with
    | 0, i' + 1 =>
      simp only [List.getD_cons_zero] at hp
      simp only [List.getD_cons_succ] at hp'
      rw [List.countP_cons, if_pos hp]
      have := one_le_countP p d xs i' (by simpa using h2) hp'
      omega
    | i + 1, i' + 1 =>
      simp only [List.getD_cons_succ] at hp hp'
      have := ih i i' (by omega) (by simpa using h2) hp hp'
      rw [List.countP_cons]
      split <;> omega

theorem getD_of_some {α : Type} (l : List (Option α)) (i : Nat) (a : α)
    (h : l.getD i none = some a) : i < l.length := by
  by_contra hn
  rw [List.getD_eq_default _ _ (by omega)] at h
  exact Option.noConfusion h

/-! ## C9: determinism with respect to the symbol-table representation -/

/-- C9: `compute_diff` is deterministic and independent of the hash map's
internal state: any two table representations whose lookups agree with the
occurrence counts of the two inputs (which is all that the algorithm ever
asks of the `HashMap`) produce the very same `DiffResult` as
`compute_diff A B`. -/
theorem compute_diff_deterministic (A B : List ComparableLine)
    (t1 t2 : ComparableLine → Option (Nat × Nat))
    (h1 : ∀ l, t1 l = build_symbol_table A B l)
    (h2 : ∀ l, t2 l = build_symbol_table A B l) :
    compute_diffWith t1 A B = compute_diff A B ∧
    compute_diffWith t2 A B = compute_diff A B := by
  have e1 : t1 = build_symbol_table A B := funext h1
  have e2 : t2 = build_symbol_table A B := funext h2
  subst e1; subst e2
  exact ⟨rfl, rfl⟩

/-- Witness for `compute_diff_deterministic` at a concrete input. -/
theorem compute_diff_deterministic_witness :
    (∀ l, build_symbol_table [ComparableLine.mk "x" "x"] [] l =
      build_symbol_table [ComparableLine.mk "x" "x"] [] l) ∧
    compute_diffWith (build_symbol_table [ComparableLine.mk "x" "x"] [])
        [ComparableLine.mk "x" "x"] [] =
      compute_diff [ComparableLine.mk "x" "x"] [] :=
  ⟨fun _ => rfl,
    (compute_diff_deterministic [ComparableLine.mk "x" "x"] []
      (build_symbol_table [ComparableLine.mk "x" "x"] [])
      (build_symbol_table [ComparableLine.mk "x" "x"] [])
      (fun _ => rfl) (fun _ => rfl)).1⟩

/-! ## C8: the duplicate-resolution pass -/

theorem countKey_eq_countP (ls : List ComparableLine) (key : String) :
    countKey ls key = ls.countP (fun l => l.comparable_text == key) :=
  (List.countP_eq_length_filter _ _).symm

theorem countKey_pos (A : List ComparableLine) (i : Nat) (h : i < A.length) :
    0 < countKey A (A.getD i default).comparable_text := by
  rw [countKey_eq_countP]
  have : 1 ≤ A.countP (fun l => l.comparable_text == (A.getD i default).comparable_text) := by
    apply one_le_countP _ default A i h
    simp
  omega

/-- Characterization of `findFirstUnlinked`'s scan from position `j`. -/
theorem findFirstUnlinked_go_spec (B : List ComparableLine) (na : List (Option Nat))
    (line : ComparableLine) :
    ∀ gas j, B.length ≤ j + gas →
      (∀ k, findFirstUnlinked B na line gas j = some k →
        j ≤ k ∧ k < B.length ∧ na.getD k none = none ∧
        lineEq line (B.getD k default) = true ∧
        ∀ j', j ≤ j' → j' < k →
          ¬(na.getD j' none = none ∧ lineEq line (B.getD j' default) = true)) ∧
      (findFirstUnlinked B na line gas j = none →
        ∀ k, j ≤ k → k < B.length →
          ¬(na.getD k none = none ∧ lineEq line (B.getD k default) = true)) := by
  intro gas
  induction gas with
  | zero =>
    intro j hle
    constructor
    · intro k hk; simp [findFirstUnlinked] at hk
    · intro _ k hjk hk; omega
  | succ gas ih =>
    intro j hle
    by_cases hj : j < B.length
    · rw [findFirstUnlinked, if_pos hj]
      by_cases hit : ((na.getD j none).isNone && lineEq line (B.getD j default)) = true
      · rw [if_pos hit]
        simp only [Bool.and_eq_true, Option.isNone_iff_eq_none] at hit
        constructor
        · intro k hk
          injection hk with hk
          subst hk
          exact ⟨le_refl _, hj, hit.1, hit.2, fun j' h1 h2 => absurd h1 (by omega)⟩
        · intro hk; exact Option.noConfusion hk
      · rw [if_neg hit]
        have ihj := ih (j + 1) (by omega)
        simp only [Bool.and_eq_true, Option.isNone_iff_eq_none, not_and] at hit
        constructor
        · intro k hk
          obtain ⟨h1, h2, h3, h4, h5⟩ := ihj.1 k hk
          refine ⟨by omega, h2, h3, h4, ?_⟩
          intro j' hj1 hj2
          rcases Nat.eq_or_lt_of_le hj1 with rfl | hlt
          · intro ⟨hn, he⟩
            exact (hit hn) he
          · exact h5 j' hlt hj2
        · intro hk k hjk hkB
          rcases Nat.eq_or_lt_of_le hjk with rfl | hlt
          · intro ⟨hn, he⟩
            exact (hit hn) he
          · exact ihj.2 hk k hlt hkB
    · rw [findFirstUnlinked, if_neg hj]
      constructor
      · intro k hk; exact Option.noConfusion hk
      · intro _ k hjk hkB; omega

/-- Modelled from the spec (§4.2): the leftmost still-unlinked position of
`B` whose comparison key equals the given line's. -/
def leftmostUnlinkedEqual (B : List ComparableLine) (na : List (Option Nat))
    (line : ComparableLine) : Option Nat :=
  (List.range B.length).find?
    (fun j => (na.getD j none).isNone && lineEq line (B.getD j default))

theorem findFirstUnlinked_go_eq_range' (B : List ComparableLine) (na : List (Option Nat))
    (line : ComparableLine) :
    ∀ gas j, gas + j = B.length →
      findFirstUnlinked B na line gas j =
        (List.range' j gas).find?
          (fun k => (na.getD k none).isNone && lineEq line (B.getD k default)) := by
  intro gas
  induction gas with
  | zero => intro j _; simp [findFirstUnlinked]
  | succ gas ih =>
    intro j hj
    rw [findFirstUnlinked, if_pos (by omega), List.range'_succ]
    by_cases hit : ((na.getD j none).isNone && lineEq line (B.getD j default)) = true
    · rw [if_pos hit]
      simp only [List.find?]
      rw [hit]
    · rw [if_neg hit]
      simp only [List.find?]
      rw [Bool.eq_false_iff.mpr hit]
      exact ih (j + 1) (by omega)

theorem findFirstUnlinked_eq_leftmost (B : List ComparableLine) (na : List (Option Nat))
    (line : ComparableLine) :
    findFirstUnlinked B na line B.length 0 = leftmostUnlinkedEqual B na line := by
  rw [findFirstUnlinked_go_eq_range' B na line B.length 0 (by omega),
    leftmostUnlinkedEqual, List.range_eq_range']

/-- Modelled from the spec (§4.2): one step of the duplicate-resolution
pass at position `i` of `A`: if `i` is still unlinked and its key has both
occurrence counts positive, link it to the leftmost still-unlinked
equal-key position of `B` (if any); otherwise leave the arrays unchanged. -/
def duplicateResolutionStep (A B : List ComparableLine) (oa na : List (Option Nat))
    (i : Nat) : List (Option Nat) × List (Option Nat) :=
  if oa.getD i none = none ∧ 0 < countKey A (A.getD i default).comparable_text ∧
      0 < countKey B (A.getD i default).comparable_text then
    match leftmostUnlinkedEqual B na (A.getD i default) with
    | some j => (oa.set i (some j), na.set j (some i))
    | none => (oa, na)
  else (oa, na)

/-- C8: each step of `link_non_unique_matches` performs exactly the
spec's duplicate-resolution step, and the position it links to (when one
exists) is the leftmost still-unlinked equal-key position of `B`. -/
theorem link_non_unique_step (A B : List ComparableLine) (oa na : List (Option Nat))
    (i gas : Nat) (hi : i < A.length) :
    (linkNonUniqueGo A B (build_symbol_table A B) (gas + 1) i oa na =
      linkNonUniqueGo A B (build_symbol_table A B) gas (i + 1)
        (duplicateResolutionStep A B oa na i).1 (duplicateResolutionStep A B oa na i).2) ∧
    (∀ j, leftmostUnlinkedEqual B na (A.getD i default) = some j →
      j < B.length ∧ na.getD j none = none ∧
      lineEq (A.getD i default) (B.getD j default) = true ∧
      ∀ j', j' < j →
        ¬(na.getD j' none = none ∧ lineEq (A.getD i default) (B.getD j' default) = true)) ∧
    (leftmostUnlinkedEqual B na (A.getD i default) = none →
      ∀ j, j < B.length →
        ¬(na.getD j none = none ∧ lineEq (A.getD i default) (B.getD j default) = true)) := by
  have hca := countKey_pos A i hi
  have hspec := findFirstUnlinked_go_spec B na (A.getD i default) B.length 0 (by omega)
  have heq := findFirstUnlinked_eq_leftmost B na (A.getD i default)
  refine ⟨?_, ?_, ?_⟩
  · rw [linkNonUniqueGo, if_pos hi, duplicateResolutionStep, ← heq]
    cases hoa : oa.getD i none with
    | some v =>
      rw [if_pos (by rfl), if_neg (by simp)]
    | none =>
      rw [if_neg (by simp)]
      have htbl : build_symbol_table A B (A.getD i default) =
          some (countKey A (A.getD i default).comparable_text,
            countKey B (A.getD i default).comparable_text) := by
        simp only [build_symbol_table]
        rw [if_neg (by omega)]
      rw [htbl]
      show (if countKey A (A.getD i default).comparable_text = 0 ∨
              countKey B (A.getD i default).comparable_text = 0 then
            linkNonUniqueGo A B (build_symbol_table A B) gas (i + 1) oa na
          else
            match findFirstUnlinked B na (A.getD i default) B.length 0 with
            | some j => linkNonUniqueGo A B (build_symbol_table A B) gas (i + 1)
                (oa.set i (some j)) (na.set j (some i))
            | none => linkNonUniqueGo A B (build_symbol_table A B) gas (i + 1) oa na) = _
      by_cases hcb : countKey B (A.getD i default).comparable_text = 0
      · rw [if_pos (Or.inr hcb), if_neg (by omega)]
      · rw [if_neg (by omega), if_pos ⟨rfl, hca, by omega⟩]
        cases findFirstUnlinked B na (A.getD i default) B.length 0 with
        | some j => rfl
        | none => rfl
  · intro j hj
    rw [← heq] at hj
    obtain ⟨_, h2, h3, h4, h5⟩ := hspec.1 j hj
    exact ⟨h2, h3, h4, fun j' hj' => h5 j' (by omega) hj'⟩
  · intro hn j hjB
    rw [← heq] at hn
    exact hspec.2 hn j (by omega) hjB

/-- Witness for `link_non_unique_step`: a concrete duplicate-resolution
step that links position 0 of `A` to position 1 of `B` (position 0 of `B`
is already linked). -/
theorem link_non_unique_step_witness :
    (0 < 1) ∧
    ((linkNonUniqueGo [ComparableLine.mk "x" "k"] [ComparableLine.mk "y" "k", ComparableLine.mk "z" "k"]
        (build_symbol_table [ComparableLine.mk "x" "k"]
          [ComparableLine.mk "y" "k", ComparableLine.mk "z" "k"]) (0 + 1) 0 [none] [some 5, none] =
      linkNonUniqueGo [ComparableLine.mk "x" "k"] [ComparableLine.mk "y" "k", ComparableLine.mk "z" "k"]
        (build_symbol_table [ComparableLine.mk "x" "k"]
          [ComparableLine.mk "y" "k", ComparableLine.mk "z" "k"]) 0 (0 + 1)
        (duplicateResolutionStep [ComparableLine.mk "x" "k"]
          [ComparableLine.mk "y" "k", ComparableLine.mk "z" "k"] [none] [some 5, none] 0).1
        (duplicateResolutionStep [ComparableLine.mk "x" "k"]
          [ComparableLine.mk "y" "k", ComparableLine.mk "z" "k"] [none] [some 5, none] 0).2) ∧
    (∀ j, leftmostUnlinkedEqual [ComparableLine.mk "y" "k", ComparableLine.mk "z" "k"]
        [some 5, none] (([ComparableLine.mk "x" "k"] : List ComparableLine).getD 0 default) = some j →
      j < 2 ∧ ([some 5, none] : List (Option Nat)).getD j none = none ∧
      lineEq (([ComparableLine.mk "x" "k"] : List ComparableLine).getD 0 default)
        (([ComparableLine.mk "y" "k", ComparableLine.mk "z" "k"] : List ComparableLine).getD j default) = true ∧
      ∀ j', j' < j →
        ¬(([some 5, none] : List (Option Nat)).getD j' none = none ∧
          lineEq (([ComparableLine.mk "x" "k"] : List ComparableLine).getD 0 default)
            (([ComparableLine.mk "y" "k", ComparableLine.mk "z" "k"] : List ComparableLine).getD j' default) = true)) ∧
    (leftmostUnlinkedEqual [ComparableLine.mk "y" "k", ComparableLine.mk "z" "k"]
        [some 5, none] (([ComparableLine.mk "x" "k"] : List ComparableLine).getD 0 default) = none →
      ∀ j, j < 2 →
        ¬(([some 5, none] : List (Option Nat)).getD j none = none ∧
          lineEq (([ComparableLine.mk "x" "k"] : List ComparableLine).getD 0 default)
            (([ComparableLine.mk "y" "k", ComparableLine.mk "z" "k"] : List ComparableLine).getD j default) = true))) :=
  ⟨by decide,
    link_non_unique_step [ComparableLine.mk "x" "k"]
      [ComparableLine.mk "y" "k", ComparableLine.mk "z" "k"]
      [none] [some 5, none] 0 0 (by decide)⟩

/-! ## Invariants of the linking passes -/

theorem lineEq_iff (a b : ComparableLine) :
    lineEq a b = true ↔ a.comparable_text = b.comparable_text := by
  simp [lineEq]

theorem getD_replicate_none {α : Type} (n i : Nat) :
    (List.replicate n (none : Option α)).getD i none = none := by
  rcases Nat.lt_or_ge i n with h | h
  · exact getD_replicate_lt n i none none h
  · exact List.getD_eq_default _ _ (by simpa using h)

/-- The well-formedness invariant of the correspondence arrays: correct
lengths, mutually inverse links, and key-equality of every linked pair. -/
structure LinkState (A B : List ComparableLine) (oa na : List (Option Nat)) : Prop where
  lenA : oa.length = A.length
  lenB : na.length = B.length
  symAB : ∀ i j, oa.getD i none = some j → na.getD j none = some i
  symBA : ∀ i j, na.getD j none = some i → oa.getD i none = some j
  keys : ∀ i j, oa.getD i none = some j →
    lineEq (A.getD i default) (B.getD j default) = true

theorem LinkState.oa_bounds {A B : List ComparableLine} {oa na : List (Option Nat)}
    (h : LinkState A B oa na) {i j : Nat} (hij : oa.getD i none = some j) :
    i < A.length ∧ j < B.length := by
  have h1 := getD_of_some oa i j hij
  have h2 := getD_of_some na j i (h.symAB i j hij)
  rw [h.lenA] at h1
  rw [h.lenB] at h2
  exact ⟨h1, h2⟩

theorem linkState_init (A B : List ComparableLine) :
    LinkState A B (List.replicate A.length none) (List.replicate B.length none) := by
  refine ⟨by simp, by simp, ?_, ?_, ?_⟩ <;>
    (intro i j h; rw [getD_replicate_none] at h; exact Option.noConfusion h)

/-- The unique-anchor pass preserves `LinkState`, provided all positions
from the loop counter upward are still unlinked (which is how the pass is
entered). -/
theorem linkUniqueGo_linkState (A B : List ComparableLine) :
    ∀ gas i oa na,
      LinkState A B oa na →
      (∀ k, i ≤ k → oa.getD k none = none) →
      LinkState A B (linkUniqueGo A B (build_symbol_table A B) gas i oa na).1
        (linkUniqueGo A B (build_symbol_table A B) gas i oa na).2 := by
  intro gas
  induction gas with
  | zero =>
    intro i oa na hls _
    rw [linkUniqueGo]
    exact hls
  | succ gas ih =>
    intro i oa na hls hup
    by_cases hi : i < A.length
    · rw [linkUniqueGo, if_pos hi]
      split
      · next hpq =>
        -- table lookup returned `some (1, 1)`
        have hcounts : countKey A (A.getD i default).comparable_text = 1 ∧
            countKey B (A.getD i default).comparable_text = 1 := by
          simp only [build_symbol_table] at hpq
          split_ifs at hpq with hzz
          rw [Option.some_inj, Prod.mk.injEq] at hpq
          exact hpq
        split
        · next j hj =>
          -- `findIdx?` found the unique matching position `j` of `B`
          obtain ⟨hjB, hpj, -⟩ := List.findIdx?_eq_some_iff_getElem.mp hj
          have hkeyS : (A.getD i default).comparable_text =
              (B.getD j default).comparable_text := by
            have := (lineEq_iff _ _).mp hpj
            rw [List.getD_eq_getElem _ _ hjB]
            exact this.symm
          have hkey : lineEq (A.getD i default) (B.getD j default) = true :=
            (lineEq_iff _ _).mpr hkeyS
          have hjna : na.getD j none = none := by
            cases hna : na.getD j none with
            | none => rfl
            | some i0 =>
              exfalso
              have hoi0 := hls.symBA i0 j hna
              have hi0 : i0 < A.length := (hls.oa_bounds hoi0).1
              have hne : i0 ≠ i := by
                intro he
                rw [he, hup i (le_refl i)] at hoi0
                exact Option.noConfusion hoi0
              have hk0S : (A.getD i0 default).comparable_text =
                  (B.getD j default).comparable_text :=
                (lineEq_iff _ _).mp (hls.keys i0 j hoi0)
              -- two distinct positions of `A` share the key: contradicts count 1
              have h2 : 2 ≤ countKey A (A.getD i default).comparable_text := by
                rw [countKey_eq_countP]
                have hp0 : ((A.getD i0 default).comparable_text ==
                    (A.getD i default).comparable_text) = true := by
                  rw [beq_iff_eq, hk0S, hkeyS]
                have hpi : ((A.getD i default).comparable_text ==
                    (A.getD i default).comparable_text) = true := by
                  rw [beq_iff_eq]
                rcases Nat.lt_or_ge i0 i with hlt | hge
                · exact two_le_countP _ default A i0 i hlt hi hp0 hpi
                · exact two_le_countP _ default A i i0 (by omega) hi0 hpi hp0
              omega
          have hna_len : j < na.length := by rw [hls.lenB]; exact hjB
          have hoa_len : i < oa.length := by rw [hls.lenA]; exact hi
          have hls1 : LinkState A B (oa.set i (some j)) (na.set j (some i)) := by
            refine ⟨by simpa using hls.lenA, by simpa using hls.lenB, ?_, ?_, ?_⟩
            · intro i0 j0 h0
              by_cases hii : i0 = i
              · subst hii
                rw [getD_set_self _ _ _ _ hoa_len] at h0
                injection h0 with h0
                subst h0
                rw [getD_set_self _ _ _ _ hna_len]
              · rw [getD_set_ne _ _ _ _ _ (fun he => hii he.symm)] at h0
                have hjj : j0 ≠ j := by
                  intro he
                  subst he
                  have := hls.symAB i0 j0 h0
                  rw [hjna] at this
                  exact Option.noConfusion this
                rw [getD_set_ne _ _ _ _ _ (fun he => hjj he.symm)]
                exact hls.symAB i0 j0 h0
            · intro i0 j0 h0
              by_cases hjj : j0 = j
              · subst hjj
                rw [getD_set_self _ _ _ _ hna_len] at h0
                injection h0 with h0
                subst h0
                rw [getD_set_self _ _ _ _ hoa_len]
              · rw [getD_set_ne _ _ _ _ _ (fun he => hjj he.symm)] at h0
                have hii : i0 ≠ i := by
                  intro he
                  subst he
                  have := hls.symBA i0 j0 h0
                  rw [hup i0 (le_refl i0)] at this
                  exact Option.noConfusion this
                rw [getD_set_ne _ _ _ _ _ (fun he => hii he.symm)]
                exact hls.symBA i0 j0 h0
            · intro i0 j0 h0
              by_cases hii : i0 = i
              · subst hii
                rw [getD_set_self _ _ _ _ hoa_len] at h0
                injection h0 with h0
                subst h0
                exact hkey
              · rw [getD_set_ne _ _ _ _ _ (fun he => hii he.symm)] at h0
                exact hls.keys i0 j0 h0
          refine ih (i + 1) _ _ hls1 ?_
          intro k hk
          rw [getD_set_ne _ _ _ _ _ (by omega)]
          exact hup k (by omega)
        · exact ih (i + 1) oa na hls (fun k hk => hup k (by omega))
      · exact ih (i + 1) oa na hls (fun k hk => hup k (by omega))
    · rw [linkUniqueGo, if_neg hi]
      exact hls

/-- The duplicate-resolution pass preserves `LinkState` (for any table). -/
theorem linkNonUniqueGo_linkState (A B : List ComparableLine)
    (tbl : ComparableLine → Option (Nat × Nat)) :
    ∀ gas i oa na,
      LinkState A B oa na →
      LinkState A B (linkNonUniqueGo A B tbl gas i oa na).1
        (linkNonUniqueGo A B tbl gas i oa na).2 := by
  intro gas
  induction gas with
  | zero =>
    intro i oa na hls
    rw [linkNonUniqueGo]
    exact hls
  | succ gas ih =>
    intro i oa na hls
    by_cases hi : i < A.length
    · rw [linkNonUniqueGo, if_pos hi]
      cases hoa : oa.getD i none with
      | some v =>
        rw [if_pos (by rfl)]
        exact ih (i + 1) oa na hls
      | none =>
        rw [if_neg (by simp)]
        split
        · split
          · exact ih (i + 1) oa na hls
          · split
            · next j hj =>
              obtain ⟨-, hjB, hjna, hkey, -⟩ :=
                (findFirstUnlinked_go_spec B na (A.getD i default) B.length 0 (by omega)).1 j hj
              have hna_len : j < na.length := by rw [hls.lenB]; exact hjB
              have hoa_len : i < oa.length := by rw [hls.lenA]; exact hi
              refine ih (i + 1) _ _ ?_
              refine ⟨by simpa using hls.lenA, by simpa using hls.lenB, ?_, ?_, ?_⟩
              · intro i0 j0 h0
                by_cases hii : i0 = i
                · subst hii
                  rw [getD_set_self _ _ _ _ hoa_len] at h0
                  injection h0 with h0
                  subst h0
                  rw [getD_set_self _ _ _ _ hna_len]
                · rw [getD_set_ne _ _ _ _ _ (fun he => hii he.symm)] at h0
                  have hjj : j0 ≠ j := by
                    intro he
                    subst he
                    have := hls.symAB i0 j0 h0
                    rw [hjna] at this
                    exact Option.noConfusion this
                  rw [getD_set_ne _ _ _ _ _ (fun he => hjj he.symm)]
                  exact hls.symAB i0 j0 h0
              · intro i0 j0 h0
                by_cases hjj : j0 = j
                · subst hjj
                  rw [getD_set_self _ _ _ _ hna_len] at h0
                  injection h0 with h0
                  subst h0
                  rw [getD_set_self _ _ _ _ hoa_len]
                · rw [getD_set_ne _ _ _ _ _ (fun he => hjj he.symm)] at h0
                  have hii : i0 ≠ i := by
                    intro he
                    subst he
                    have := hls.symBA i0 j0 h0
                    rw [hoa] at this
                    exact Option.noConfusion this
                  rw [getD_set_ne _ _ _ _ _ (fun he => hii he.symm)]
                  exact hls.symBA i0 j0 h0
              · intro i0 j0 h0
                by_cases hii : i0 = i
                · subst hii
                  rw [getD_set_self _ _ _ _ hoa_len] at h0
                  injection h0 with h0
                  subst h0
                  exact hkey
                · rw [getD_set_ne _ _ _ _ _ (fun he => hii he.symm)] at h0
                  exact hls.keys i0 j0 h0
            · exact ih (i + 1) oa na hls
        · exact ih (i + 1) oa na hls
    · rw [linkNonUniqueGo, if_neg hi]
      exact hls

/-- The correspondence arrays produced by the two linking passes satisfy
the link invariant. -/
theorem diffLinks_linkState (A B : List ComparableLine) :
    LinkState A B (diffLinks A B (build_symbol_table A B)).1
      (diffLinks A B (build_symbol_table A B)).2 := by
  rw [diffLinks, link_non_unique_matches]
  apply linkNonUniqueGo_linkState
  rw [link_unique_anchors]
  apply linkUniqueGo_linkState
  · exact linkState_init A B
  · intro k _
    exact getD_replicate_none _ _

/-! ## Invariants of the alignment builder -/

/-- The left (old-side) 1-based numbers of the `Deleted` lines of a diff
line list, in emission order. -/
def delNums (lines : List DiffLine) : List Nat :=
  lines.filterMap (fun l =>
    match l.state, l.left with
    | .Deleted, some c => some c.line_number
    | _, _ => none)

theorem delNums_append (l1 l2 : List DiffLine) :
    delNums (l1 ++ l2) = delNums l1 ++ delNums l2 := by
  simp [delNums]

theorem delNums_added (B : List ComparableLine) (j : Nat) :
    delNums [addedLine B j] = [] := by
  simp [delNums, addedLine, DiffLine.new]

theorem delNums_unchanged (A B : List ComparableLine) (i j : Nat) :
    delNums [unchangedLine A B i j] = [] := by
  simp [delNums, unchangedLine, DiffLine.new]

theorem delNums_deleted (A : List ComparableLine) (i : Nat) :
    delNums [deletedLine A i] = [i + 1] := by
  simp [delNums, deletedLine, DiffLine.new]

theorem matchedOld_eq_some (oa na : List (Option Nat)) (processed : List Bool) (j i : Nat) :
    matchedOld oa na processed j = some i ↔
      na.getD j none = some i ∧ oa.getD i none = some j ∧ processed.getD i false = false := by
  rw [matchedOld]
  cases hna : na.getD j none with
  | none =>
    constructor
    · intro h; exact Option.noConfusion h
    · intro ⟨h, _⟩; exact Option.noConfusion h
  | some i0 =>
    show (if oa.getD i0 none = some j ∧ processed.getD i0 false = false then some i0 else none)
        = some i ↔ _
    by_cases hc : oa.getD i0 none = some j ∧ processed.getD i0 false = false
    · rw [if_pos hc]
      constructor
      · intro h
        injection h with h
        subst h
        exact ⟨rfl, hc⟩
      · intro ⟨h, _⟩
        injection h with h
        rw [h]
    · rw [if_neg hc]
      constructor
      · intro h; exact Option.noConfusion h
      · intro ⟨h1, h2, h3⟩
        injection h1 with h1
        subst h1
        exact absurd ⟨h2, h3⟩ hc

theorem getD_set_true_mono (p : List Bool) (k i : Nat) (h : p.getD i false = true) :
    (p.set k true).getD i false = true := by
  by_cases hk : k = i
  · subst hk
    rcases Nat.lt_or_ge k p.length with hlt | hge
    · exact getD_set_self _ _ _ _ hlt
    · rw [List.set_eq_of_length_le (by omega)]
      exact h
  · rw [getD_set_ne _ _ _ _ _ hk]
    exact h

theorem getD_concat_length {α : Type} (l : List α) (x d : α) :
    (l ++ [x]).getD l.length d = x := by
  rw [List.getD_eq_getElem _ _ (by simp)]
  simp

theorem getD_append_lt {α : Type} (l l2 : List α) (i : Nat) (d : α) (h : i < l.length) :
    (l ++ l2).getD i d = l.getD i d := by
  rw [List.getD_eq_getElem _ _ (by simp; omega), List.getD_eq_getElem _ _ h]
  exact List.getElem_append_left _

/-- The invariant carried through the outer loop of `build_diff_lines`.
`j` is the loop counter; `res`, `matched`, `processed`, `i_ptr` the loop
state. -/
structure BuildInv (A B : List ComparableLine) (oa na : List (Option Nat)) (j : Nat)
    (res : List DiffLine) (matched : List (Nat × Nat × Nat)) (processed : List Bool)
    (i_ptr : Nat) : Prop where
  lenP : processed.length = A.length
  iptrLe : i_ptr ≤ A.length
  belowPtr : ∀ i, i < i_ptr → processed.getD i false = true
  linkedProc : ∀ i j', oa.getD i none = some j' → j' < j → processed.getD i false = true
  mEntry : ∀ e ∈ matched, oa.getD e.2.1 none = some e.2.2 ∧ e.2.2 < j ∧
    e.1 < res.length ∧ res.getD e.1 default = unchangedLine A B e.2.1 e.2.2
  mJs : List.Pairwise (fun e1 e2 : Nat × Nat × Nat => e1.2.2 < e2.2.2) matched
  mLineIdx : List.Pairwise (fun e1 e2 : Nat × Nat × Nat => e1.1 < e2.1) matched
  mOldsDistinct : List.Pairwise (fun e1 e2 : Nat × Nat × Nat => e1.2.1 ≠ e2.2.1) matched
  procChar : ∀ i, i < A.length → processed.getD i false = true →
    (∃ e ∈ matched, e.2.1 = i) ∨ (oa.getD i none = none ∧ (delNums res).count (i + 1) = 1)
  matchedProc : ∀ e ∈ matched, processed.getD e.2.1 false = true
  delLe : ∀ x ∈ delNums res, x ≤ i_ptr
  delChain : List.Pairwise (· < ·) (delNums res)
  delSrc : ∀ x ∈ delNums res, ∃ i, x = i + 1 ∧ i < A.length ∧ oa.getD i none = none ∧
    processed.getD i false = true
  unchMatched : ∀ li, li < res.length → (res.getD li default).state = .Unchanged →
    ∃ e ∈ matched, e.1 = li
  addedCount : res.countP (fun l => l.state == DiffState.Added) + matched.length = j
  delLen : (delNums res).length = res.countP (fun l => l.state == DiffState.Deleted)
  lineShape : ∀ l ∈ res, l.moved_from = none ∧ l.moved_to = none ∧
    ((l.state = .Added ∧ l.left = none ∧ l.right.isSome = true) ∨
     (l.state = .Deleted ∧ l.left.isSome = true ∧ l.right = none) ∨
     (l.state = .Unchanged ∧ l.left.isSome = true ∧ l.right.isSome = true))

theorem buildInv_init (A B : List ComparableLine) (oa na : List (Option Nat)) :
    BuildInv A B oa na 0 [] [] (List.replicate A.length false) 0 := by
  refine ⟨by simp, by omega, ?_, ?_, ?_, ?_, ?_, ?_, ?_, ?_, ?_, ?_, ?_, ?_, ?_, ?_, ?_⟩
  · intro i h; omega
  · intro i j' _ h; omega
  · intro e he; exact absurd he (List.not_mem_nil e)
  · exact List.Pairwise.nil
  · exact List.Pairwise.nil
  · exact List.Pairwise.nil
  · intro i hi h
    rcases Nat.lt_or_ge i A.length with hlt | hge
    · rw [getD_replicate_lt _ _ _ _ hlt] at h
      exact absurd h (by simp)
    · omega
  · intro e he; exact absurd he (List.not_mem_nil e)
  · intro x hx; exact absurd hx (by simp [delNums])
  · simp [delNums]
  · intro x hx; exact absurd hx (by simp [delNums])
  · intro li h _; simp at h
  · simp
  · simp [delNums]
  · intro l hl; exact absurd hl (List.not_mem_nil l)

/-- Emitting one `Deleted` line for an unlinked, unprocessed position
re-establishes the build invariant (this is the delete branch shared by
the two flush loops). -/
theorem BuildInv.emit_delete (A B : List ComparableLine) (oa na : List (Option Nat))
    (j : Nat) (res : List DiffLine) (matched : List (Nat × Nat × Nat))
    (processed : List Bool) (i_ptr : Nat)
    (hinv : BuildInv A B oa na j res matched processed i_ptr)
    (hiA : i_ptr < A.length) (hp : processed.getD i_ptr false = false)
    (hoa : oa.getD i_ptr none = none) :
    BuildInv A B oa na j (res ++ [deletedLine A i_ptr]) matched
      (processed.set i_ptr true) (i_ptr + 1) := by
  have hiP : i_ptr < processed.length := by rw [hinv.lenP]; exact hiA
  have hset : ∀ i, processed.getD i false = true →
      (processed.set i_ptr true).getD i false = true :=
    fun i h => getD_set_true_mono processed i_ptr i h
  have hcount0 : (delNums res).count (i_ptr + 1) = 0 := by
    rw [List.count_eq_zero]
    intro hmem
    have := hinv.delLe _ hmem
    omega
  obtain ⟨lenP, iptrLe, belowPtr, linkedProc, mEntry, mJs, mLineIdx, mOldsDistinct,
    procChar, matchedProc, delLe, delChain, delSrc, unchMatched, addedCount, delLen,
    lineShape⟩ := hinv
  refine ⟨by simpa using lenP, by omega, ?_, ?_, ?_, mJs, mLineIdx, mOldsDistinct,
    ?_, ?_, ?_, ?_, ?_, ?_, ?_, ?_, ?_⟩
  · -- belowPtr
    intro i hi
    rcases Nat.lt_or_ge i i_ptr with h1 | h1
    · exact hset i (belowPtr i h1)
    · have : i = i_ptr := by omega
      rw [this]
      exact getD_set_self _ _ _ _ hiP
  · -- linkedProc
    intro i j' h1 h2
    exact hset i (linkedProc i j' h1 h2)
  · -- mEntry
    intro e he
    obtain ⟨h1, h2, h3, h4⟩ := mEntry e he
    refine ⟨h1, h2, by simp; omega, ?_⟩
    rw [getD_append_lt _ _ _ _ h3]
    exact h4
  · -- procChar
    intro i hi hproc
    rw [delNums_append, delNums_deleted]
    by_cases hii : i = i_ptr
    · subst hii
      right
      refine ⟨hoa, ?_⟩
      rw [List.count_append, hcount0]
      simp
    · rw [getD_set_ne _ _ _ _ _ (fun he => hii he.symm)] at hproc
      rcases procChar i hi hproc with h | ⟨h1, h2⟩
      · exact Or.inl h
      · right
        refine ⟨h1, ?_⟩
        rw [List.count_append, h2]
        have : (([i_ptr + 1] : List Nat).count (i + 1)) = 0 := by
          rw [List.count_eq_zero]
          intro hc
          have hc2 := List.mem_singleton.mp hc
          omega
        rw [this]
  · -- matchedProc
    intro e he
    exact hset _ (matchedProc e he)
  · -- delLe
    intro x hx
    rw [delNums_append, delNums_deleted] at hx
    rcases List.mem_append.mp hx with h | h
    · have := delLe x h; omega
    · simp at h; omega
  · -- delChain
    rw [delNums_append, delNums_deleted]
    rw [List.pairwise_append]
    refine ⟨delChain, by simp, ?_⟩
    intro x hx y hy
    simp at hy
    subst hy
    have := delLe x hx
    omega
  · -- delSrc
    intro x hx
    rw [delNums_append, delNums_deleted] at hx
    rcases List.mem_append.mp hx with h | h
    · obtain ⟨i, h1, h2, h3, h4⟩ := delSrc x h
      exact ⟨i, h1, h2, h3, hset i h4⟩
    · simp at h
      subst h
      exact ⟨i_ptr, rfl, hiA, hoa, getD_set_self _ _ _ _ hiP⟩
  · -- unchMatched
    intro li hli hstate
    rcases Nat.lt_or_ge li res.length with h1 | h1
    · rw [getD_append_lt _ _ _ _ h1] at hstate
      exact unchMatched li h1 hstate
    · exfalso
      have : li = res.length := by simp at hli; omega
      rw [this, getD_concat_length] at hstate
      simp [deletedLine, DiffLine.new] at hstate
  · -- addedCount
    rw [List.countP_append]
    have : List.countP (fun l => l.state == DiffState.Added) [deletedLine A i_ptr]
        = 0 := by simp [List.countP_cons, deletedLine, DiffLine.new]
    omega
  · -- delLen
    rw [delNums_append, delNums_deleted, List.countP_append, List.length_append]
    have : List.countP (fun l => l.state == DiffState.Deleted) [deletedLine A i_ptr]
        = 1 := by simp [List.countP_cons, deletedLine, DiffLine.new]
    simp only [List.length_singleton]
    omega
  · -- lineShape
    intro l hl
    rcases List.mem_append.mp hl with h | h
    · exact lineShape l h
    · simp at h
      subst h
      refine ⟨rfl, rfl, Or.inr (Or.inl ⟨rfl, rfl, rfl⟩)⟩


theorem flushBeforeGo_step_skip (A : List ComparableLine) (oa : List (Option Nat))
    (j i_match gas : Nat) (res : List DiffLine) (processed : List Bool) (i_ptr : Nat)
    (h1 : i_ptr < i_match) (h2 : processed.getD i_ptr false = true) :
    flushBeforeGo A oa j i_match (gas + 1) res processed i_ptr =
      flushBeforeGo A oa j i_match gas res processed (i_ptr + 1) := by
  rw [flushBeforeGo, if_pos h1, if_pos h2]

theorem flushBeforeGo_step_some (A : List ComparableLine) (oa : List (Option Nat))
    (j i_match gas : Nat) (res : List DiffLine) (processed : List Bool) (i_ptr mapped_j : Nat)
    (h1 : i_ptr < i_match) (h2 : processed.getD i_ptr false = false)
    (h3 : oa.getD i_ptr none = some mapped_j) :
    flushBeforeGo A oa j i_match (gas + 1) res processed i_ptr =
      if mapped_j ≥ j then (res, processed, i_ptr)
      else flushBeforeGo A oa j i_match gas res (processed.set i_ptr true) (i_ptr + 1) := by
  rw [flushBeforeGo, if_pos h1, if_neg (by rw [h2]; simp), h3]

theorem flushBeforeGo_step_none (A : List ComparableLine) (oa : List (Option Nat))
    (j i_match gas : Nat) (res : List DiffLine) (processed : List Bool) (i_ptr : Nat)
    (h1 : i_ptr < i_match) (h2 : processed.getD i_ptr false = false)
    (h3 : oa.getD i_ptr none = none) :
    flushBeforeGo A oa j i_match (gas + 1) res processed i_ptr =
      flushBeforeGo A oa j i_match gas (res ++ [deletedLine A i_ptr])
        (processed.set i_ptr true) (i_ptr + 1) := by
  rw [flushBeforeGo, if_pos h1, if_neg (by rw [h2]; simp), h3]

/-- `flushBeforeGo` preserves the build invariant (at the same `j`),
keeps `i_ptr` at or below `i_match`, and never processes `i_match`. -/
theorem flushBeforeGo_inv (A B : List ComparableLine) (oa na : List (Option Nat))
    (j i_match : Nat) (himA : i_match < A.length) :
    ∀ gas res matched processed i_ptr,
      i_match ≤ i_ptr + gas →
      i_ptr ≤ i_match →
      BuildInv A B oa na j res matched processed i_ptr →
      processed.getD i_match false = false →
      BuildInv A B oa na j (flushBeforeGo A oa j i_match gas res processed i_ptr).1
        matched (flushBeforeGo A oa j i_match gas res processed i_ptr).2.1
        (flushBeforeGo A oa j i_match gas res processed i_ptr).2.2 ∧
      (flushBeforeGo A oa j i_match gas res processed i_ptr).2.2 ≤ i_match ∧
      (flushBeforeGo A oa j i_match gas res processed i_ptr).2.1.getD i_match false = false := by
  intro gas
  induction gas with
  | zero =>
    intro res matched processed i_ptr hgas hle hinv hm
    rw [flushBeforeGo]
    exact ⟨hinv, hle, hm⟩
  | succ gas ih =>
    intro res matched processed i_ptr hgas hle hinv hm
    by_cases hlt : i_ptr < i_match
    · cases hp : processed.getD i_ptr false with
      | true =>
        rw [flushBeforeGo_step_skip A oa j i_match gas res processed i_ptr hlt hp]
        refine ih res matched processed (i_ptr + 1) (by omega) (by omega) ?_ hm
        obtain ⟨lenP, iptrLe, belowPtr, linkedProc, mEntry, mJs, mLineIdx, mOldsDistinct,
          procChar, matchedProc, delLe, delChain, delSrc, unchMatched, addedCount, delLen,
          lineShape⟩ := hinv
        refine ⟨lenP, by omega, ?_, linkedProc, mEntry, mJs, mLineIdx, mOldsDistinct,
          procChar, matchedProc, ?_, delChain, delSrc, unchMatched, addedCount, delLen,
          lineShape⟩
        · intro i hi
          rcases Nat.lt_or_ge i i_ptr with h1 | h1
          · exact belowPtr i h1
          · have : i = i_ptr := by omega
            rw [this]; exact hp
        · intro x hx; have := delLe x hx; omega
      | false =>
        cases hoa : oa.getD i_ptr none with
        | some mapped_j =>
          rw [flushBeforeGo_step_some A oa j i_match gas res processed i_ptr mapped_j hlt hp hoa]
          by_cases hmj : mapped_j ≥ j
          · rw [if_pos hmj]
            exact ⟨hinv, by show i_ptr ≤ i_match; omega, hm⟩
          · exfalso
            have := hinv.linkedProc i_ptr mapped_j hoa (by omega)
            rw [hp] at this
            exact Bool.noConfusion this
        | none =>
          rw [flushBeforeGo_step_none A oa j i_match gas res processed i_ptr hlt hp hoa]
          have hiA : i_ptr < A.length := by omega
          have hnext := BuildInv.emit_delete A B oa na j res matched processed i_ptr hinv
            hiA hp hoa
          refine ih (res ++ [deletedLine A i_ptr]) matched (processed.set i_ptr true)
            (i_ptr + 1) (by omega) (by omega) hnext ?_
          rw [getD_set_ne _ _ _ _ _ (by omega)]
          exact hm
    · rw [flushBeforeGo, if_neg hlt]
      exact ⟨hinv, by show i_ptr ≤ i_match; omega, hm⟩

theorem skipProcessedGo_spec (n : Nat) (processed : List Bool) :
    ∀ gas i_ptr, i_ptr ≤ n →
      (∀ i, i < i_ptr → processed.getD i false = true) →
      i_ptr ≤ skipProcessedGo n processed gas i_ptr ∧
      skipProcessedGo n processed gas i_ptr ≤ n ∧
      (∀ i, i < skipProcessedGo n processed gas i_ptr → processed.getD i false = true) := by
  intro gas
  induction gas with
  | zero =>
    intro i_ptr hle hbelow
    rw [skipProcessedGo]
    exact ⟨le_refl _, hle, hbelow⟩
  | succ gas ih =>
    intro i_ptr hle hbelow
    by_cases hn : i_ptr < n
    · rw [skipProcessedGo, if_pos hn]
      cases hp : processed.getD i_ptr false with
      | true =>
        rw [if_pos rfl]
        have := ih (i_ptr + 1) (by omega) (fun i hi => by
          rcases Nat.lt_or_ge i i_ptr with h1 | h1
          · exact hbelow i h1
          · have : i = i_ptr := by omega
            rw [this]; exact hp)
        exact ⟨by omega, this.2.1, this.2.2⟩
      | false =>
        rw [if_neg (by simp)]
        exact ⟨le_refl _, hle, hbelow⟩
    · rw [skipProcessedGo, if_neg hn]
      exact ⟨le_refl _, hle, hbelow⟩

theorem buildGo_step_matched (A B : List ComparableLine) (oa na : List (Option Nat))
    (gas j : Nat) (res : List DiffLine) (matched : List (Nat × Nat × Nat))
    (processed : List Bool) (i_ptr i_match : Nat)
    (hj : j < B.length) (hmo : matchedOld oa na processed j = some i_match)
    (fl : List DiffLine × List Bool × Nat)
    (hfl : fl = flushBeforeGo A oa j i_match (i_match - i_ptr) res processed i_ptr)
    (ip2 : Nat) (hip2 : ip2 = if fl.2.2 = i_match then fl.2.2 + 1 else fl.2.2) :
    buildGo A B oa na (gas + 1) j res matched processed i_ptr =
      buildGo A B oa na gas (j + 1) (fl.1 ++ [unchangedLine A B i_match j])
        (matched ++ [(fl.1.length, i_match, j)]) (fl.2.1.set i_match true)
        (skipProcessedGo A.length (fl.2.1.set i_match true) (A.length - ip2) ip2) := by
  subst hip2
  subst hfl
  rw [buildGo, if_pos hj, hmo]

theorem buildGo_step_added (A B : List ComparableLine) (oa na : List (Option Nat))
    (gas j : Nat) (res : List DiffLine) (matched : List (Nat × Nat × Nat))
    (processed : List Bool) (i_ptr : Nat)
    (hj : j < B.length) (hmo : matchedOld oa na processed j = none) :
    buildGo A B oa na (gas + 1) j res matched processed i_ptr =
      buildGo A B oa na gas (j + 1) (res ++ [addedLine B j]) matched processed i_ptr := by
  rw [buildGo, if_pos hj, hmo]

/-- The outer loop of `build_diff_lines` preserves the build invariant,
establishing it at `j = B.length` on exit. -/
theorem buildGo_inv (A B : List ComparableLine) (oa na : List (Option Nat))
    (hls : LinkState A B oa na) :
    ∀ gas j res matched processed i_ptr,
      B.length ≤ j + gas → j ≤ B.length →
      BuildInv A B oa na j res matched processed i_ptr →
      BuildInv A B oa na B.length
        (buildGo A B oa na gas j res matched processed i_ptr).1
        (buildGo A B oa na gas j res matched processed i_ptr).2.1
        (buildGo A B oa na gas j res matched processed i_ptr).2.2.1
        (buildGo A B oa na gas j res matched processed i_ptr).2.2.2 := by
  intro gas
  induction gas with
  | zero =>
    intro j res matched processed i_ptr hgas hj hinv
    rw [buildGo]
    have : j = B.length := by omega
    rw [this] at hinv
    exact hinv
  | succ gas ih =>
    intro j res matched processed i_ptr hgas hjle hinv
    by_cases hj : j < B.length
    · cases hmo : matchedOld oa na processed j with
      | none =>
        rw [buildGo_step_added A B oa na gas j res matched processed i_ptr hj hmo]
        refine ih (j + 1) _ matched processed i_ptr (by omega) (by omega) ?_
        obtain ⟨lenP, iptrLe, belowPtr, linkedProc, mEntry, mJs, mLineIdx, mOldsDistinct,
          procChar, matchedProc, delLe, delChain, delSrc, unchMatched, addedCount, delLen,
          lineShape⟩ := hinv
        have hdel : delNums (res ++ [addedLine B j]) = delNums res := by
          rw [delNums_append, delNums_added, List.append_nil]
        refine ⟨lenP, iptrLe, belowPtr, ?_, ?_, mJs, mLineIdx, mOldsDistinct, ?_,
          matchedProc, ?_, ?_, ?_, ?_, ?_, ?_, ?_⟩
        · -- linkedProc at j+1
          intro i j' h1 h2
          rcases Nat.lt_or_ge j' j with h3 | h3
          · exact linkedProc i j' h1 h3
          · have hjj : j' = j := by omega
            rw [hjj] at h1
            have hna := hls.symAB i j h1
            cases hb : processed.getD i false with
            | true => rfl
            | false =>
              exfalso
              have := (matchedOld_eq_some oa na processed j i).mpr ⟨hna, h1, hb⟩
              rw [hmo] at this
              exact Option.noConfusion this
        · -- mEntry
          intro e he
          obtain ⟨h1, h2, h3, h4⟩ := mEntry e he
          refine ⟨h1, by omega, by simp; omega, ?_⟩
          rw [getD_append_lt _ _ _ _ h3]
          exact h4
        · -- procChar
          intro i hi hp
          rw [hdel]
          exact procChar i hi hp
        · -- delLe
          intro x hx
          rw [hdel] at hx
          exact delLe x hx
        · -- delChain
          rw [hdel]; exact delChain
        · -- delSrc
          intro x hx
          rw [hdel] at hx
          exact delSrc x hx
        · -- unchMatched
          intro li hli hstate
          rcases Nat.lt_or_ge li res.length with h1 | h1
          · rw [getD_append_lt _ _ _ _ h1] at hstate
            exact unchMatched li h1 hstate
          · exfalso
            have : li = res.length := by simp at hli; omega
            rw [this, getD_concat_length] at hstate
            simp [addedLine, DiffLine.new] at hstate
        · -- addedCount
          rw [List.countP_append]
          have : List.countP (fun l => l.state == DiffState.Added) [addedLine B j] = 1 := by
            simp [List.countP_cons, addedLine, DiffLine.new]
          omega
        · -- delLen
          rw [hdel, List.countP_append]
          have : List.countP (fun l => l.state == DiffState.Deleted) [addedLine B j] = 0 := by
            simp [List.countP_cons, addedLine, DiffLine.new]
          omega
        · -- lineShape
          intro l hl
          rcases List.mem_append.mp hl with h | h
          · exact lineShape l h
          · simp at h
            subst h
            exact ⟨rfl, rfl, Or.inl ⟨rfl, rfl, rfl⟩⟩
      | some i_match =>
        obtain ⟨hna, hoaim, hpim⟩ := (matchedOld_eq_some oa na processed j i_match).mp hmo
        have himA : i_match < A.length := (hls.oa_bounds hoaim).1
        have hiple : i_ptr ≤ i_match := by
          by_contra hc
          have := hinv.belowPtr i_match (by omega)
          rw [hpim] at this
          exact Bool.noConfusion this
        obtain ⟨hinv1, hip1le, hpm1⟩ :=
          flushBeforeGo_inv A B oa na j i_match himA (i_match - i_ptr) res matched processed
            i_ptr (by omega) hiple hinv hpim
        rw [buildGo_step_matched A B oa na gas j res matched processed i_ptr i_match hj hmo
          (flushBeforeGo A oa j i_match (i_match - i_ptr) res processed i_ptr) rfl
          (if (flushBeforeGo A oa j i_match (i_match - i_ptr) res processed i_ptr).2.2 = i_match
            then (flushBeforeGo A oa j i_match (i_match - i_ptr) res processed i_ptr).2.2 + 1
            else (flushBeforeGo A oa j i_match (i_match - i_ptr) res processed i_ptr).2.2) rfl]
        set fl := flushBeforeGo A oa j i_match (i_match - i_ptr) res processed i_ptr with hfl
        set res1 := fl.1 with hres1
        set p1 := fl.2.1 with hp1
        set ip1 := fl.2.2 with hip1
        set ip2 := if ip1 = i_match then ip1 + 1 else ip1 with hip2
        have hp1len : p1.length = A.length := hinv1.lenP
        have himP : i_match < p1.length := by omega
        have hip2le : ip2 ≤ A.length := by
          rw [hip2]; split <;> omega
        have hip12 : ip1 ≤ ip2 := by
          rw [hip2]; split <;> omega
        have hbelow2 : ∀ i, i < ip2 → (p1.set i_match true).getD i false = true := by
          intro i hi
          by_cases hii : i = i_match
          · rw [hii]; exact getD_set_self _ _ _ _ himP
          · rw [getD_set_ne _ _ _ _ _ (fun he => hii he.symm)]
            apply hinv1.belowPtr
            rw [hip2] at hi
            by_cases hq : ip1 = i_match
            · rw [if_pos hq] at hi
              omega
            · rw [if_neg hq] at hi
              exact hi
        obtain ⟨hskip1, hskip2, hskip3⟩ :=
          skipProcessedGo_spec A.length (p1.set i_match true) (A.length - ip2) ip2 hip2le hbelow2
        refine ih (j + 1) _ _ _ _ (by omega) (by omega) ?_
        obtain ⟨lenP, iptrLe, belowPtr, linkedProc, mEntry, mJs, mLineIdx, mOldsDistinct,
          procChar, matchedProc, delLe, delChain, delSrc, unchMatched, addedCount, delLen,
          lineShape⟩ := hinv1
        have hdel2 : delNums (res1 ++ [unchangedLine A B i_match j]) = delNums res1 := by
          rw [delNums_append, delNums_unchanged, List.append_nil]
        have hmono : ∀ i, p1.getD i false = true → (p1.set i_match true).getD i false = true :=
          fun i h => getD_set_true_mono p1 i_match i h
        refine ⟨by simpa using lenP, hskip2, hskip3, ?_, ?_, ?_, ?_, ?_, ?_, ?_, ?_, ?_, ?_,
          ?_, ?_, ?_, ?_⟩
        · -- linkedProc at j+1
          intro i j' h1 h2
          rcases Nat.lt_or_ge j' j with h3 | h3
          · exact hmono i (linkedProc i j' h1 h3)
          · have hjj : j' = j := by omega
            subst hjj
            have hna2 := hls.symAB i j' h1
            rw [hna] at hna2
            injection hna2 with hna2
            rw [← hna2]
            exact getD_set_self _ _ _ _ himP
        · -- mEntry
          intro e he
          rcases List.mem_append.mp he with h | h
          · obtain ⟨h1, h2, h3, h4⟩ := mEntry e h
            refine ⟨h1, by omega, by simp; omega, ?_⟩
            rw [getD_append_lt _ _ _ _ h3]
            exact h4
          · simp at h
            subst h
            exact ⟨hoaim, Nat.lt_succ_self j, by simp, getD_concat_length _ _ _⟩
        · -- mJs
          rw [List.pairwise_append]
          refine ⟨mJs, by simp, ?_⟩
          intro e he f hf
          simp at hf
          subst hf
          exact (mEntry e he).2.1
        · -- mLineIdx
          rw [List.pairwise_append]
          refine ⟨mLineIdx, by simp, ?_⟩
          intro e he f hf
          simp at hf
          subst hf
          exact (mEntry e he).2.2.1
        · -- mOldsDistinct
          rw [List.pairwise_append]
          refine ⟨mOldsDistinct, by simp, ?_⟩
          intro e he f hf
          simp at hf
          subst hf
          show e.2.1 ≠ i_match
          intro hc
          have := matchedProc e he
          rw [hc, hpm1] at this
          exact Bool.noConfusion this
        · -- procChar
          intro i hi hp
          by_cases hii : i = i_match
          · subst hii
            exact Or.inl ⟨(res1.length, i, j), List.mem_append_right _ (by simp), rfl⟩
          · rw [getD_set_ne _ _ _ _ _ (fun he => hii he.symm)] at hp
            rcases procChar i hi hp with ⟨e, he, hee⟩ | ⟨h1, h2⟩
            · exact Or.inl ⟨e, List.mem_append_left _ he, hee⟩
            · right
              rw [hdel2]
              exact ⟨h1, h2⟩
        · -- matchedProc
          intro e he
          rcases List.mem_append.mp he with h | h
          · exact hmono _ (matchedProc e h)
          · simp at h
            subst h
            exact getD_set_self _ _ _ _ himP
        · -- delLe
          intro x hx
          rw [hdel2] at hx
          have := delLe x hx
          omega
        · -- delChain
          rw [hdel2]; exact delChain
        · -- delSrc
          intro x hx
          rw [hdel2] at hx
          obtain ⟨i, h1, h2, h3, h4⟩ := delSrc x hx
          exact ⟨i, h1, h2, h3, hmono i h4⟩
        · -- unchMatched
          intro li hli hstate
          rcases Nat.lt_or_ge li res1.length with h1 | h1
          · obtain ⟨e, he, hee⟩ := unchMatched li h1 (by
              rw [getD_append_lt _ _ _ _ h1] at hstate
              exact hstate)
            exact ⟨e, List.mem_append_left _ he, hee⟩
          · have : li = res1.length := by simp at hli; omega
            subst this
            exact ⟨(res1.length, i_match, j), List.mem_append_right _ (by simp), rfl⟩
        · -- addedCount
          rw [List.countP_append, List.length_append]
          have : List.countP (fun l => l.state == DiffState.Added)
              [unchangedLine A B i_match j] = 0 := by
            simp [List.countP_cons, unchangedLine, DiffLine.new]
          simp only [List.length_singleton]
          omega
        · -- delLen
          rw [hdel2, List.countP_append]
          have : List.countP (fun l => l.state == DiffState.Deleted)
              [unchangedLine A B i_match j] = 0 := by
            simp [List.countP_cons, unchangedLine, DiffLine.new]
          omega
        · -- lineShape
          intro l hl
          rcases List.mem_append.mp hl with h | h
          · exact lineShape l h
          · simp at h
            subst h
            exact ⟨rfl, rfl, Or.inr (Or.inr ⟨rfl, rfl, rfl⟩)⟩
    · rw [buildGo, if_neg hj]
      have : j = B.length := by omega
      rw [this] at hinv
      exact hinv

/-- Advancing the pointer over an already-processed position preserves the
build invariant. -/
theorem BuildInv.skip_processed (A B : List ComparableLine) (oa na : List (Option Nat))
    (j : Nat) (res : List DiffLine) (matched : List (Nat × Nat × Nat))
    (processed : List Bool) (i_ptr : Nat)
    (hinv : BuildInv A B oa na j res matched processed i_ptr)
    (hiA : i_ptr < A.length) (hp : processed.getD i_ptr false = true) :
    BuildInv A B oa na j res matched processed (i_ptr + 1) := by
  obtain ⟨lenP, iptrLe, belowPtr, linkedProc, mEntry, mJs, mLineIdx, mOldsDistinct,
    procChar, matchedProc, delLe, delChain, delSrc, unchMatched, addedCount, delLen,
    lineShape⟩ := hinv
  refine ⟨lenP, by omega, ?_, linkedProc, mEntry, mJs, mLineIdx, mOldsDistinct,
    procChar, matchedProc, ?_, delChain, delSrc, unchMatched, addedCount, delLen, lineShape⟩
  · intro i hi
    rcases Nat.lt_or_ge i i_ptr with h1 | h1
    · exact belowPtr i h1
    · have : i = i_ptr := by omega
      rw [this]; exact hp
  · intro x hx; have := delLe x hx; omega

/-- What holds of the finished line list of `build_matched` (before
classification). -/
structure PreClassified (A B : List ComparableLine) (oa : List (Option Nat))
    (matched : List (Nat × Nat × Nat)) (res : List DiffLine) : Prop where
  delChain : List.Pairwise (· < ·) (delNums res)
  delAll : ∀ i, i < A.length → oa.getD i none = none → (delNums res).count (i + 1) = 1
  delOnly : ∀ x ∈ delNums res, ∃ i, x = i + 1 ∧ i < A.length ∧ oa.getD i none = none
  addedCount : res.countP (fun l => l.state == DiffState.Added) + matched.length = B.length
  delLen : (delNums res).length = res.countP (fun l => l.state == DiffState.Deleted)
  mEntry : ∀ e ∈ matched, e.1 < res.length ∧
    res.getD e.1 default = unchangedLine A B e.2.1 e.2.2
  unchMatched : ∀ li, li < res.length → (res.getD li default).state = .Unchanged →
    ∃ e ∈ matched, e.1 = li
  lineShape : ∀ l ∈ res, l.moved_from = none ∧ l.moved_to = none ∧
    ((l.state = .Added ∧ l.left = none ∧ l.right.isSome = true) ∨
     (l.state = .Deleted ∧ l.left.isSome = true ∧ l.right = none) ∨
     (l.state = .Unchanged ∧ l.left.isSome = true ∧ l.right.isSome = true))

theorem BuildInv.toPreClassified (A B : List ComparableLine) (oa na : List (Option Nat))
    (res : List DiffLine) (matched : List (Nat × Nat × Nat)) (processed : List Bool)
    (i_ptr : Nat) (hinv : BuildInv A B oa na B.length res matched processed i_ptr)
    (hall : A.length ≤ i_ptr) :
    PreClassified A B oa matched res := by
  obtain ⟨lenP, iptrLe, belowPtr, linkedProc, mEntry, mJs, mLineIdx, mOldsDistinct,
    procChar, matchedProc, delLe, delChain, delSrc, unchMatched, addedCount, delLen,
    lineShape⟩ := hinv
  refine ⟨delChain, ?_, ?_, addedCount, delLen, ?_, unchMatched, lineShape⟩
  · intro i hi hoa
    have hp := belowPtr i (by omega)
    rcases procChar i hi hp with ⟨e, he, hee⟩ | ⟨_, h2⟩
    · exfalso
      have := (mEntry e he).1
      rw [hee, hoa] at this
      exact Option.noConfusion this
    · exact h2
  · intro x hx
    obtain ⟨i, h1, h2, h3, _⟩ := delSrc x hx
    exact ⟨i, h1, h2, h3⟩
  · intro e he
    exact ⟨(mEntry e he).2.2.1, (mEntry e he).2.2.2⟩

/-- The final flush yields the `PreClassified` facts. -/
theorem flushRemainingGo_spec (A B : List ComparableLine) (oa na : List (Option Nat))
    (hls : LinkState A B oa na) (matched : List (Nat × Nat × Nat)) :
    ∀ gas res processed i_ptr,
      A.length ≤ i_ptr + gas →
      BuildInv A B oa na B.length res matched processed i_ptr →
      PreClassified A B oa matched (flushRemainingGo A gas res processed i_ptr) := by
  intro gas
  induction gas with
  | zero =>
    intro res processed i_ptr hgas hinv
    rw [flushRemainingGo]
    exact hinv.toPreClassified A B oa na res matched processed i_ptr (by omega)
  | succ gas ih =>
    intro res processed i_ptr hgas hinv
    by_cases hiA : i_ptr < A.length
    · rw [flushRemainingGo, if_pos hiA]
      cases hp : processed.getD i_ptr false with
      | true =>
        rw [if_pos rfl]
        exact ih res processed (i_ptr + 1) (by omega)
          (hinv.skip_processed A B oa na B.length res matched processed i_ptr hiA hp)
      | false =>
        rw [if_neg (by simp)]
        have hoa : oa.getD i_ptr none = none := by
          cases hoa : oa.getD i_ptr none with
          | none => rfl
          | some j' =>
            exfalso
            have hjB := (hls.oa_bounds hoa).2
            have := hinv.linkedProc i_ptr j' hoa hjB
            rw [hp] at this
            exact Bool.noConfusion this
        exact ih _ _ (i_ptr + 1) (by omega)
          (hinv.emit_delete A B oa na B.length res matched processed i_ptr hiA hp hoa)
    · rw [flushRemainingGo, if_neg hiA]
      exact hinv.toPreClassified A B oa na res matched processed i_ptr (by omega)

/-- Full characterization of `build_matched`: the finished pre-classified
line list together with the structural facts about the matched-info list. -/
theorem build_matched_spec (A B : List ComparableLine) (oa na : List (Option Nat))
    (hls : LinkState A B oa na) :
    PreClassified A B oa (build_matched A B oa na).2 (build_matched A B oa na).1 ∧
    (∀ e ∈ (build_matched A B oa na).2,
      oa.getD e.2.1 none = some e.2.2 ∧ e.2.1 < A.length ∧ e.2.2 < B.length) ∧
    List.Pairwise (fun e1 e2 : Nat × Nat × Nat => e1.2.2 < e2.2.2) (build_matched A B oa na).2 ∧
    List.Pairwise (fun e1 e2 : Nat × Nat × Nat => e1.1 < e2.1) (build_matched A B oa na).2 ∧
    List.Pairwise (fun e1 e2 : Nat × Nat × Nat => e1.2.1 ≠ e2.2.1) (build_matched A B oa na).2 ∧
    (∀ i j', oa.getD i none = some j' → ∃ e ∈ (build_matched A B oa na).2, e.2.1 = i) ∧
    (∀ e ∈ (build_matched A B oa na).2,
      lineEq (A.getD e.2.1 default) (B.getD e.2.2 default) = true) := by
  have hinv0 := buildInv_init A B oa na
  have hinv := buildGo_inv A B oa na hls B.length 0 [] [] (List.replicate A.length false) 0
    (by omega) (by omega) hinv0
  rw [build_matched]
  refine ⟨?_, ?_, ?_, ?_, ?_, ?_, ?_⟩
  · exact flushRemainingGo_spec A B oa na hls _ _ _ _ _ (by omega) hinv
  · intro e he
    have h1 := (hinv.mEntry e he).1
    exact ⟨h1, (hls.oa_bounds h1).1, (hls.oa_bounds h1).2⟩
  · exact hinv.mJs
  · exact hinv.mLineIdx
  · exact hinv.mOldsDistinct
  · intro i j' hoa
    have hjB := (hls.oa_bounds hoa).2
    have hiA := (hls.oa_bounds hoa).1
    have hp := hinv.linkedProc i j' hoa hjB
    rcases hinv.procChar i hiA hp with ⟨e, he, hee⟩ | ⟨h1, _⟩
    · exact ⟨e, he, hee⟩
    · rw [hoa] at h1
      exact Option.noConfusion h1
  · intro e he
    exact hls.keys e.2.1 e.2.2 (hinv.mEntry e he).1

/-! ## The classification pass -/

theorem countP_set {α : Type} (p : α → Bool) :
    ∀ (l : List α) (i : Nat) (x d : α), i < l.length →
      (l.set i x).countP p + (if p (l.getD i d) then 1 else 0) =
        l.countP p + (if p x then 1 else 0) := by
  intro l
  induction l with
  | nil => intro i x d h; simp at h
  | cons a tl ih =>
    intro i x d h
    match i with
    | 0 =>
      simp only [List.set_cons_zero, List.getD_cons_zero, List.countP_cons]
      split <;> split <;> omega
    | i + 1 =>
      simp only [List.set_cons_succ, List.getD_cons_succ, List.countP_cons]
      have := ih i x d (by simpa using h)
      split <;> omega

theorem filterMap_set_none {α β : Type} (f : α → Option β) :
    ∀ (l : List α) (i : Nat) (x d : α),
      f (l.getD i d) = none → f x = none →
      (l.set i x).filterMap f = l.filterMap f := by
  intro l
  induction l with
  | nil => intro i x d _ _; simp
  | cons a tl ih =>
    intro i x d h1 h2
    match i with
    | 0 =>
      simp only [List.getD_cons_zero] at h1
      simp only [List.set_cons_zero, List.filterMap_cons, h1, h2]
    | i + 1 =>
      simp only [List.getD_cons_succ] at h1
      simp only [List.set_cons_succ, List.filterMap_cons]
      rw [ih i x d h1 h2]

/-- `relabel` keeps `left`/`right` and produces an `Unchanged` or `Moved`
state. -/
theorem relabel_fields (flag : Bool) (old_idx new_idx : Nat) (l : DiffLine) :
    (relabel flag old_idx new_idx l).left = l.left ∧
    (relabel flag old_idx new_idx l).right = l.right ∧
    ((relabel flag old_idx new_idx l).state = .Unchanged ∨
     (relabel flag old_idx new_idx l).state = .Moved) := by
  cases flag <;> simp [relabel]

/-- Effect of the classification loop on the line list: lengths are
preserved, untouched indices are unchanged, and the entry processed at
offset `k` is relabelled according to its `is_in_lis` flag. -/
theorem classifyGo_lines (isin : List Bool) :
    ∀ rest idx lines cur blocks,
      List.Pairwise (fun e1 e2 : Nat × Nat × Nat => e1.1 < e2.1) rest →
      (∀ e ∈ rest, e.1 < lines.length) →
      ((classifyGo isin rest idx lines cur blocks).1.length = lines.length ∧
       (∀ li, (∀ e ∈ rest, e.1 ≠ li) →
         (classifyGo isin rest idx lines cur blocks).1.getD li default =
           lines.getD li default) ∧
       (∀ k, k < rest.length →
         (classifyGo isin rest idx lines cur blocks).1.getD (rest.getD k default).1 default =
           relabel (isin.getD (idx + k) false) (rest.getD k default).2.1
             (rest.getD k default).2.2 (lines.getD (rest.getD k default).1 default))) := by
  intro rest
  induction rest with
  | nil =>
    intro idx lines cur blocks _ _
    refine ⟨?_, ?_, ?_⟩
    · cases cur <;> rfl
    · intro li _; cases cur <;> rfl
    · intro k hk; simp at hk
  | cons hd tl ih =>
    intro idx lines cur blocks hpw hbd
    obtain ⟨line_idx, old_idx, new_idx⟩ := hd
    have hlihd : line_idx < lines.length :=
      hbd (line_idx, old_idx, new_idx) (List.mem_cons_self _ _)
    simp only [classifyGo]
    cases hflag : isin.getD idx false with
    | true =>
      rw [if_pos rfl]
      have htl := ih (idx + 1)
        (lines.set line_idx (relabel true old_idx new_idx (lines.getD line_idx default)))
        none (match cur with
          | some c => blocks ++ [⟨c.1, c.2.1, c.2.2.1, c.2.2.2⟩]
          | none => blocks)
        (List.pairwise_cons.mp hpw).2
        (fun e he => by rw [List.length_set]; exact hbd e (List.mem_cons_of_mem _ he))
      refine ⟨by rw [htl.1, List.length_set], ?_, ?_⟩
      · intro li hli
        rw [htl.2.1 li (fun e he => hli e (List.mem_cons_of_mem _ he))]
        rw [getD_set_ne _ _ _ _ _ (hli (line_idx, old_idx, new_idx) (List.mem_cons_self _ _))]
      · intro k hk
        match k with
        | 0 =>
          have hne : ∀ e ∈ tl, e.1 ≠ line_idx := by
            intro e he
            have := (List.pairwise_cons.mp hpw).1 e he
            omega
          simp only [List.getD_cons_zero, Nat.add_zero]
          rw [htl.2.1 line_idx hne, getD_set_self _ _ _ _ hlihd, hflag]
        | k + 1 =>
          simp only [List.getD_cons_succ]
          have := htl.2.2 k (by simpa using hk)
          rw [this]
          have hne2 : line_idx ≠ (tl.getD k default).1 := by
            have hmem : tl.getD k default ∈ tl := by
              rw [List.getD_eq_getElem _ _ (by simpa using hk)]
              exact List.getElem_mem _
            have := (List.pairwise_cons.mp hpw).1 _ hmem
            omega
          rw [getD_set_ne _ _ _ _ _ hne2]
          have harith : idx + 1 + k = idx + (k + 1) := by omega
          rw [harith]
    | false =>
      rw [if_neg (by simp)]
      have htl := ih (idx + 1)
        (lines.set line_idx (relabel false old_idx new_idx (lines.getD line_idx default)))
        (match cur with
          | some c => some (c.1, old_idx + 1, c.2.2.1, new_idx + 1)
          | none => some (old_idx + 1, old_idx + 1, new_idx + 1, new_idx + 1))
        blocks
        (List.pairwise_cons.mp hpw).2
        (fun e he => by rw [List.length_set]; exact hbd e (List.mem_cons_of_mem _ he))
      refine ⟨by rw [htl.1, List.length_set], ?_, ?_⟩
      · intro li hli
        rw [htl.2.1 li (fun e he => hli e (List.mem_cons_of_mem _ he))]
        rw [getD_set_ne _ _ _ _ _ (hli (line_idx, old_idx, new_idx) (List.mem_cons_self _ _))]
      · intro k hk
        match k with
        | 0 =>
          have hne : ∀ e ∈ tl, e.1 ≠ line_idx := by
            intro e he
            have := (List.pairwise_cons.mp hpw).1 e he
            omega
          simp only [List.getD_cons_zero, Nat.add_zero]
          rw [htl.2.1 line_idx hne, getD_set_self _ _ _ _ hlihd, hflag]
        | k + 1 =>
          simp only [List.getD_cons_succ]
          have := htl.2.2 k (by simpa using hk)
          rw [this]
          have hne2 : line_idx ≠ (tl.getD k default).1 := by
            have hmem : tl.getD k default ∈ tl := by
              rw [List.getD_eq_getElem _ _ (by simpa using hk)]
              exact List.getElem_mem _
            have := (List.pairwise_cons.mp hpw).1 _ hmem
            omega
          rw [getD_set_ne _ _ _ _ _ hne2]
          have harith : idx + 1 + k = idx + (k + 1) := by omega
          rw [harith]

/-- The classification loop preserves any line count that `relabel` does
not affect on `Unchanged` lines. -/
theorem classifyGo_countP (isin : List Bool) (p : DiffLine → Bool)
    (hrel : ∀ flag old_idx new_idx l, l.state = .Unchanged →
      p (relabel flag old_idx new_idx l) = p l) :
    ∀ rest idx lines cur blocks,
      List.Pairwise (fun e1 e2 : Nat × Nat × Nat => e1.1 < e2.1) rest →
      (∀ e ∈ rest, e.1 < lines.length ∧ (lines.getD e.1 default).state = .Unchanged) →
      (classifyGo isin rest idx lines cur blocks).1.countP p = lines.countP p := by
  intro rest
  induction rest with
  | nil =>
    intro idx lines cur blocks _ _
    cases cur <;> rfl
  | cons hd tl ih =>
    intro idx lines cur blocks hpw hbd
    obtain ⟨line_idx, old_idx, new_idx⟩ := hd
    obtain ⟨hli0, hst0⟩ := hbd (line_idx, old_idx, new_idx) (List.mem_cons_self _ _)
    have hli : line_idx < lines.length := hli0
    have hst : (lines.getD line_idx default).state = DiffState.Unchanged := hst0
    simp only [classifyGo]
    have hbd2 : ∀ (flag : Bool), ∀ e ∈ tl,
        e.1 < (lines.set line_idx (relabel flag old_idx new_idx
          (lines.getD line_idx default))).length ∧
        ((lines.set line_idx (relabel flag old_idx new_idx
          (lines.getD line_idx default))).getD e.1 default).state = .Unchanged := by
      intro flag e he
      have hne : line_idx ≠ e.1 := by
        have := (List.pairwise_cons.mp hpw).1 e he
        omega
      rw [List.length_set, getD_set_ne _ _ _ _ _ hne]
      exact hbd e (List.mem_cons_of_mem _ he)
    have hcp : ∀ (flag : Bool),
        (lines.set line_idx (relabel flag old_idx new_idx
          (lines.getD line_idx default))).countP p = lines.countP p := by
      intro flag
      have := countP_set p lines line_idx
        (relabel flag old_idx new_idx (lines.getD line_idx default)) default hli
      rw [hrel flag old_idx new_idx _ hst] at this
      omega
    cases hflag : isin.getD idx false with
    | true =>
      rw [if_pos rfl, ih (idx + 1) _ _ _ (List.pairwise_cons.mp hpw).2 (hbd2 true)]
      exact hcp true
    | false =>
      rw [if_neg (by simp), ih (idx + 1) _ _ _ (List.pairwise_cons.mp hpw).2 (hbd2 false)]
      exact hcp false

/-- The classification loop does not change the `Deleted` lines (and hence
their recorded numbers). -/
theorem classifyGo_delNums (isin : List Bool) :
    ∀ rest idx lines cur blocks,
      List.Pairwise (fun e1 e2 : Nat × Nat × Nat => e1.1 < e2.1) rest →
      (∀ e ∈ rest, (lines.getD e.1 default).state = .Unchanged) →
      delNums (classifyGo isin rest idx lines cur blocks).1 = delNums lines := by
  intro rest
  induction rest with
  | nil =>
    intro idx lines cur blocks _ _
    cases cur <;> rfl
  | cons hd tl ih =>
    intro idx lines cur blocks hpw hbd
    obtain ⟨line_idx, old_idx, new_idx⟩ := hd
    have hst : (lines.getD line_idx default).state = DiffState.Unchanged :=
      hbd (line_idx, old_idx, new_idx) (List.mem_cons_self _ _)
    simp only [classifyGo]
    have hbd2 : ∀ (flag : Bool), ∀ e ∈ tl,
        ((lines.set line_idx (relabel flag old_idx new_idx
          (lines.getD line_idx default))).getD e.1 default).state = .Unchanged := by
      intro flag e he
      have hne : line_idx ≠ e.1 := by
        have := (List.pairwise_cons.mp hpw).1 e he
        omega
      rw [getD_set_ne _ _ _ _ _ hne]
      exact hbd e (List.mem_cons_of_mem _ he)
    have hdn : ∀ (flag : Bool),
        delNums (lines.set line_idx (relabel flag old_idx new_idx
          (lines.getD line_idx default))) = delNums lines := by
      intro flag
      rw [delNums]
      rw [filterMap_set_none _ lines line_idx _ default ?_ ?_]
      · rfl
      · rw [hst]
      · rcases (relabel_fields flag old_idx new_idx (lines.getD line_idx default)).2.2
          with h | h <;> rw [h]
    cases hflag : isin.getD idx false with
    | true =>
      rw [if_pos rfl, ih (idx + 1) _ _ _ (List.pairwise_cons.mp hpw).2 (hbd2 true)]
      exact hdn true
    | false =>
      rw [if_neg (by simp), ih (idx + 1) _ _ _ (List.pairwise_cons.mp hpw).2 (hbd2 false)]
      exact hdn false

/-! ## Top-level decomposition of `compute_diff` -/

/-- The `old_to_new` correspondence used by `compute_diff`. -/
def diffOA (A B : List ComparableLine) : List (Option Nat) :=
  (diffLinks A B (build_symbol_table A B)).1

/-- The `new_to_old` correspondence used by `compute_diff`. -/
def diffNA (A B : List ComparableLine) : List (Option Nat) :=
  (diffLinks A B (build_symbol_table A B)).2

/-- The line list of `compute_diff` before the classification pass. -/
def diffPre (A B : List ComparableLine) : List DiffLine :=
  (build_matched A B (diffOA A B) (diffNA A B)).1

/-- The matched-info list `(line_index, old_index, new_index)` of
`compute_diff`, in output (match) order. -/
def diffMatched (A B : List ComparableLine) : List (Nat × Nat × Nat) :=
  (build_matched A B (diffOA A B) (diffNA A B)).2

theorem compute_diff_lines (A B : List ComparableLine) :
    (compute_diff A B).lines =
      (classify_matched_lines (diffPre A B) (diffMatched A B)).1 := rfl

theorem compute_diff_blocks (A B : List ComparableLine) :
    (compute_diff A B).moved_blocks =
      (classify_matched_lines (diffPre A B) (diffMatched A B)).2 := rfl

theorem diff_linkState (A B : List ComparableLine) :
    LinkState A B (diffOA A B) (diffNA A B) :=
  diffLinks_linkState A B

/-- `build_matched_spec` specialized to the links of `compute_diff`. -/
theorem diff_build_spec (A B : List ComparableLine) :
    PreClassified A B (diffOA A B) (diffMatched A B) (diffPre A B) ∧
    (∀ e ∈ diffMatched A B,
      (diffOA A B).getD e.2.1 none = some e.2.2 ∧ e.2.1 < A.length ∧ e.2.2 < B.length) ∧
    List.Pairwise (fun e1 e2 : Nat × Nat × Nat => e1.2.2 < e2.2.2) (diffMatched A B) ∧
    List.Pairwise (fun e1 e2 : Nat × Nat × Nat => e1.1 < e2.1) (diffMatched A B) ∧
    List.Pairwise (fun e1 e2 : Nat × Nat × Nat => e1.2.1 ≠ e2.2.1) (diffMatched A B) ∧
    (∀ i j', (diffOA A B).getD i none = some j' → ∃ e ∈ diffMatched A B, e.2.1 = i) ∧
    (∀ e ∈ diffMatched A B,
      lineEq (A.getD e.2.1 default) (B.getD e.2.2 default) = true) :=
  build_matched_spec A B (diffOA A B) (diffNA A B) (diff_linkState A B)

/-- Wrapper of `classifyGo_countP` for `classify_matched_lines`. -/
theorem classify_countP (lines : List DiffLine) (matched : List (Nat × Nat × Nat))
    (p : DiffLine → Bool)
    (hrel : ∀ flag old_idx new_idx l, l.state = .Unchanged →
      p (relabel flag old_idx new_idx l) = p l)
    (hpw : List.Pairwise (fun e1 e2 : Nat × Nat × Nat => e1.1 < e2.1) matched)
    (hbd : ∀ e ∈ matched, e.1 < lines.length ∧ (lines.getD e.1 default).state = .Unchanged) :
    (classify_matched_lines lines matched).1.countP p = lines.countP p := by
  rw [classify_matched_lines]
  by_cases hemp : matched.isEmpty = true
  · rw [if_pos hemp]
  · rw [if_neg hemp]
    exact classifyGo_countP _ p hrel matched 0 lines none [] hpw hbd

/-- Wrapper of `classifyGo_delNums` for `classify_matched_lines`. -/
theorem classify_delNums (lines : List DiffLine) (matched : List (Nat × Nat × Nat))
    (hpw : List.Pairwise (fun e1 e2 : Nat × Nat × Nat => e1.1 < e2.1) matched)
    (hbd : ∀ e ∈ matched, (lines.getD e.1 default).state = .Unchanged) :
    delNums (classify_matched_lines lines matched).1 = delNums lines := by
  rw [classify_matched_lines]
  by_cases hemp : matched.isEmpty = true
  · rw [if_pos hemp]
  · rw [if_neg hemp]
    exact classifyGo_delNums _ matched 0 lines none [] hpw hbd

theorem unchangedLine_state (A B : List ComparableLine) (i j : Nat) :
    (unchangedLine A B i j).state = .Unchanged := rfl

/-! ## Counting helpers -/

theorem length_eq_of_nodup_subset {α : Type} (l1 l2 : List α)
    (h1 : l1.Nodup) (h2 : l2.Nodup) (s1 : l1 ⊆ l2) (s2 : l2 ⊆ l1) :
    l1.length = l2.length := by
  have a := (List.subperm_of_subset h1 s1).length_le
  have b := (List.subperm_of_subset h2 s2).length_le
  omega

theorem length_filter_split {α : Type} (p : α → Bool) :
    ∀ l : List α, (l.filter p).length + (l.filter (fun a => !(p a))).length = l.length := by
  intro l
  induction l with
  | nil => simp
  | cons a tl ih =>
    cases hp : p a <;> simp [List.filter_cons, hp] <;> omega

/-- `delNums (diffPre A B)` has exactly the unlinked positions of `A`
(shifted to 1-based), hence its length plus the number of matches is
`A.length`. -/
theorem diffPre_del_count (A B : List ComparableLine) :
    (delNums (diffPre A B)).length + (diffMatched A B).length = A.length := by
  obtain ⟨hpre, hm1, hmJs, hmLine, hmOlds, hlinked, hkeys⟩ := diff_build_spec A B
  have hnodupD : (delNums (diffPre A B)).Nodup := hpre.delChain.nodup
  have hulnodup : ((List.range A.length).filter
      (fun i => ((diffOA A B).getD i none).isNone)).Nodup :=
    (List.nodup_range _).filter _
  have hllnodup : ((List.range A.length).filter
      (fun i => ((diffOA A B).getD i none).isSome)).Nodup :=
    (List.nodup_range _).filter _
  have h1 : (delNums (diffPre A B)).length =
      (((List.range A.length).filter (fun i => ((diffOA A B).getD i none).isNone)).map
        (· + 1)).length := by
    apply length_eq_of_nodup_subset
    · exact hnodupD
    · exact hulnodup.map (fun a b h => by omega)
    · intro x hx
      obtain ⟨i, hxi, hiA, hoa⟩ := hpre.delOnly x hx
      rw [List.mem_map]
      refine ⟨i, ?_, hxi.symm⟩
      rw [List.mem_filter]
      exact ⟨List.mem_range.mpr hiA, by rw [hoa]; rfl⟩
    · intro y hy
      obtain ⟨i, hi, hyi⟩ := List.mem_map.mp hy
      rw [List.mem_filter] at hi
      have hiA := List.mem_range.mp hi.1
      have hoa : (diffOA A B).getD i none = none := by
        have := hi.2
        cases h : (diffOA A B).getD i none with
        | none => rfl
        | some v => rw [h] at this; exact Bool.noConfusion this
      have := hpre.delAll i hiA hoa
      rw [← hyi]
      exact List.count_pos_iff.mp (by omega)
  have h2 : (diffMatched A B).length =
      ((List.range A.length).filter (fun i => ((diffOA A B).getD i none).isSome)).length := by
    have hmapnodup : ((diffMatched A B).map (fun e => e.2.1)).Nodup :=
      List.pairwise_map.mpr hmOlds
    rw [show (diffMatched A B).length = ((diffMatched A B).map (fun e => e.2.1)).length from
      (List.length_map _ _).symm]
    apply length_eq_of_nodup_subset
    · exact hmapnodup
    · exact hllnodup
    · intro i hi
      obtain ⟨e, he, hei⟩ := List.mem_map.mp hi
      rw [List.mem_filter]
      obtain ⟨hoa, hiA, _⟩ := hm1 e he
      subst hei
      exact ⟨List.mem_range.mpr hiA, by rw [hoa]; rfl⟩
    · intro i hi
      rw [List.mem_filter] at hi
      obtain ⟨j', hj'⟩ := Option.isSome_iff_exists.mp hi.2
      obtain ⟨e, he, hei⟩ := hlinked i j' hj'
      rw [List.mem_map]
      exact ⟨e, he, hei⟩
  have h3 := length_filter_split (fun i => ((diffOA A B).getD i none).isNone)
    (List.range A.length)
  have h4 : ((List.range A.length).filter
        (fun i => !((diffOA A B).getD i none).isNone)).length =
      ((List.range A.length).filter (fun i => ((diffOA A B).getD i none).isSome)).length := by
    congr 1
    apply List.filter_congr
    intro i _
    cases (diffOA A B).getD i none <;> rfl
  rw [List.length_map] at h1
  rw [List.length_range] at h3
  omega

/-- C3: for every pair of inputs, the number of `Added` lines minus the
number of `Deleted` lines in `compute_diff A B` equals `|B| - |A|`. -/
theorem compute_diff_added_sub_deleted (A B : List ComparableLine) :
    ((compute_diff A B).lines.countP (fun l => l.state == DiffState.Added) : Int) -
      ((compute_diff A B).lines.countP (fun l => l.state == DiffState.Deleted) : Int) =
    (B.length : Int) - (A.length : Int) := by
  obtain ⟨hpre, hm1, hmJs, hmLine, hmOlds, hlinked, hkeys⟩ := diff_build_spec A B
  have hbd : ∀ e ∈ diffMatched A B, e.1 < (diffPre A B).length ∧
      ((diffPre A B).getD e.1 default).state = .Unchanged := by
    intro e he
    obtain ⟨h1, h2⟩ := hpre.mEntry e he
    exact ⟨h1, by rw [h2]; rfl⟩
  have hrelA : ∀ (flag : Bool) (old_idx new_idx : Nat) (l : DiffLine),
      l.state = .Unchanged →
      ((relabel flag old_idx new_idx l).state == DiffState.Added) =
        (l.state == DiffState.Added) := by
    intro flag old_idx new_idx l hl
    rcases (relabel_fields flag old_idx new_idx l).2.2 with h | h <;> simp [h, hl]
  have hrelD : ∀ (flag : Bool) (old_idx new_idx : Nat) (l : DiffLine),
      l.state = .Unchanged →
      ((relabel flag old_idx new_idx l).state == DiffState.Deleted) =
        (l.state == DiffState.Deleted) := by
    intro flag old_idx new_idx l hl
    rcases (relabel_fields flag old_idx new_idx l).2.2 with h | h <;> simp [h, hl]
  have hA := classify_countP (diffPre A B) (diffMatched A B)
    (fun l => l.state == DiffState.Added) hrelA hmLine hbd
  have hD := classify_countP (diffPre A B) (diffMatched A B)
    (fun l => l.state == DiffState.Deleted) hrelD hmLine hbd
  rw [compute_diff_lines, hA, hD]
  have hadd := hpre.addedCount
  have hdellen := hpre.delLen
  have hcount := diffPre_del_count A B
  omega

/-- Wrapper of `classifyGo_lines` for `classify_matched_lines`. -/
theorem classify_lines_spec (lines : List DiffLine) (matched : List (Nat × Nat × Nat))
    (hpw : List.Pairwise (fun e1 e2 : Nat × Nat × Nat => e1.1 < e2.1) matched)
    (hbd : ∀ e ∈ matched, e.1 < lines.length) :
    (classify_matched_lines lines matched).1.length = lines.length ∧
    (∀ li, (∀ e ∈ matched, e.1 ≠ li) →
      (classify_matched_lines lines matched).1.getD li default = lines.getD li default) ∧
    (∀ k, k < matched.length →
      (classify_matched_lines lines matched).1.getD (matched.getD k default).1 default =
        relabel ((markLis matched.length
            (longest_increasing_subsequence_indices (matched.map (fun m => m.2.1)))).getD k
            false)
          (matched.getD k default).2.1 (matched.getD k default).2.2
          (lines.getD (matched.getD k default).1 default)) := by
  rw [classify_matched_lines]
  by_cases hemp : matched.isEmpty = true
  · rw [if_pos hemp]
    refine ⟨rfl, fun li _ => rfl, ?_⟩
    intro k hk
    rw [List.isEmpty_iff] at hemp
    rw [hemp] at hk
    simp at hk
  · rw [if_neg hemp]
    have := classifyGo_lines
      (markLis matched.length
        (longest_increasing_subsequence_indices (matched.map (fun m => m.2.1))))
      matched 0 lines none [] hpw hbd
    refine ⟨this.1, this.2.1, ?_⟩
    intro k hk
    have h := this.2.2 k hk
    rw [h]
    simp only [Nat.zero_add]

/-- C4: every position of `A` that received no correspondence appears
exactly once as a `Deleted` line in `compute_diff A B`, and the `Deleted`
lines' left (old-side) line numbers are strictly ascending across the
whole output. -/
theorem compute_diff_deletions (A B : List ComparableLine) :
    List.Pairwise (· < ·) (delNums (compute_diff A B).lines) ∧
    (∀ i, i < A.length → (diffOA A B).getD i none = none →
      (delNums (compute_diff A B).lines).count (i + 1) = 1) := by
  obtain ⟨hpre, hm1, hmJs, hmLine, hmOlds, hlinked, hkeys⟩ := diff_build_spec A B
  have hbd2 : ∀ e ∈ diffMatched A B, ((diffPre A B).getD e.1 default).state = .Unchanged := by
    intro e he
    rw [(hpre.mEntry e he).2]
    rfl
  have hdn : delNums (compute_diff A B).lines = delNums (diffPre A B) := by
    rw [compute_diff_lines]
    exact classify_delNums (diffPre A B) (diffMatched A B) hmLine hbd2
  rw [hdn]
  exact ⟨hpre.delChain, hpre.delAll⟩

/-- Witness for `compute_diff_deletions`: `A = [a, b]`, `B = [a]` — the
unlinked position 1 of `A` is reported exactly once as `Deleted` line 2. -/
theorem compute_diff_deletions_witness :
    (1 < ([ComparableLine.mk "a" "a", ComparableLine.mk "b" "b"] : List ComparableLine).length ∧
     (diffOA [ComparableLine.mk "a" "a", ComparableLine.mk "b" "b"]
        [ComparableLine.mk "a" "a"]).getD 1 none = none) ∧
    (delNums (compute_diff [ComparableLine.mk "a" "a", ComparableLine.mk "b" "b"]
        [ComparableLine.mk "a" "a"]).lines).count (1 + 1) = 1 :=
  ⟨⟨by decide, by decide⟩,
    (compute_diff_deletions [ComparableLine.mk "a" "a", ComparableLine.mk "b" "b"]
      [ComparableLine.mk "a" "a"]).2 1 (by decide) (by decide)⟩

/-- C6: the state of each output line determines which of its fields are
populated: `Added` has only `right`, `Deleted` has only `left`,
`Unchanged`/`Moved` have both, and the movement fields are populated
exactly for `Moved` lines. -/
theorem compute_diff_line_shape (A B : List ComparableLine) :
    ∀ l ∈ (compute_diff A B).lines,
      (l.state = .Added → l.left = none ∧ l.right.isSome = true) ∧
      (l.state = .Deleted → l.left.isSome = true ∧ l.right = none) ∧
      (l.state = .Unchanged ∨ l.state = .Moved →
        l.left.isSome = true ∧ l.right.isSome = true) ∧
      (l.state ≠ .Moved → l.moved_from = none ∧ l.moved_to = none) ∧
      (l.state = .Moved → l.moved_from.isSome = true ∧ l.moved_to.isSome = true) := by
  obtain ⟨hpre, hm1, hmJs, hmLine, hmOlds, hlinked, hkeys⟩ := diff_build_spec A B
  have hbd : ∀ e ∈ diffMatched A B, e.1 < (diffPre A B).length :=
    fun e he => (hpre.mEntry e he).1
  obtain ⟨hlen, huntouched, hentry⟩ := classify_lines_spec (diffPre A B) (diffMatched A B)
    hmLine hbd
  intro l hl
  rw [compute_diff_lines] at hl
  obtain ⟨li, hli, hgl⟩ := List.mem_iff_getElem.mp hl
  have hgl2 : (classify_matched_lines (diffPre A B) (diffMatched A B)).1.getD li default
      = l := by
    rw [List.getD_eq_getElem _ _ hli]
    exact hgl
  by_cases hmem : ∃ e ∈ diffMatched A B, e.1 = li
  · obtain ⟨e, he, hei⟩ := hmem
    obtain ⟨k, hk, hke⟩ := List.mem_iff_getElem.mp he
    have hke2 : (diffMatched A B).getD k default = e := by
      rw [List.getD_eq_getElem _ _ hk]
      exact hke
    have h := hentry k hk
    rw [hke2, hei] at h
    rw [hgl2] at h
    have hval := (hpre.mEntry e he).2
    rw [hei] at hval
    rw [hval] at h
    rw [h]
    cases (markLis (diffMatched A B).length
        (longest_increasing_subsequence_indices
          ((diffMatched A B).map (fun m => m.2.1)))).getD k false with
    | true => simp [relabel, unchangedLine, DiffLine.new]
    | false => simp [relabel, unchangedLine, DiffLine.new]
  · have hno : ∀ e ∈ diffMatched A B, e.1 ≠ li := by
      intro e he
      intro hc
      exact hmem ⟨e, he, hc⟩
    have h := huntouched li hno
    rw [hgl2] at h
    have hlen2 : li < (diffPre A B).length := by
      rw [← hlen]; exact hli
    have hmem2 : (diffPre A B).getD li default ∈ diffPre A B := by
      rw [List.getD_eq_getElem _ _ hlen2]
      exact List.getElem_mem _
    obtain ⟨hmf, hmt, hshape⟩ := hpre.lineShape _ hmem2
    rw [← h] at hmf hmt hshape
    refine ⟨?_, ?_, ?_, ?_, ?_⟩
    · intro hc
      rcases hshape with ⟨_, h2, h3⟩ | ⟨h1, _, _⟩ | ⟨h1, _, _⟩
      · exact ⟨h2, h3⟩
      · rw [hc] at h1; exact absurd h1 (by simp)
      · rw [hc] at h1; exact absurd h1 (by simp)
    · intro hc
      rcases hshape with ⟨h1, _, _⟩ | ⟨_, h2, h3⟩ | ⟨h1, _, _⟩
      · rw [hc] at h1; exact absurd h1 (by simp)
      · exact ⟨h2, h3⟩
      · rw [hc] at h1; exact absurd h1 (by simp)
    · intro hc
      rcases hshape with ⟨h1, h2, h3⟩ | ⟨h1, h2, h3⟩ | ⟨h1, h2, h3⟩
      · rcases hc with hc | hc <;> (rw [hc] at h1; exact absurd h1 (by simp))
      · rcases hc with hc | hc <;> (rw [hc] at h1; exact absurd h1 (by simp))
      · exact ⟨h2, h3⟩
    · intro _
      exact ⟨hmf, hmt⟩
    · intro hc
      exfalso
      rcases hshape with ⟨h1, _, _⟩ | ⟨h1, _, _⟩ | ⟨h1, _, _⟩ <;>
        (rw [hc] at h1; exact absurd h1 (by simp))

/-- Witness for `compute_diff_line_shape` at a concrete input containing
all four states. -/
theorem compute_diff_line_shape_witness :
    (DiffLine.new DiffState.Added none
        (some ⟨2, "x"⟩) ∈ (compute_diff [ComparableLine.mk "a" "a"]
          [ComparableLine.mk "a" "a", ComparableLine.mk "x" "x"]).lines) ∧
    ((DiffLine.new DiffState.Added none (some ⟨2, "x"⟩)).state = DiffState.Added →
      (DiffLine.new DiffState.Added none (some ⟨2, "x"⟩)).left = none ∧
      (DiffLine.new DiffState.Added none (some ⟨2, "x"⟩)).right.isSome = true) :=
  ⟨by decide,
    ((compute_diff_line_shape [ComparableLine.mk "a" "a"]
        [ComparableLine.mk "a" "a", ComparableLine.mk "x" "x"])
      (DiffLine.new DiffState.Added none (some ⟨2, "x"⟩)) (by decide)).1⟩

/-- Every `Unchanged`/`Moved` output line is exactly one relabelled
matched entry, and its `left`/`right` contents are the matched pair's. -/
theorem matched_line_value (A B : List ComparableLine) :
    ∀ li, li < (compute_diff A B).lines.length →
      (((compute_diff A B).lines.getD li default).state = .Unchanged ∨
       ((compute_diff A B).lines.getD li default).state = .Moved) →
      ∃ e ∈ diffMatched A B, e.1 = li ∧
        ((compute_diff A B).lines.getD li default).left =
          some ⟨e.2.1 + 1, (A.getD e.2.1 default).original_text⟩ ∧
        ((compute_diff A B).lines.getD li default).right =
          some ⟨e.2.2 + 1, (B.getD e.2.2 default).original_text⟩ := by
  obtain ⟨hpre, hm1, hmJs, hmLine, hmOlds, hlinked, hkeys⟩ := diff_build_spec A B
  have hbd : ∀ e ∈ diffMatched A B, e.1 < (diffPre A B).length :=
    fun e he => (hpre.mEntry e he).1
  obtain ⟨hlen, huntouched, hentry⟩ := classify_lines_spec (diffPre A B) (diffMatched A B)
    hmLine hbd
  intro li hli hstate
  rw [compute_diff_lines] at hli hstate ⊢
  by_cases hmem : ∃ e ∈ diffMatched A B, e.1 = li
  · obtain ⟨e, he, hei⟩ := hmem
    obtain ⟨k, hk, hke⟩ := List.mem_iff_getElem.mp he
    have hke2 : (diffMatched A B).getD k default = e := by
      rw [List.getD_eq_getElem _ _ hk]
      exact hke
    have h := hentry k hk
    rw [hke2, hei, (show (diffPre A B).getD li default = unchangedLine A B e.2.1 e.2.2 by
      rw [← hei]; exact (hpre.mEntry e he).2)] at h
    refine ⟨e, he, hei, ?_, ?_⟩
    · rw [h, (relabel_fields _ _ _ _).1]
      rfl
    · rw [h, (relabel_fields _ _ _ _).2.1]
      rfl
  · exfalso
    have hno : ∀ e ∈ diffMatched A B, e.1 ≠ li := fun e he hc => hmem ⟨e, he, hc⟩
    have h := huntouched li hno
    have hlen2 : li < (diffPre A B).length := by rw [← hlen]; exact hli
    have hmem2 : (diffPre A B).getD li default ∈ diffPre A B := by
      rw [List.getD_eq_getElem _ _ hlen2]
      exact List.getElem_mem _
    obtain ⟨-, -, hshape⟩ := hpre.lineShape _ hmem2
    rw [h] at hstate
    rcases hstate with hst | hst
    · rcases hshape with ⟨h1, -, -⟩ | ⟨h1, -, -⟩ | ⟨h1, -, -⟩
      · rw [hst] at h1; exact absurd h1 (by simp)
      · rw [hst] at h1; exact absurd h1 (by simp)
      · obtain ⟨e, he, hei⟩ := hpre.unchMatched li hlen2 h1
        exact hmem ⟨e, he, hei⟩
    · rcases hshape with ⟨h1, -, -⟩ | ⟨h1, -, -⟩ | ⟨h1, -, -⟩ <;>
        (rw [hst] at h1; exact absurd h1 (by simp))

/-- C10: every `Unchanged`/`Moved` line of `compute_diff A B` pairs an
actual position of each input: its 1-based line numbers are in range, the
stored texts are the inputs' original texts, the two positions have equal
comparison keys, and no position of `A` or of `B` is paired by more than
one such line. -/
theorem compute_diff_pairs_real_positions (A B : List ComparableLine) :
    (∀ li, li < (compute_diff A B).lines.length →
      (((compute_diff A B).lines.getD li default).state = .Unchanged ∨
       ((compute_diff A B).lines.getD li default).state = .Moved) →
      ∃ lc rc, ((compute_diff A B).lines.getD li default).left = some lc ∧
        ((compute_diff A B).lines.getD li default).right = some rc ∧
        1 ≤ lc.line_number ∧ lc.line_number ≤ A.length ∧
        1 ≤ rc.line_number ∧ rc.line_number ≤ B.length ∧
        lc.text = (A.getD (lc.line_number - 1) default).original_text ∧
        rc.text = (B.getD (rc.line_number - 1) default).original_text ∧
        (A.getD (lc.line_number - 1) default).comparable_text =
          (B.getD (rc.line_number - 1) default).comparable_text) ∧
    (∀ li1 li2, li1 < li2 → li2 < (compute_diff A B).lines.length →
      (((compute_diff A B).lines.getD li1 default).state = .Unchanged ∨
       ((compute_diff A B).lines.getD li1 default).state = .Moved) →
      (((compute_diff A B).lines.getD li2 default).state = .Unchanged ∨
       ((compute_diff A B).lines.getD li2 default).state = .Moved) →
      ∀ lc1 lc2 rc1 rc2,
        ((compute_diff A B).lines.getD li1 default).left = some lc1 →
        ((compute_diff A B).lines.getD li2 default).left = some lc2 →
        ((compute_diff A B).lines.getD li1 default).right = some rc1 →
        ((compute_diff A B).lines.getD li2 default).right = some rc2 →
        lc1.line_number ≠ lc2.line_number ∧ rc1.line_number ≠ rc2.line_number) := by
  obtain ⟨hpre, hm1, hmJs, hmLine, hmOlds, hlinked, hkeys⟩ := diff_build_spec A B
  constructor
  · intro li hli hstate
    obtain ⟨e, he, hei, hleft, hright⟩ := matched_line_value A B li hli hstate
    obtain ⟨hoa, hiA, hjB⟩ := hm1 e he
    refine ⟨⟨e.2.1 + 1, (A.getD e.2.1 default).original_text⟩,
      ⟨e.2.2 + 1, (B.getD e.2.2 default).original_text⟩, hleft, hright,
      ?_, ?_, ?_, ?_, ?_, ?_, ?_⟩
    · show 1 ≤ e.2.1 + 1
      omega
    · show e.2.1 + 1 ≤ A.length
      omega
    · show 1 ≤ e.2.2 + 1
      omega
    · show e.2.2 + 1 ≤ B.length
      omega
    · show (A.getD e.2.1 default).original_text =
        (A.getD (e.2.1 + 1 - 1) default).original_text
      simp only [Nat.add_sub_cancel]
    · show (B.getD e.2.2 default).original_text =
        (B.getD (e.2.2 + 1 - 1) default).original_text
      simp only [Nat.add_sub_cancel]
    · show (A.getD (e.2.1 + 1 - 1) default).comparable_text =
        (B.getD (e.2.2 + 1 - 1) default).comparable_text
      simp only [Nat.add_sub_cancel]
      exact (lineEq_iff _ _).mp (hkeys e he)
  · intro li1 li2 hlt hli2 hs1 hs2 lc1 lc2 rc1 rc2 hl1 hl2 hr1 hr2
    obtain ⟨e1, he1, hei1, hleft1, hright1⟩ :=
      matched_line_value A B li1 (by omega) hs1
    obtain ⟨e2, he2, hei2, hleft2, hright2⟩ :=
      matched_line_value A B li2 hli2 hs2
    obtain ⟨k1, hk1, hke1⟩ := List.mem_iff_getElem.mp he1
    obtain ⟨k2, hk2, hke2⟩ := List.mem_iff_getElem.mp he2
    have hkk : k1 ≠ k2 := by
      intro hc
      subst hc
      have h12 : e1 = e2 := by
        rw [← hke1, ← hke2]
      rw [h12] at hei1
      omega
    have hpair : e1.2.1 ≠ e2.2.1 ∧ e1.2.2 ≠ e2.2.2 := by
      rcases Nat.lt_or_ge k1 k2 with hk | hk
      · have ho := List.pairwise_iff_getElem.mp hmOlds k1 k2 hk1 hk2 hk
        have hj := List.pairwise_iff_getElem.mp hmJs k1 k2 hk1 hk2 hk
        rw [hke1, hke2] at ho hj
        exact ⟨ho, by omega⟩
      · have hk' : k2 < k1 := by omega
        have ho := List.pairwise_iff_getElem.mp hmOlds k2 k1 hk2 hk1 hk'
        have hj := List.pairwise_iff_getElem.mp hmJs k2 k1 hk2 hk1 hk'
        rw [hke1, hke2] at ho hj
        exact ⟨fun hc => ho hc.symm, by omega⟩
    rw [hl1] at hleft1
    rw [hl2] at hleft2
    rw [hr1] at hright1
    rw [hr2] at hright2
    injection hleft1 with hleft1
    injection hleft2 with hleft2
    injection hright1 with hright1
    injection hright2 with hright2
    constructor
    · rw [hleft1, hleft2]
      show e1.2.1 + 1 ≠ e2.2.1 + 1
      omega
    · rw [hright1, hright2]
      show e1.2.2 + 1 ≠ e2.2.2 + 1
      omega

/-- Witness for `compute_diff_pairs_real_positions` on the move example
`A = [a, b, c]`, `B = [c, a, b]` (line 0 of the output is `Moved`). -/
theorem compute_diff_pairs_real_positions_witness :
    (0 < (compute_diff [ComparableLine.mk "a" "a", ComparableLine.mk "b" "b",
        ComparableLine.mk "c" "c"] [ComparableLine.mk "c" "c", ComparableLine.mk "a" "a",
        ComparableLine.mk "b" "b"]).lines.length ∧
     (((compute_diff [ComparableLine.mk "a" "a", ComparableLine.mk "b" "b",
        ComparableLine.mk "c" "c"] [ComparableLine.mk "c" "c", ComparableLine.mk "a" "a",
        ComparableLine.mk "b" "b"]).lines.getD 0 default).state = DiffState.Unchanged ∨
      ((compute_diff [ComparableLine.mk "a" "a", ComparableLine.mk "b" "b",
        ComparableLine.mk "c" "c"] [ComparableLine.mk "c" "c", ComparableLine.mk "a" "a",
        ComparableLine.mk "b" "b"]).lines.getD 0 default).state = DiffState.Moved)) ∧
    (∃ lc rc, ((compute_diff [ComparableLine.mk "a" "a", ComparableLine.mk "b" "b",
        ComparableLine.mk "c" "c"] [ComparableLine.mk "c" "c", ComparableLine.mk "a" "a",
        ComparableLine.mk "b" "b"]).lines.getD 0 default).left = some lc ∧
      ((compute_diff [ComparableLine.mk "a" "a", ComparableLine.mk "b" "b",
        ComparableLine.mk "c" "c"] [ComparableLine.mk "c" "c", ComparableLine.mk "a" "a",
        ComparableLine.mk "b" "b"]).lines.getD 0 default).right = some rc ∧
      1 ≤ lc.line_number ∧
      lc.line_number ≤ ([ComparableLine.mk "a" "a", ComparableLine.mk "b" "b",
        ComparableLine.mk "c" "c"] : List ComparableLine).length ∧
      1 ≤ rc.line_number ∧
      rc.line_number ≤ ([ComparableLine.mk "c" "c", ComparableLine.mk "a" "a",
        ComparableLine.mk "b" "b"] : List ComparableLine).length ∧
      lc.text = (([ComparableLine.mk "a" "a", ComparableLine.mk "b" "b",
        ComparableLine.mk "c" "c"] : List ComparableLine).getD (lc.line_number - 1)
          default).original_text ∧
      rc.text = (([ComparableLine.mk "c" "c", ComparableLine.mk "a" "a",
        ComparableLine.mk "b" "b"] : List ComparableLine).getD (rc.line_number - 1)
          default).original_text ∧
      (([ComparableLine.mk "a" "a", ComparableLine.mk "b" "b",
        ComparableLine.mk "c" "c"] : List ComparableLine).getD (lc.line_number - 1)
          default).comparable_text =
        (([ComparableLine.mk "c" "c", ComparableLine.mk "a" "a",
          ComparableLine.mk "b" "b"] : List ComparableLine).getD (rc.line_number - 1)
            default).comparable_text) :=
  ⟨⟨by decide, by decide⟩,
    (compute_diff_pairs_real_positions [ComparableLine.mk "a" "a", ComparableLine.mk "b" "b",
        ComparableLine.mk "c" "c"] [ComparableLine.mk "c" "c", ComparableLine.mk "a" "a",
        ComparableLine.mk "b" "b"]).1 0 (by decide) (by decide)⟩

/-! ## Correctness of the patience-sorting LIS -/

/-- Structure of a predecessor chain, given that predecessor links point
strictly backwards with strictly smaller values. -/
theorem buildChain_spec (seq : List Nat) (preds : List (Option Nat))
    (hp : ∀ k p, preds.getD k none = some p → p < k ∧ seq.getD p 0 < seq.getD k 0) :
    ∀ gas k, k ≤ gas →
      (buildChain preds gas k).Pairwise (· < ·) ∧
      (∀ m ∈ buildChain preds gas k, m ≤ k) ∧
      (buildChain preds gas k).getLast? = some k ∧
      ((buildChain preds gas k).map (fun m => seq.getD m 0)).Pairwise (· < ·) ∧
      (∀ v ∈ (buildChain preds gas k).map (fun m => seq.getD m 0), v ≤ seq.getD k 0) := by
  intro gas
  induction gas with
  | zero =>
    intro k hk
    rw [buildChain]
    refine ⟨by simp, by simp, by simp, by simp, by simp⟩
  | succ gas ih =>
    intro k hk
    rw [buildChain]
    cases hpk : preds.getD k none with
    | none =>
      refine ⟨by simp, by simp, by simp, by simp, by simp⟩
    | some p =>
      obtain ⟨hplt, hpval⟩ := hp k p hpk
      obtain ⟨c1, c2, c3, c4, c5⟩ := ih p (by omega)
      refine ⟨?_, ?_, ?_, ?_, ?_⟩
      · rw [List.pairwise_append]
        refine ⟨c1, by simp, ?_⟩
        intro a ha b hb
        rw [List.mem_singleton] at hb
        subst hb
        have := c2 a ha
        omega
      · intro m hm
        rcases List.mem_append.mp hm with h | h
        · have := c2 m h; omega
        · rw [List.mem_singleton] at h; omega
      · rw [List.getLast?_concat]
      · rw [List.map_append]
        rw [List.pairwise_append]
        refine ⟨c4, by simp, ?_⟩
        intro a ha b hb
        simp only [List.map_cons, List.map_nil, List.mem_singleton] at hb
        subst hb
        have := c5 a ha
        omega
      · intro v hv
        rw [List.map_append] at hv
        rcases List.mem_append.mp hv with h | h
        · have := c5 v h; omega
        · simp only [List.map_cons, List.map_nil, List.mem_singleton] at h
          omega

/-- The chain value does not depend on the exact gas, provided it is at
least the start index. -/
theorem buildChain_gas_irrel (preds : List (Option Nat))
    (hp : ∀ k p, preds.getD k none = some p → p < k) :
    ∀ gas gas' k, k ≤ gas → k ≤ gas' →
      buildChain preds gas k = buildChain preds gas' k := by
  intro gas
  induction gas with
  | zero =>
    intro gas' k h1 h2
    have : k = 0 := by omega
    subst this
    cases gas' with
    | zero => rfl
    | succ g =>
      rw [buildChain, buildChain]
      cases hpk : preds.getD 0 none with
      | none => rfl
      | some p =>
        have := (hp 0 p hpk)
        omega
  | succ gas ih =>
    intro gas' k h1 h2
    cases gas' with
    | zero =>
      have : k = 0 := by omega
      subst this
      rw [buildChain, buildChain]
      cases hpk : preds.getD 0 none with
      | none => rfl
      | some p =>
        have := (hp 0 p hpk)
        omega
    | succ g =>
      rw [buildChain, buildChain]
      cases hpk : preds.getD k none with
      | none => rfl
      | some p =>
        have := hp k p hpk
        show buildChain preds gas p ++ [k] = buildChain preds g p ++ [k]
        rw [ih g p (by omega) (by omega)]

/-- Chains at indices below `i` are unaffected by setting entry `i`. -/
theorem buildChain_stable (preds : List (Option Nat)) (i : Nat) (v : Option Nat)
    (hp : ∀ k p, preds.getD k none = some p → p < k) :
    ∀ gas k, k < i → buildChain (preds.set i v) gas k = buildChain preds gas k := by
  intro gas
  induction gas with
  | zero => intro k _; rfl
  | succ gas ih =>
    intro k hk
    rw [buildChain, buildChain, getD_set_ne _ _ _ _ _ (by omega)]
    cases hpk : preds.getD k none with
    | none => rfl
    | some p =>
      have := hp k p hpk
      show buildChain (preds.set i v) gas p ++ [k] = buildChain preds gas p ++ [k]
      rw [ih p (by omega)]

/-- Correctness of the `while left < right` binary search: it returns the
least slot whose tail value is not below `value`. -/
theorem bsearchGo_spec (seq tails : List Nat) (value len : Nat)
    (hmono : ∀ l m, l < m → m < len →
      seq.getD (tails.getD l 0) 0 < seq.getD (tails.getD m 0) 0) :
    ∀ gas lo hi, hi - lo ≤ gas → lo ≤ hi → hi ≤ len →
      (∀ l, l < lo → seq.getD (tails.getD l 0) 0 < value) →
      (∀ m, hi ≤ m → m < len → value ≤ seq.getD (tails.getD m 0) 0) →
      lo ≤ bsearchGo seq tails value gas lo hi ∧
      bsearchGo seq tails value gas lo hi ≤ hi ∧
      (∀ l, l < bsearchGo seq tails value gas lo hi →
        seq.getD (tails.getD l 0) 0 < value) ∧
      (∀ m, bsearchGo seq tails value gas lo hi ≤ m → m < len →
        value ≤ seq.getD (tails.getD m 0) 0) := by
  intro gas
  induction gas with
  | zero =>
    intro lo hi hgas hle hlen hlow hhigh
    rw [bsearchGo]
    exact ⟨le_refl _, hle, hlow, fun m hm1 hm2 => hhigh m (by omega) hm2⟩
  | succ gas ih =>
    intro lo hi hgas hle hlen hlow hhigh
    by_cases hlt : lo < hi
    · rw [bsearchGo, if_pos hlt]
      by_cases hmid : seq.getD (tails.getD ((lo + hi) / 2) 0) 0 < value
      · rw [if_pos hmid]
        refine ?_
        have h := ih ((lo + hi) / 2 + 1) hi (by omega) (by omega) hlen ?_ hhigh
        · exact ⟨by omega, h.2.1, h.2.2.1, h.2.2.2⟩
        · intro l hl
          rcases Nat.lt_or_ge l ((lo + hi) / 2) with h1 | h1
          · rcases Nat.lt_or_ge l lo with h2 | h2
            · exact hlow l h2
            · exact lt_trans (hmono l ((lo + hi) / 2) h1 (by omega)) hmid
          · have : l = (lo + hi) / 2 := by omega
            rw [this]
            exact hmid
      · rw [if_neg hmid]
        have h := ih lo ((lo + hi) / 2) (by omega) (by omega) (by omega) hlow ?_
        · exact ⟨h.1, by omega, h.2.2.1, h.2.2.2⟩
        · intro m hm1 hm2
          rcases Nat.lt_or_ge m ((lo + hi) / 2 + 1) with h1 | h1
          · have : m = (lo + hi) / 2 := by omega
            rw [this]
            omega
          · have := hmono ((lo + hi) / 2) m (by omega) hm2
            omega
    · rw [bsearchGo, if_neg hlt]
      exact ⟨le_refl _, hle, hlow, fun m hm1 hm2 => hhigh m (by omega) hm2⟩

/-- The invariant of the patience-sorting loop after processing the first
`i` elements. -/
structure LisInv (seq : List Nat) (i : Nat) (tails : List Nat) (preds : List (Option Nat))
    (len : Nat) : Prop where
  tlen : tails.length = seq.length
  plen : preds.length = seq.length
  lenLeI : len ≤ i
  tailsLt : ∀ l, l < len → tails.getD l 0 < i
  tailsMono : ∀ l m, l < m → m < len →
    seq.getD (tails.getD l 0) 0 < seq.getD (tails.getD m 0) 0
  predsHigh : ∀ k, i ≤ k → preds.getD k none = none
  predsLt : ∀ k p, preds.getD k none = some p → p < k ∧ seq.getD p 0 < seq.getD k 0
  chainLen : ∀ l, l < len →
    (buildChain preds (tails.getD l 0) (tails.getD l 0)).length = l + 1
  maximal : ∀ t x, (t ++ [x]).Sublist (seq.take i) → (t ++ [x]).Pairwise (· < ·) →
    t.length < len ∧ seq.getD (tails.getD t.length 0) 0 ≤ x

theorem lisInv_init (seq : List Nat) :
    LisInv seq 0 (List.replicate seq.length 0) (List.replicate seq.length none) 0 := by
  refine ⟨by simp, by simp, le_refl _, ?_, ?_, ?_, ?_, ?_, ?_⟩
  · intro l h; omega
  · intro l m h1 h2; omega
  · intro k _; exact getD_replicate_none _ _
  · intro k p h
    rw [getD_replicate_none] at h
    exact Option.noConfusion h
  · intro l h; omega
  · intro t x hsub _
    exfalso
    rw [List.take_zero] at hsub
    have := hsub.length_le
    simp at this

theorem take_succ_getD (l : List Nat) (i : Nat) (h : i < l.length) :
    l.take (i + 1) = l.take i ++ [l.getD i 0] := by
  rw [List.take_succ]
  simp [List.getElem?_eq_getElem h, List.getD_eq_getElem?_getD]

theorem sublist_concat_split {α : Type} (t l : List α) (a : α)
    (h : t.Sublist (l ++ [a])) :
    t.Sublist l ∨ ∃ t', t = t' ++ [a] ∧ t'.Sublist l := by
  rcases List.sublist_append_iff.mp h with ⟨t1, t2, rfl, h1, h2⟩
  rcases List.sublist_singleton.mp h2 with rfl | rfl
  · left; simpa using h1
  · right; exact ⟨t1, rfl, h1⟩

/-- One step of the patience loop preserves the invariant. -/
theorem lisStep_inv (seq : List Nat) (i : Nat) (tails : List Nat)
    (preds : List (Option Nat)) (len : Nat)
    (hinv : LisInv seq i tails preds len) (hi : i < seq.length)
    (left : Nat) (hleft : left = bsearchGo seq tails (seq.getD i 0) len 0 len)
    (len1 : Nat) (hlen1 : len1 = if left + 1 > len then left + 1 else len) :
    LisInv seq (i + 1) (tails.set left i)
      (if 0 < left then preds.set i (some (tails.getD (left - 1) 0)) else preds) len1 := by
  obtain ⟨hb1, hb2, hblow0, hbhigh0⟩ := bsearchGo_spec seq tails (seq.getD i 0) len
    hinv.tailsMono len 0 len (by omega) (by omega) (le_refl _)
    (by intro l h; omega) (by intro m h1 h2; omega)
  rw [← hleft] at hb1 hb2 hblow0 hbhigh0
  have hblow : ∀ l, l < left → seq.getD (tails.getD l 0) 0 < seq.getD i 0 := hblow0
  have hbhigh : ∀ m, left ≤ m → m < len → seq.getD i 0 ≤ seq.getD (tails.getD m 0) 0 :=
    hbhigh0
  have hlen1a : len ≤ len1 := by rw [hlen1]; split <;> omega
  have hlen1b : left < len1 := by rw [hlen1]; split <;> omega
  have hlen1c : len1 ≤ len + 1 := by rw [hlen1]; split <;> omega
  have hlenI : len ≤ i := hinv.lenLeI
  have hleftlen : left ≤ len := hb2
  have htailsLen : left < tails.length := by rw [hinv.tlen]; omega
  have hpredsLen : i < preds.length := by rw [hinv.plen]; exact hi
  have hlm1 : 0 < left → left - 1 < len := by omega
  have htails1 : ∀ l, l ≠ left → (tails.set left i).getD l 0 = tails.getD l 0 :=
    fun l hl => getD_set_ne _ _ _ _ _ (fun he => hl he.symm)
  have htails1self : (tails.set left i).getD left 0 = i :=
    getD_set_self _ _ _ _ htailsLen
  have hlt_of_lt_len1 : ∀ l, l < len1 → l ≠ left → l < len := by
    intro l h1 h2
    rw [hlen1] at h1
    rcases Nat.lt_or_ge l len with h | h
    · exact h
    · exfalso
      by_cases hc : left + 1 > len
      · rw [if_pos hc] at h1; omega
      · rw [if_neg hc] at h1; omega
  have hpreds1_ne : ∀ k, k ≠ i →
      (if 0 < left then preds.set i (some (tails.getD (left - 1) 0)) else preds).getD k none =
        preds.getD k none := by
    intro k hk
    split
    · exact getD_set_ne _ _ _ _ _ (fun he => hk he.symm)
    · rfl
  have hpreds1Lt : ∀ k p,
      (if 0 < left then preds.set i (some (tails.getD (left - 1) 0)) else preds).getD k none
        = some p → p < k ∧ seq.getD p 0 < seq.getD k 0 := by
    intro k p hkp
    by_cases hk : k = i
    · subst hk
      by_cases h0 : 0 < left
      · rw [if_pos h0, getD_set_self _ _ _ _ hpredsLen] at hkp
        injection hkp with hkp
        subst hkp
        exact ⟨hinv.tailsLt _ (hlm1 h0), hblow (left - 1) (by omega)⟩
      · rw [if_neg h0, hinv.predsHigh k (le_refl _)] at hkp
        exact Option.noConfusion hkp
    · rw [hpreds1_ne k hk] at hkp
      exact hinv.predsLt k p hkp
  refine ⟨?_, ?_, ?_, ?_, ?_, ?_, hpreds1Lt, ?_, ?_⟩
  · rw [List.length_set]; exact hinv.tlen
  · split
    · rw [List.length_set]; exact hinv.plen
    · exact hinv.plen
  · omega
  · -- tailsLt
    intro l hl
    by_cases hll : l = left
    · subst hll; rw [htails1self]; omega
    · rw [htails1 l hll]
      have := hinv.tailsLt l (hlt_of_lt_len1 l hl hll)
      omega
  · -- tailsMono
    intro l m hlm hm
    by_cases hml : m = left
    · subst hml
      rw [htails1self, htails1 l (by omega)]
      exact hblow l hlm
    · have hmlen : m < len := hlt_of_lt_len1 m hm hml
      rw [htails1 m hml]
      by_cases hll : l = left
      · rw [hll] at hlm ⊢
        rw [htails1self]
        have h2 : seq.getD i 0 ≤ seq.getD (tails.getD left 0) 0 :=
          hbhigh left (le_refl _) (by omega)
        have h3 : seq.getD (tails.getD left 0) 0 < seq.getD (tails.getD m 0) 0 :=
          hinv.tailsMono left m hlm hmlen
        omega
      · rw [htails1 l hll]
        exact hinv.tailsMono l m hlm hmlen
  · -- predsHigh
    intro k hk
    rw [hpreds1_ne k (by omega)]
    exact hinv.predsHigh k (by omega)
  · -- chainLen
    intro l hl
    by_cases hll : l = left
    · rw [hll]
      rw [htails1self]
      by_cases h0 : 0 < left
      · have hK : tails.getD (left - 1) 0 < i := hinv.tailsLt _ (hlm1 h0)
        have hstep : buildChain
            (if 0 < left then preds.set i (some (tails.getD (left - 1) 0)) else preds) i i =
            buildChain
              (if 0 < left then preds.set i (some (tails.getD (left - 1) 0)) else preds)
              (i - 1) (tails.getD (left - 1) 0) ++ [i] := by
          rw [if_pos h0]
          have hi1 : i = (i - 1) + 1 := by omega
          conv_lhs => rw [hi1]
          rw [buildChain]
          rw [← hi1, getD_set_self _ _ _ _ hpredsLen]
        rw [hstep]
        rw [buildChain_gas_irrel
          (if 0 < left then preds.set i (some (tails.getD (left - 1) 0)) else preds)
          (fun k p h => (hpreds1Lt k p h).1) (i - 1) (tails.getD (left - 1) 0)
          (tails.getD (left - 1) 0) (by omega) (le_refl _)]
        have hstable : buildChain
            (if 0 < left then preds.set i (some (tails.getD (left - 1) 0)) else preds)
            (tails.getD (left - 1) 0) (tails.getD (left - 1) 0) =
            buildChain preds (tails.getD (left - 1) 0) (tails.getD (left - 1) 0) := by
          rw [if_pos h0]
          exact buildChain_stable preds i _ (fun k p h => (hinv.predsLt k p h).1) _ _ hK
        rw [hstable, List.length_append, hinv.chainLen (left - 1) (hlm1 h0)]
        simp only [List.length_singleton]
        omega
      · have hleft0 : left = 0 := by omega
        rw [hleft0]
        have hpnone : (if 0 < (0 : Nat) then
            preds.set i (some (tails.getD (0 - 1) 0)) else preds).getD i none = none := by
          rw [if_neg (by omega)]
          exact hinv.predsHigh i (le_refl _)
        cases hcase : i with
        | zero =>
          rw [buildChain]
          rfl
        | succ i0 =>
          rw [buildChain]
          rw [← hcase, hpnone]
          rfl
    · have hllen : l < len := hlt_of_lt_len1 l hl hll
      rw [htails1 l hll]
      have hK : tails.getD l 0 < i := hinv.tailsLt l hllen
      have hstable : buildChain
          (if 0 < left then preds.set i (some (tails.getD (left - 1) 0)) else preds)
          (tails.getD l 0) (tails.getD l 0) =
          buildChain preds (tails.getD l 0) (tails.getD l 0) := by
        split
        · exact buildChain_stable preds i _ (fun k p h => (hinv.predsLt k p h).1) _ _ hK
        · rfl
      rw [hstable]
      exact hinv.chainLen l hllen
  · -- maximal
    intro t x hsub hpw
    rw [take_succ_getD seq i hi] at hsub
    rcases sublist_concat_split (t ++ [x]) (seq.take i) (seq.getD i 0) hsub with
      hcase | ⟨t', het, ht'⟩
    · obtain ⟨h1, h2⟩ := hinv.maximal t x hcase hpw
      refine ⟨by omega, ?_⟩
      by_cases htt : t.length = left
      · rw [htt, htails1self]
        rw [htt] at h2
        have hv2 : seq.getD i 0 ≤ seq.getD (tails.getD left 0) 0 :=
          hbhigh left (le_refl _) (by omega)
        omega
      · rw [htails1 _ htt]
        exact h2
    · have hlen2 : t.length = t'.length := by
        have hc := congrArg List.length het
        simp only [List.length_append, List.length_singleton] at hc
        omega
      obtain ⟨ht1, ht2⟩ := List.append_inj het hlen2
      have hxv : x = seq.getD i 0 := by
        simp only [List.cons.injEq] at ht2
        exact ht2.1
      subst hxv
      subst ht1
      rcases List.eq_nil_or_concat t with rfl | ⟨t2, y, hty⟩
      · refine ⟨Nat.lt_of_le_of_lt (Nat.zero_le left) hlen1b, ?_⟩
        simp only [List.length_nil]
        by_cases h0 : 0 < left
        · rw [htails1 0 (by omega)]
          exact le_of_lt (hblow 0 h0)
        · have hl0 : left = 0 := by omega
          subst hl0
          rw [htails1self]
      · -- t = t2 ++ [y] with y < value
        rw [List.concat_eq_append] at hty
        subst hty
        have hyv : y < seq.getD i 0 := by
          rw [List.pairwise_append] at hpw
          exact hpw.2.2 y (by simp) (seq.getD i 0) (by simp)
        have hpw2 : (t2 ++ [y]).Pairwise (· < ·) := by
          rw [List.pairwise_append] at hpw
          exact hpw.1
        obtain ⟨h1, h2⟩ := hinv.maximal t2 y ht' hpw2
        have ht2left : t2.length < left := by
          by_contra hc
          have := hbhigh t2.length (by omega) h1
          omega
        refine ⟨by simp; omega, ?_⟩
        simp only [List.length_append, List.length_singleton]
        by_cases htt : t2.length + 1 = left
        · rw [htt, htails1self]
        · rw [htails1 _ htt]
          exact le_of_lt (hblow (t2.length + 1) (by omega))

/-- The patience loop carries the invariant from `i` to the end of the
sequence. -/
theorem lisGo_inv (seq : List Nat) : ∀ (gas i : Nat) (tails : List Nat)
    (preds : List (Option Nat)) (len : Nat),
    seq.length ≤ i + gas → i ≤ seq.length → LisInv seq i tails preds len →
    LisInv seq seq.length (lisGo seq gas i tails preds len).1
      (lisGo seq gas i tails preds len).2.1 (lisGo seq gas i tails preds len).2.2
  | 0, i, tails, preds, len, hgas, hle, hinv => by
    have h : i = seq.length := by omega
    subst h
    exact hinv
  | gas + 1, i, tails, preds, len, hgas, hle, hinv => by
    rw [lisGo]
    by_cases hi : i < seq.length
    · rw [if_pos hi]
      exact lisGo_inv seq gas (i + 1) _ _ _ (by omega) (by omega)
        (lisStep_inv seq i tails preds len hinv hi _ rfl _ rfl)
    · rw [if_neg hi]
      have h : i = seq.length := by omega
      subst h
      exact hinv

/-- Strictly increasing positions bounded below by `k` pick out a sublist
of `seq.drop k`. -/
theorem map_getD_sublist_aux (seq : List Nat) :
    ∀ (ps : List Nat) (k : Nat), ps.Pairwise (· < ·) →
      (∀ a ∈ ps, k ≤ a ∧ a < seq.length) →
      (ps.map (fun m => seq.getD m 0)).Sublist (seq.drop k)
  | [], _, _, _ => List.nil_sublist _
  | a :: tl, k, hpw, hbd => by
    obtain ⟨hka, halt⟩ := hbd a (List.mem_cons_self _ _)
    have hpw' := List.pairwise_cons.mp hpw
    have ih := map_getD_sublist_aux seq tl (a + 1) hpw'.2
      (fun b hb => ⟨hpw'.1 b hb, (hbd b (List.mem_cons_of_mem _ hb)).2⟩)
    have hdropa : seq.drop a = seq.getD a 0 :: seq.drop (a + 1) := by
      rw [List.drop_eq_getElem_cons halt]
      rw [List.getD_eq_getElem seq 0 halt]
    have h1 : ((a :: tl).map (fun m => seq.getD m 0)).Sublist (seq.drop a) := by
      rw [hdropa, List.map_cons]
      exact List.Sublist.cons₂ _ ih
    have h2 : (seq.drop a).Sublist (seq.drop k) := by
      have h3 : seq.drop a = (seq.drop k).drop (a - k) := by
        rw [List.drop_drop]
        congr 1
        omega
      rw [h3]
      exact List.drop_sublist _ _
    exact h1.trans h2

/-- Strictly increasing in-bounds positions pick out a sublist. -/
theorem map_getD_sublist (seq ps : List Nat) (hpw : ps.Pairwise (· < ·))
    (hbd : ∀ a ∈ ps, a < seq.length) :
    (ps.map (fun m => seq.getD m 0)).Sublist seq := by
  have h := map_getD_sublist_aux seq ps 0 hpw (fun a ha => ⟨Nat.zero_le _, hbd a ha⟩)
  rwa [List.drop_zero] at h

/-- Full correctness of `longest_increasing_subsequence_indices`: the
returned positions are strictly increasing and in bounds, the values they
pick form a strictly increasing sublist of `seq`, and no strictly
increasing sublist of `seq` is longer. -/
theorem lis_spec (seq : List Nat) :
    (longest_increasing_subsequence_indices seq).Pairwise (· < ·) ∧
    (∀ a ∈ longest_increasing_subsequence_indices seq, a < seq.length) ∧
    ((longest_increasing_subsequence_indices seq).map
        (fun m => seq.getD m 0)).Pairwise (· < ·) ∧
    ((longest_increasing_subsequence_indices seq).map
        (fun m => seq.getD m 0)).Sublist seq ∧
    (∀ t : List Nat, t.Sublist seq → t.Pairwise (· < ·) →
      t.length ≤ (longest_increasing_subsequence_indices seq).length) := by
  rw [longest_increasing_subsequence_indices]
  by_cases hemp : seq.isEmpty
  · rw [if_pos hemp]
    rw [List.isEmpty_iff] at hemp
    subst hemp
    refine ⟨by simp, by simp, by simp, by simp, ?_⟩
    intro t ht _
    have := ht.length_le
    simp only [List.length_nil] at this ⊢
    omega
  · rw [if_neg hemp]
    have hinv := lisGo_inv seq seq.length 0 (List.replicate seq.length 0)
      (List.replicate seq.length none) 0 (by omega) (by omega) (lisInv_init seq)
    have hn : 0 < seq.length := by
      cases seq with
      | nil => simp at hemp
      | cons a tl => simp
    have hlenpos : 0 < (lisGo seq seq.length 0 (List.replicate seq.length 0)
        (List.replicate seq.length none) 0).2.2 := by
      have hone : ([] ++ [seq.getD 0 0]).Sublist (seq.take seq.length) := by
        rw [List.take_length, List.nil_append]
        rw [List.singleton_sublist]
        rw [List.getD_eq_getElem seq 0 hn]
        exact List.getElem_mem hn
      have := (hinv.maximal [] (seq.getD 0 0) hone (by simp)).1
      simpa using this
    rw [if_neg (by omega)]
    set st := lisGo seq seq.length 0 (List.replicate seq.length 0)
      (List.replicate seq.length none) 0 with hst
    set k := st.1.getD (st.2.2 - 1) 0 with hk
    have hklt : k < seq.length := hinv.tailsLt (st.2.2 - 1) (by omega)
    obtain ⟨hc1, hc2, _, hc4, _⟩ := buildChain_spec seq st.2.1 hinv.predsLt k k (le_refl _)
    have hbd : ∀ a ∈ buildChain st.2.1 k k, a < seq.length :=
      fun a ha => Nat.lt_of_le_of_lt (hc2 a ha) hklt
    have hchain : (buildChain st.2.1 k k).length = st.2.2 :=  by
      have := hinv.chainLen (st.2.2 - 1) (by omega)
      rw [← hk] at this
      rw [this]
      omega
    refine ⟨hc1, hbd, hc4, map_getD_sublist seq _ hc1 hbd, ?_⟩
    intro t ht hpw
    rcases List.eq_nil_or_concat t with rfl | ⟨t2, y, hty⟩
    · simp
    · rw [List.concat_eq_append] at hty
      subst hty
      have hsub : (t2 ++ [y]).Sublist (seq.take seq.length) := by
        rwa [List.take_length]
      have := (hinv.maximal t2 y hsub hpw).1
      rw [hchain]
      simp only [List.length_append, List.length_singleton]
      omega


theorem getD_replicate_false (n k : Nat) :
    (List.replicate n false).getD k false = false := by
  rcases Nat.lt_or_ge k n with h | h
  · exact getD_replicate_lt n k false false h
  · exact List.getD_eq_default _ _ (by simpa using h)

/-- The `is_in_lis` fold: a slot is `true` exactly when it was listed (and
in bounds) or already set in the accumulator. -/
theorem markLisGo_getD (n : Nat) : ∀ (lis : List Nat) (acc : List Bool),
    acc.length = n →
    (lis.foldl (fun a idx => if idx < n then a.set idx true else a) acc).length = n ∧
    (∀ k, (lis.foldl (fun a idx => if idx < n then a.set idx true else a) acc).getD k false
        = true ↔ ((k ∈ lis ∧ k < n) ∨ acc.getD k false = true))
  | [], acc, hlen => by
    refine ⟨hlen, ?_⟩
    intro k
    simp
  | a :: tl, acc, hlen => by
    rw [List.foldl_cons]
    have hlen2 : (if a < n then acc.set a true else acc).length = n := by
      split
      · rw [List.length_set]; exact hlen
      · exact hlen
    obtain ⟨ih1, ih2⟩ := markLisGo_getD n tl (if a < n then acc.set a true else acc) hlen2
    refine ⟨ih1, ?_⟩
    intro k
    rw [ih2 k]
    by_cases hk : k = a
    · subst hk
      by_cases hkn : k < n
      · rw [if_pos hkn, getD_set_self acc k true false (by rw [hlen]; exact hkn)]
        constructor
        · intro _
          exact Or.inl ⟨List.mem_cons_self _ _, hkn⟩
        · intro _
          exact Or.inr rfl
      · rw [if_neg hkn]
        constructor
        · rintro (⟨h1, h2⟩ | h)
          · exact absurd h2 hkn
          · exact Or.inr h
        · rintro (⟨h1, h2⟩ | h)
          · exact absurd h2 hkn
          · exact Or.inr h
    · have hne : (if a < n then acc.set a true else acc).getD k false = acc.getD k false := by
        split
        · exact getD_set_ne acc a k true false (fun h => hk h.symm)
        · rfl
      rw [hne]
      constructor
      · rintro (⟨h1, h2⟩ | h)
        · exact Or.inl ⟨List.mem_cons_of_mem _ h1, h2⟩
        · exact Or.inr h
      · rintro (⟨h1, h2⟩ | h)
        · rcases List.mem_cons.mp h1 with h3 | h3
          · exact absurd h3 hk
          · exact Or.inl ⟨h3, h2⟩
        · exact Or.inr h

/-- A slot of `markLis n lis` is set exactly when its index is listed and
in bounds. -/
theorem markLis_getD (n : Nat) (lis : List Nat) (k : Nat) :
    (markLis n lis).getD k false = true ↔ (k ∈ lis ∧ k < n) := by
  rw [markLis]
  obtain ⟨_, h2⟩ := markLisGo_getD n lis (List.replicate n false) (by simp)
  rw [h2 k, getD_replicate_false]
  constructor
  · rintro (h | h)
    · exact h
    · exact Bool.noConfusion h
  · exact Or.inl

/-- C2: the matched pairs left `Unchanged` by `compute_diff A B` are
exactly those whose position (in match order) is listed in the computed
LIS of the old-index sequence; the old indices that LIS picks form a
strictly increasing sublist of the old-index sequence of maximal length
among all strictly increasing sublists, and every matched pair not in the
LIS is `Moved` with `moved_from` its old index plus one and `moved_to`
its new index plus one. -/
theorem compute_diff_unchanged_is_lis (A B : List ComparableLine) :
    ((longest_increasing_subsequence_indices
        ((diffMatched A B).map (fun m => m.2.1))).map
      (fun k => ((diffMatched A B).map (fun m => m.2.1)).getD k 0)).Pairwise (· < ·) ∧
    ((longest_increasing_subsequence_indices
        ((diffMatched A B).map (fun m => m.2.1))).map
      (fun k => ((diffMatched A B).map (fun m => m.2.1)).getD k 0)).Sublist
      ((diffMatched A B).map (fun m => m.2.1)) ∧
    (∀ t : List Nat, t.Sublist ((diffMatched A B).map (fun m => m.2.1)) →
      t.Pairwise (· < ·) →
      t.length ≤ (longest_increasing_subsequence_indices
        ((diffMatched A B).map (fun m => m.2.1))).length) ∧
    (∀ k, k < (diffMatched A B).length →
      ((((compute_diff A B).lines.getD ((diffMatched A B).getD k default).1 default).state
          = DiffState.Unchanged) ↔
        k ∈ longest_increasing_subsequence_indices
          ((diffMatched A B).map (fun m => m.2.1))) ∧
      (¬ k ∈ longest_increasing_subsequence_indices
          ((diffMatched A B).map (fun m => m.2.1)) →
        ((compute_diff A B).lines.getD ((diffMatched A B).getD k default).1 default).state
            = DiffState.Moved ∧
        ((compute_diff A B).lines.getD ((diffMatched A B).getD k default).1 default).moved_from
            = some (((diffMatched A B).getD k default).2.1 + 1) ∧
        ((compute_diff A B).lines.getD ((diffMatched A B).getD k default).1 default).moved_to
            = some (((diffMatched A B).getD k default).2.2 + 1))) := by
  obtain ⟨hpre, hlk, hjs, hpw1, hods, hcov, hkey⟩ := diff_build_spec A B
  have hbd : ∀ e ∈ diffMatched A B, e.1 < (diffPre A B).length :=
    fun e he => (hpre.mEntry e he).1
  obtain ⟨hl1, hl2, hl3⟩ := classify_lines_spec (diffPre A B) (diffMatched A B) hpw1 hbd
  obtain ⟨ls1, ls2, ls3, ls4, ls5⟩ := lis_spec ((diffMatched A B).map (fun m => m.2.1))
  refine ⟨ls3, ls4, ls5, ?_⟩
  intro k hk
  have hline := hl3 k hk
  rw [compute_diff_lines, hline]
  cases hf : (markLis (diffMatched A B).length
      (longest_increasing_subsequence_indices
        ((diffMatched A B).map (fun m => m.2.1)))).getD k false with
  | true =>
    have hmem : k ∈ longest_increasing_subsequence_indices
        ((diffMatched A B).map (fun m => m.2.1)) :=
      ((markLis_getD _ _ k).mp hf).1
    refine ⟨iff_of_true (by simp [relabel]) hmem, ?_⟩
    intro hnot
    exact absurd hmem hnot
  | false =>
    have hnot : ¬ k ∈ longest_increasing_subsequence_indices
        ((diffMatched A B).map (fun m => m.2.1)) := by
      intro hmem
      have := (markLis_getD (diffMatched A B).length _ k).mpr ⟨hmem, hk⟩
      rw [hf] at this
      exact Bool.noConfusion this
    refine ⟨iff_of_false (by simp [relabel]) hnot, ?_⟩
    intro _
    refine ⟨by simp [relabel], by simp [relabel], by simp [relabel]⟩

/-- On a self-diff, the first position with an equal key to a unique key
is the position itself. -/
theorem findIdx_self_unique (A : List ComparableLine) (i : Nat) (hi : i < A.length)
    (hc : countKey A (A.getD i default).comparable_text = 1) :
    A.findIdx? (fun l => lineEq l (A.getD i default)) = some i := by
  rw [List.findIdx?_eq_some_iff_getElem]
  refine ⟨hi, ?_, ?_⟩
  · show lineEq (A[i]) (A.getD i default) = true
    rw [lineEq_iff, List.getD_eq_getElem A default hi]
  · intro j hji hp
    rw [countKey_eq_countP] at hc
    have h2 : 2 ≤ A.countP
        (fun l => l.comparable_text == (A.getD i default).comparable_text) := by
      refine two_le_countP _ default A j i hji hi ?_ ?_
      · show ((A.getD j default).comparable_text ==
          (A.getD i default).comparable_text) = true
        rw [List.getD_eq_getElem A default (Nat.lt_trans hji hi)]
        exact hp
      · show ((A.getD i default).comparable_text ==
          (A.getD i default).comparable_text) = true
        rw [beq_iff_eq]
    omega

/-- The unique-anchor pass of a self-diff links exactly the unique-key
positions, each one to itself. -/
theorem linkUniqueGo_self (A : List ComparableLine) :
    ∀ (gas i : Nat) (oa na : List (Option Nat)),
      i + gas = A.length →
      oa.length = A.length → na.length = A.length →
      (∀ k, oa.getD k none =
        if k < i ∧ countKey A (A.getD k default).comparable_text = 1
        then some k else none) →
      (∀ k, na.getD k none =
        if k < i ∧ countKey A (A.getD k default).comparable_text = 1
        then some k else none) →
      ∀ k, ((linkUniqueGo A A (build_symbol_table A A) gas i oa na).1.getD k none =
          if k < A.length ∧ countKey A (A.getD k default).comparable_text = 1
          then some k else none) ∧
        ((linkUniqueGo A A (build_symbol_table A A) gas i oa na).2.getD k none =
          if k < A.length ∧ countKey A (A.getD k default).comparable_text = 1
          then some k else none)
  | 0, i, oa, na, hgas, holen, hnlen, hoa, hna => by
    have hi : i = A.length := by omega
    subst hi
    rw [linkUniqueGo]
    intro k
    exact ⟨hoa k, hna k⟩
  | gas + 1, i, oa, na, hgas, holen, hnlen, hoa, hna => by
    have hi : i < A.length := by omega
    rw [linkUniqueGo, if_pos hi]
    have hpos := countKey_pos A i hi
    by_cases hc : countKey A (A.getD i default).comparable_text = 1
    · have htbl : build_symbol_table A A (A.getD i default) = some (1, 1) := by
        simp only [build_symbol_table]
        rw [hc, if_neg (by omega)]
      rw [htbl, findIdx_self_unique A i hi hc]
      refine linkUniqueGo_self A gas (i + 1) (oa.set i (some i)) (na.set i (some i))
        (by omega) (by rw [List.length_set]; exact holen)
        (by rw [List.length_set]; exact hnlen) ?_ ?_
      · intro k
        by_cases hk : k = i
        · subst hk
          rw [getD_set_self oa k (some k) none (by omega)]
          rw [if_pos ⟨by omega, hc⟩]
        · rw [getD_set_ne oa i k (some i) none (fun h => hk h.symm), hoa k]
          by_cases h1 : k < i ∧ countKey A (A.getD k default).comparable_text = 1
          · rw [if_pos h1, if_pos ⟨by omega, h1.2⟩]
          · rw [if_neg h1, if_neg (fun h2 => h1 ⟨by omega, h2.2⟩)]
      · intro k
        by_cases hk : k = i
        · subst hk
          rw [getD_set_self na k (some k) none (by omega)]
          rw [if_pos ⟨by omega, hc⟩]
        · rw [getD_set_ne na i k (some i) none (fun h => hk h.symm), hna k]
          by_cases h1 : k < i ∧ countKey A (A.getD k default).comparable_text = 1
          · rw [if_pos h1, if_pos ⟨by omega, h1.2⟩]
          · rw [if_neg h1, if_neg (fun h2 => h1 ⟨by omega, h2.2⟩)]
    · obtain ⟨c2, hc2⟩ : ∃ c2,
          countKey A (A.getD i default).comparable_text = c2 + 2 :=
        ⟨countKey A (A.getD i default).comparable_text - 2, by omega⟩
      have htbl : build_symbol_table A A (A.getD i default) = some (c2 + 2, c2 + 2) := by
        simp only [build_symbol_table]
        rw [hc2, if_neg (by omega)]
      rw [htbl]
      refine linkUniqueGo_self A gas (i + 1) oa na (by omega) holen hnlen ?_ ?_
      · intro k
        rw [hoa k]
        by_cases h1 : k < i ∧ countKey A (A.getD k default).comparable_text = 1
        · rw [if_pos h1, if_pos ⟨by omega, h1.2⟩]
        · rw [if_neg h1, if_neg ?_]
          intro h2
          by_cases hk : k = i
          · subst hk
            rw [hc2] at h2
            omega
          · exact h1 ⟨by omega, h2.2⟩
      · intro k
        rw [hna k]
        by_cases h1 : k < i ∧ countKey A (A.getD k default).comparable_text = 1
        · rw [if_pos h1, if_pos ⟨by omega, h1.2⟩]
        · rw [if_neg h1, if_neg ?_]
          intro h2
          by_cases hk : k = i
          · subst hk
            rw [hc2] at h2
            omega
          · exact h1 ⟨by omega, h2.2⟩

/-- On a self-diff, the scan for the first unlinked equal-key position
finds the position itself when everything below it is linked. -/
theorem findFirstUnlinked_id (A : List ComparableLine) (na : List (Option Nat)) (i : Nat)
    (hi : i < A.length) (hnai : na.getD i none = none)
    (hbelow : ∀ j, j < i → (na.getD j none).isSome = true) :
    ∀ (gas j : Nat), j ≤ i → i < j + gas →
      findFirstUnlinked A na (A.getD i default) gas j = some i
  | 0, j, hj, hgas => by omega
  | gas + 1, j, hj, hgas => by
    rw [findFirstUnlinked, if_pos (by omega : j < A.length)]
    by_cases hji : j = i
    · subst hji
      have hcond : ((na.getD j none).isNone &&
          lineEq (A.getD j default) (A.getD j default)) = true := by
        rw [hnai, (lineEq_iff _ _).mpr rfl]
        rfl
      rw [hcond, if_pos rfl]
    · have hsome := hbelow j (by omega)
      have hcond : ((na.getD j none).isNone &&
          lineEq (A.getD i default) (A.getD j default)) = false := by
        cases hv : na.getD j none with
        | none =>
          rw [hv] at hsome
          exact Bool.noConfusion hsome
        | some v => rfl
      rw [hcond, if_neg (by simp)]
      exact findFirstUnlinked_id A na i hi hnai hbelow gas (j + 1) (by omega) (by omega)

/-- The duplicate-resolution pass of a self-diff finishes the identity
linking: afterwards every position is linked to itself. -/
theorem linkNonUniqueGo_self (A : List ComparableLine) :
    ∀ (gas i : Nat) (oa na : List (Option Nat)),
      i + gas = A.length →
      oa.length = A.length → na.length = A.length →
      (∀ k, oa.getD k none =
        if k < A.length ∧ (k < i ∨ countKey A (A.getD k default).comparable_text = 1)
        then some k else none) →
      (∀ k, na.getD k none =
        if k < A.length ∧ (k < i ∨ countKey A (A.getD k default).comparable_text = 1)
        then some k else none) →
      ∀ k, ((linkNonUniqueGo A A (build_symbol_table A A) gas i oa na).1.getD k none =
          if k < A.length then some k else none) ∧
        ((linkNonUniqueGo A A (build_symbol_table A A) gas i oa na).2.getD k none =
          if k < A.length then some k else none)
  | 0, i, oa, na, hgas, holen, hnlen, hoa, hna => by
    have hi : i = A.length := by omega
    subst hi
    rw [linkNonUniqueGo]
    intro k
    constructor
    · rw [hoa k]
      by_cases hk : k < A.length
      · rw [if_pos ⟨hk, Or.inl hk⟩, if_pos hk]
      · rw [if_neg (fun h => hk h.1), if_neg hk]
    · rw [hna k]
      by_cases hk : k < A.length
      · rw [if_pos ⟨hk, Or.inl hk⟩, if_pos hk]
      · rw [if_neg (fun h => hk h.1), if_neg hk]
  | gas + 1, i, oa, na, hgas, holen, hnlen, hoa, hna => by
    have hi : i < A.length := by omega
    rw [linkNonUniqueGo, if_pos hi]
    have hpos := countKey_pos A i hi
    by_cases hc : countKey A (A.getD i default).comparable_text = 1
    · have hsome : (oa.getD i none).isSome = true := by
        rw [hoa i, if_pos ⟨hi, Or.inr hc⟩]
        rfl
      rw [hsome, if_pos rfl]
      refine linkNonUniqueGo_self A gas (i + 1) oa na (by omega) holen hnlen ?_ ?_
      · intro k
        rw [hoa k]
        by_cases h1 : k < A.length ∧
            (k < i ∨ countKey A (A.getD k default).comparable_text = 1)
        · rcases h1.2 with h2 | h2
          · rw [if_pos ⟨h1.1, Or.inl h2⟩, if_pos ⟨h1.1, Or.inl (by omega)⟩]
          · rw [if_pos ⟨h1.1, Or.inr h2⟩, if_pos ⟨h1.1, Or.inr h2⟩]
        · rw [if_neg h1, if_neg ?_]
          intro h2
          rcases h2.2 with h3 | h3
          · by_cases hk : k = i
            · subst hk
              exact h1 ⟨h2.1, Or.inr hc⟩
            · exact h1 ⟨h2.1, Or.inl (by omega)⟩
          · exact h1 ⟨h2.1, Or.inr h3⟩
      · intro k
        rw [hna k]
        by_cases h1 : k < A.length ∧
            (k < i ∨ countKey A (A.getD k default).comparable_text = 1)
        · rcases h1.2 with h2 | h2
          · rw [if_pos ⟨h1.1, Or.inl h2⟩, if_pos ⟨h1.1, Or.inl (by omega)⟩]
          · rw [if_pos ⟨h1.1, Or.inr h2⟩, if_pos ⟨h1.1, Or.inr h2⟩]
        · rw [if_neg h1, if_neg ?_]
          intro h2
          rcases h2.2 with h3 | h3
          · by_cases hk : k = i
            · subst hk
              exact h1 ⟨h2.1, Or.inr hc⟩
            · exact h1 ⟨h2.1, Or.inl (by omega)⟩
          · exact h1 ⟨h2.1, Or.inr h3⟩
    · have hnone : (oa.getD i none).isSome = false := by
        rw [hoa i, if_neg ?_]
        · rfl
        · intro h1
          rcases h1.2 with h2 | h2
          · omega
          · exact hc h2
      rw [hnone, if_neg (by simp)]
      obtain ⟨c2, hc2⟩ : ∃ c2,
          countKey A (A.getD i default).comparable_text = c2 + 2 :=
        ⟨countKey A (A.getD i default).comparable_text - 2, by omega⟩
      have htbl : build_symbol_table A A (A.getD i default) = some (c2 + 2, c2 + 2) := by
        simp only [build_symbol_table]
        rw [hc2, if_neg (by omega)]
      rw [htbl]
      have hnai : na.getD i none = none := by
        rw [hna i, if_neg ?_]
        intro h1
        rcases h1.2 with h2 | h2
        · omega
        · exact hc h2
      have hbelow : ∀ j, j < i → (na.getD j none).isSome = true := by
        intro j hj
        rw [hna j, if_pos ⟨by omega, Or.inl hj⟩]
        rfl
      rw [findFirstUnlinked_id A na i hi hnai hbelow A.length 0 (by omega) (by omega)]
      refine linkNonUniqueGo_self A gas (i + 1) (oa.set i (some i)) (na.set i (some i))
        (by omega) (by rw [List.length_set]; exact holen)
        (by rw [List.length_set]; exact hnlen) ?_ ?_
      · intro k
        by_cases hk : k = i
        · subst hk
          rw [getD_set_self oa k (some k) none (by omega)]
          rw [if_pos ⟨hi, Or.inl (by omega)⟩]
        · rw [getD_set_ne oa i k (some i) none (fun h => hk h.symm), hoa k]
          by_cases h1 : k < A.length ∧
              (k < i ∨ countKey A (A.getD k default).comparable_text = 1)
          · rcases h1.2 with h2 | h2
            · rw [if_pos ⟨h1.1, Or.inl h2⟩, if_pos ⟨h1.1, Or.inl (by omega)⟩]
            · rw [if_pos ⟨h1.1, Or.inr h2⟩, if_pos ⟨h1.1, Or.inr h2⟩]
          · rw [if_neg h1, if_neg ?_]
            intro h2
            rcases h2.2 with h3 | h3
            · exact h1 ⟨h2.1, Or.inl (by omega)⟩
            · exact h1 ⟨h2.1, Or.inr h3⟩
      · intro k
        by_cases hk : k = i
        · subst hk
          rw [getD_set_self na k (some k) none (by omega)]
          rw [if_pos ⟨hi, Or.inl (by omega)⟩]
        · rw [getD_set_ne na i k (some i) none (fun h => hk h.symm), hna k]
          by_cases h1 : k < A.length ∧
              (k < i ∨ countKey A (A.getD k default).comparable_text = 1)
          · rcases h1.2 with h2 | h2
            · rw [if_pos ⟨h1.1, Or.inl h2⟩, if_pos ⟨h1.1, Or.inl (by omega)⟩]
            · rw [if_pos ⟨h1.1, Or.inr h2⟩, if_pos ⟨h1.1, Or.inr h2⟩]
          · rw [if_neg h1, if_neg ?_]
            intro h2
            rcases h2.2 with h3 | h3
            · exact h1 ⟨h2.1, Or.inl (by omega)⟩
            · exact h1 ⟨h2.1, Or.inr h3⟩

/-- A self-diff links every position to itself. -/
theorem diffLinks_self (A : List ComparableLine) :
    ∀ k, ((diffOA A A).getD k none = if k < A.length then some k else none) ∧
      ((diffNA A A).getD k none = if k < A.length then some k else none) := by
  have hinit : ∀ k, (List.replicate A.length (none : Option Nat)).getD k none =
      if k < 0 ∧ countKey A (A.getD k default).comparable_text = 1
      then some k else none := by
    intro k
    rw [getD_replicate_none, if_neg (by omega)]
  have huniq := linkUniqueGo_self A A.length 0
    (List.replicate A.length none) (List.replicate A.length none)
    (by omega) (by simp) (by simp) hinit hinit
  have hls : LinkState A A (link_unique_anchors A A (build_symbol_table A A)).1
      (link_unique_anchors A A (build_symbol_table A A)).2 := by
    rw [link_unique_anchors]
    exact linkUniqueGo_linkState A A A.length 0 _ _ (linkState_init A A)
      (fun k _ => getD_replicate_none _ _)
  intro k
  have h := linkNonUniqueGo_self A A.length 0
    (link_unique_anchors A A (build_symbol_table A A)).1
    (link_unique_anchors A A (build_symbol_table A A)).2
    (by omega) hls.lenA hls.lenB
    (fun k => by
      rw [link_unique_anchors]
      rw [(huniq k).1]
      by_cases h1 : k < A.length ∧ countKey A (A.getD k default).comparable_text = 1
      · rw [if_pos h1, if_pos ⟨h1.1, Or.inr h1.2⟩]
      · rw [if_neg h1, if_neg (fun h2 => h1 ⟨h2.1, h2.2.resolve_left (by omega)⟩)])
    (fun k => by
      rw [link_unique_anchors]
      rw [(huniq k).2]
      by_cases h1 : k < A.length ∧ countKey A (A.getD k default).comparable_text = 1
      · rw [if_pos h1, if_pos ⟨h1.1, Or.inr h1.2⟩]
      · rw [if_neg h1, if_neg (fun h2 => h1 ⟨h2.1, h2.2.resolve_left (by omega)⟩)])
    k
  exact h

/-- Unfolding of the statistics fold with an arbitrary accumulator. -/
theorem from_lines_foldl : ∀ (lines : List DiffLine) (s : DiffStatistics),
    lines.foldl
      (fun s l =>
        match l.state with
        | .Added => { s with additions := s.additions + 1 }
        | .Deleted => { s with deletions := s.deletions + 1 }
        | .Unchanged => { s with unchanged := s.unchanged + 1 }
        | .Moved => { s with moves := s.moves + 1 }) s =
      ⟨s.additions + lines.countP (fun l => l.state == DiffState.Added),
       s.deletions + lines.countP (fun l => l.state == DiffState.Deleted),
       s.moves + lines.countP (fun l => l.state == DiffState.Moved),
       s.unchanged + lines.countP (fun l => l.state == DiffState.Unchanged)⟩
  | [], s => by simp
  | l :: tl, s => by
    rw [List.foldl_cons, from_lines_foldl tl]
    cases hs : l.state <;>
      simp [List.countP_cons, hs, DiffStatistics.mk.injEq] <;> omega

/-- The statistics are the per-state counts of the line list. -/
theorem from_lines_counts (lines : List DiffLine) :
    DiffStatistics.from_lines lines =
      ⟨lines.countP (fun l => l.state == DiffState.Added),
       lines.countP (fun l => l.state == DiffState.Deleted),
       lines.countP (fun l => l.state == DiffState.Moved),
       lines.countP (fun l => l.state == DiffState.Unchanged)⟩ := by
  rw [DiffStatistics.from_lines, from_lines_foldl]
  simp

/-- When every processed entry's flag is set, the classifier opens no
block and returns the accumulated blocks unchanged. -/
theorem classifyGo_blocks_true (isin : List Bool) :
    ∀ (rest : List (Nat × Nat × Nat)) (idx : Nat) (lines : List DiffLine)
      (blocks : List MovedBlock),
      (∀ k, k < rest.length → isin.getD (idx + k) false = true) →
      (classifyGo isin rest idx lines none blocks).2 = blocks
  | [], idx, lines, blocks, hall => by
    rw [classifyGo]
  | e :: tl, idx, lines, blocks, hall => by
    obtain ⟨li, oi, ni⟩ := e
    rw [classifyGo]
    have h0 : isin.getD idx false = true := by
      have := hall 0 (by simp)
      simpa using this
    rw [h0, if_pos rfl]
    refine classifyGo_blocks_true isin tl (idx + 1) _ _ ?_
    intro k hk
    have := hall (k + 1) (by simp; omega)
    have harith : idx + 1 + k = idx + (k + 1) := by omega
    rw [harith]
    exact this

/-- Pigeonhole: a strictly increasing list of naturals below `n` with at
least `n` elements contains every natural below `n`. -/
theorem mem_of_pairwise_lt_length (l : List Nat) (n : Nat) (hpw : l.Pairwise (· < ·))
    (hbd : ∀ a ∈ l, a < n) (hlen : n ≤ l.length) : ∀ k, k < n → k ∈ l := by
  have hnd : l.Nodup := hpw.nodup
  have hsub : l ⊆ List.range n := fun a ha => List.mem_range.mpr (hbd a ha)
  have hsp := List.subperm_of_subset hnd hsub
  have hperm : l.Perm (List.range n) :=
    hsp.perm_of_length_le (by simpa using hlen)
  intro k hk
  exact hperm.mem_iff.mpr (List.mem_range.mpr hk)

/-- C7: a self-diff leaves every line `Unchanged`, reports zero
additions, zero deletions and zero moves, and produces no moved blocks. -/
theorem compute_diff_self_id (A : List ComparableLine) :
    (∀ l ∈ (compute_diff A A).lines, l.state = DiffState.Unchanged) ∧
    (compute_diff A A).statistics.additions = 0 ∧
    (compute_diff A A).statistics.deletions = 0 ∧
    (compute_diff A A).statistics.moves = 0 ∧
    (compute_diff A A).moved_blocks = [] := by
  obtain ⟨hpre, hm1, hmJs, hmLine, hmOlds, hlinked, hkeys⟩ := diff_build_spec A A
  have hid := diffLinks_self A
  have hDelNil : delNums (diffPre A A) = [] := by
    rw [List.eq_nil_iff_forall_not_mem]
    intro x hx
    obtain ⟨i, hx1, hi2, hnone⟩ := hpre.delOnly x hx
    rw [(hid i).1, if_pos hi2] at hnone
    exact Option.noConfusion hnone
  have hMatch : (diffMatched A A).length = A.length := by
    have h := diffPre_del_count A A
    rw [hDelNil] at h
    simpa using h
  have hAdd0 : (diffPre A A).countP (fun l => l.state == DiffState.Added) = 0 := by
    have h := hpre.addedCount
    omega
  have hDel0 : (diffPre A A).countP (fun l => l.state == DiffState.Deleted) = 0 := by
    have h := hpre.delLen
    rw [hDelNil] at h
    simpa using h.symm
  have hOldsEq : ∀ e ∈ diffMatched A A, e.2.1 = e.2.2 := by
    intro e he
    obtain ⟨h1, h2, h3⟩ := hm1 e he
    rw [(hid e.2.1).1, if_pos h2] at h1
    injection h1
  have hOldsPw : ((diffMatched A A).map (fun m => m.2.1)).Pairwise (· < ·) := by
    rw [List.pairwise_map]
    refine hmJs.imp_of_mem ?_
    intro e1 e2 h1 h2 hr
    rw [hOldsEq e1 h1, hOldsEq e2 h2]
    exact hr
  have hOldsLen : ((diffMatched A A).map (fun m => m.2.1)).length = A.length := by
    rw [List.length_map, hMatch]
  obtain ⟨ls1, ls2, ls3, ls4, ls5⟩ := lis_spec ((diffMatched A A).map (fun m => m.2.1))
  have hLisLen : A.length ≤ (longest_increasing_subsequence_indices
      ((diffMatched A A).map (fun m => m.2.1))).length := by
    have h := ls5 _ (List.Sublist.refl _) hOldsPw
    rw [hOldsLen] at h
    exact h
  have hLisMem : ∀ k, k < A.length →
      k ∈ longest_increasing_subsequence_indices
        ((diffMatched A A).map (fun m => m.2.1)) := by
    refine mem_of_pairwise_lt_length _ A.length ls1 ?_ hLisLen
    intro a ha
    have h := ls2 a ha
    rw [hOldsLen] at h
    exact h
  have hflag : ∀ k, k < (diffMatched A A).length →
      (markLis (diffMatched A A).length
        (longest_increasing_subsequence_indices
          ((diffMatched A A).map (fun m => m.2.1)))).getD k false = true := by
    intro k hk
    exact (markLis_getD _ _ k).mpr ⟨hLisMem k (by omega), hk⟩
  have hbd : ∀ e ∈ diffMatched A A, e.1 < (diffPre A A).length :=
    fun e he => (hpre.mEntry e he).1
  obtain ⟨hl1, hl2, hl3⟩ := classify_lines_spec (diffPre A A) (diffMatched A A) hmLine hbd
  have hAll : ∀ l ∈ (compute_diff A A).lines, l.state = DiffState.Unchanged := by
    intro l hl
    rw [compute_diff_lines] at hl
    obtain ⟨li, hli, rfl⟩ := List.mem_iff_getElem.mp hl
    rw [← List.getD_eq_getElem _ default hli]
    by_cases hmem : ∃ e ∈ diffMatched A A, e.1 = li
    · obtain ⟨e, he, hel⟩ := hmem
      obtain ⟨k, hk, hek⟩ := List.mem_iff_getElem.mp he
      have hgk : (diffMatched A A).getD k default = e := by
        rw [List.getD_eq_getElem _ _ hk, hek]
      have h3 := hl3 k hk
      rw [hgk, hel] at h3
      rw [h3, hflag k hk]
      simp [relabel]
    · push_neg at hmem
      rw [hl2 li hmem]
      have hlen : li < (diffPre A A).length := by
        rw [← hl1]
        exact hli
      have hmem2 : (diffPre A A).getD li default ∈ diffPre A A := by
        rw [List.getD_eq_getElem _ _ hlen]
        exact List.getElem_mem hlen
      obtain ⟨hmf, hmt, hsh⟩ := hpre.lineShape _ hmem2
      rcases hsh with ⟨h, _, _⟩ | ⟨h, _, _⟩ | ⟨h, _, _⟩
      · exfalso
        have h1 := one_le_countP (fun l => l.state == DiffState.Added) default
          (diffPre A A) li hlen
          (by show (((diffPre A A).getD li default).state == DiffState.Added) = true
              rw [h]
              rfl)
        omega
      · exfalso
        have h1 := one_le_countP (fun l => l.state == DiffState.Deleted) default
          (diffPre A A) li hlen
          (by show (((diffPre A A).getD li default).state == DiffState.Deleted) = true
              rw [h]
              rfl)
        omega
      · exact h
  refine ⟨hAll, ?_, ?_, ?_, ?_⟩
  · show (DiffStatistics.from_lines (compute_diff A A).lines).additions = 0
    rw [from_lines_counts]
    exact List.countP_eq_zero.mpr (fun a ha => by rw [hAll a ha]; simp)
  · show (DiffStatistics.from_lines (compute_diff A A).lines).deletions = 0
    rw [from_lines_counts]
    exact List.countP_eq_zero.mpr (fun a ha => by rw [hAll a ha]; simp)
  · show (DiffStatistics.from_lines (compute_diff A A).lines).moves = 0
    rw [from_lines_counts]
    exact List.countP_eq_zero.mpr (fun a ha => by rw [hAll a ha]; simp)
  · rw [compute_diff_blocks, classify_matched_lines]
    by_cases hemp : (diffMatched A A).isEmpty = true
    · rw [if_pos hemp]
    · rw [if_neg hemp]
      exact classifyGo_blocks_true
        (markLis (diffMatched A A).length
          (longest_increasing_subsequence_indices
            ((diffMatched A A).map (fun m => m.2.1))))
        (diffMatched A A) 0 (diffPre A A) []
        (fun k hk => by
          have h := hflag k hk
          simpa using h)

/-- The classifier's block output equals the spec-modelled run scan over
the flagged matches. -/
theorem classifyGo_blocks_eq (isin : List Bool) :
    ∀ (rest : List (Nat × Nat × Nat)) (idx : Nat) (lines : List DiffLine)
      (cur : Option (Nat × Nat × Nat × Nat)) (blocks : List MovedBlock),
      (classifyGo isin rest idx lines cur blocks).2 =
        blocks ++ specBlocksGo (flagEntries isin idx rest) cur
  | [], idx, lines, cur, blocks => by
    cases cur with
    | none =>
      show blocks = blocks ++ specBlocksGo (flagEntries isin idx []) none
      rw [flagEntries, specBlocksGo, List.append_nil]
    | some c =>
      show blocks ++ [⟨c.1, c.2.1, c.2.2.1, c.2.2.2⟩] =
        blocks ++ specBlocksGo (flagEntries isin idx []) (some c)
      rw [flagEntries, specBlocksGo]
  | e :: tl, idx, lines, cur, blocks => by
    obtain ⟨li, oi, ni⟩ := e
    simp only [classifyGo]
    rw [flagEntries]
    cases hf : isin.getD idx false with
    | true =>
      rw [if_pos rfl]
      cases cur with
      | none =>
        rw [classifyGo_blocks_eq isin tl (idx + 1), specBlocksGo]
      | some c =>
        rw [classifyGo_blocks_eq isin tl (idx + 1), specBlocksGo]
        rw [List.append_cons]
    | false =>
      rw [if_neg (by simp)]
      cases cur with
      | none =>
        rw [classifyGo_blocks_eq isin tl (idx + 1), specBlocksGo]
      | some c =>
        rw [classifyGo_blocks_eq isin tl (idx + 1), specBlocksGo]

/-- C1 (amended): each moved block is one maximal run of consecutive
non-LIS matches — it closes exactly at an LIS match or at the end of the
match list — and its fields are the first and last (not the minimum and
maximum) 1-based source and destination line numbers of the run, as the
spec-modelled scan `specBlocksGo` records them. -/
theorem compute_diff_blocks_amended (A B : List ComparableLine) :
    (compute_diff A B).moved_blocks =
      specBlocksGo
        (flagEntries
          (markLis (diffMatched A B).length
            (longest_increasing_subsequence_indices
              ((diffMatched A B).map (fun m => m.2.1))))
          0 (diffMatched A B))
        none := by
  rw [compute_diff_blocks, classify_matched_lines]
  by_cases hemp : (diffMatched A B).isEmpty = true
  · rw [if_pos hemp]
    rw [List.isEmpty_iff] at hemp
    rw [hemp]
    rfl
  · rw [if_neg hemp]
    exact classifyGo_blocks_eq _ (diffMatched A B) 0 (diffPre A B) none []

/-- C1 counterexample: for A = [a, b, c] and B = [c, b, a] the single
moved block records source_start 3 and source_end 2 — the first and last
source numbers of its run — so source_end < source_start, which is
impossible under the claimed min/max reading (a minimum never exceeds a
maximum). -/
theorem compute_diff_blocks_minmax_cex :
    (compute_diff [⟨"a", "a"⟩, ⟨"b", "b"⟩, ⟨"c", "c"⟩]
        [⟨"c", "c"⟩, ⟨"b", "b"⟩, ⟨"a", "a"⟩]).moved_blocks =
      [⟨3, 2, 1, 2⟩] ∧
    (∀ bl ∈ (compute_diff [⟨"a", "a"⟩, ⟨"b", "b"⟩, ⟨"c", "c"⟩]
        [⟨"c", "c"⟩, ⟨"b", "b"⟩, ⟨"a", "a"⟩]).moved_blocks,
      bl.source_end < bl.source_start) := by decide

/-! ## Checked-mirror equivalence (C5) -/

theorem getElem?_eq_some_getD {α : Type} (l : List α) (i : Nat) (d : α) (h : i < l.length) :
    l[i]? = some (l.getD i d) := by
  rw [List.getElem?_eq_getElem h, List.getD_eq_getElem _ _ h]

theorem setC_pos {α : Type} (l : List α) (i : Nat) (a : α) (h : i < l.length) :
    setC l i a = some (l.set i a) := by
  rw [setC, if_pos h]

/-- The checked unique-anchor pass never fails and agrees with the
total embedding (the written indices are in bounds). -/
theorem linkUniqueGoC_eq (A B : List ComparableLine)
    (tbl : ComparableLine → Option (Nat × Nat)) :
    ∀ (gas i : Nat) (oa na : List (Option Nat)),
      oa.length = A.length → na.length = B.length →
      linkUniqueGoC A B tbl gas i oa na = some (linkUniqueGo A B tbl gas i oa na)
  | 0, i, oa, na, ho, hn => by rw [linkUniqueGoC, linkUniqueGo]
  | gas + 1, i, oa, na, ho, hn => by
    rw [linkUniqueGoC, linkUniqueGo]
    by_cases hi : i < A.length
    · rw [if_pos hi, if_pos hi]
      cases htbl : tbl (A.getD i default) with
      | none => exact linkUniqueGoC_eq A B tbl gas (i + 1) oa na ho hn
      | some p =>
        obtain ⟨ca, cb⟩ := p
        by_cases hc : ca = 1 ∧ cb = 1
        · obtain ⟨hc1, hc2⟩ := hc
          subst hc1
          subst hc2
          cases hfi : B.findIdx? (fun l => lineEq l (A.getD i default)) with
          | none => exact linkUniqueGoC_eq A B tbl gas (i + 1) oa na ho hn
          | some j =>
            obtain ⟨hjB, -, -⟩ := List.findIdx?_eq_some_iff_getElem.mp hfi
            show (match setC oa i (some j) with
                  | none => none
                  | some oa1 =>
                    match setC na j (some i) with
                    | none => none
                    | some na1 => linkUniqueGoC A B tbl gas (i + 1) oa1 na1) =
              some (linkUniqueGo A B tbl gas (i + 1) (oa.set i (some j)) (na.set j (some i)))
            rw [setC_pos oa i (some j) (by omega)]
            rw [setC_pos na j (some i) (by rw [hn]; exact hjB)]
            exact linkUniqueGoC_eq A B tbl gas (i + 1) _ _
              (by rw [List.length_set]; exact ho)
              (by rw [List.length_set]; exact hn)
        · rcases ca with _ | ca1
          · exact linkUniqueGoC_eq A B tbl gas (i + 1) oa na ho hn
          · rcases ca1 with _ | ca2
            · rcases cb with _ | cb1
              · exact linkUniqueGoC_eq A B tbl gas (i + 1) oa na ho hn
              · rcases cb1 with _ | cb2
                · exact absurd ⟨rfl, rfl⟩ hc
                · exact linkUniqueGoC_eq A B tbl gas (i + 1) oa na ho hn
            · exact linkUniqueGoC_eq A B tbl gas (i + 1) oa na ho hn
    · rw [if_neg hi, if_neg hi]

/-- The checked duplicate-resolution scan never fails and agrees with
the total embedding. -/
theorem findFirstUnlinkedC_eq (B : List ComparableLine) (na : List (Option Nat))
    (line : ComparableLine) (hn : na.length = B.length) :
    ∀ (gas j : Nat),
      findFirstUnlinkedC B na line gas j = some (findFirstUnlinked B na line gas j)
  | 0, j => by rw [findFirstUnlinkedC, findFirstUnlinked]
  | gas + 1, j => by
    rw [findFirstUnlinkedC, findFirstUnlinked]
    by_cases hj : j < B.length
    · rw [if_pos hj, if_pos hj]
      rw [getElem?_eq_some_getD na j none (by omega)]
      cases hv2 : na.getD j none with
      | some v => exact findFirstUnlinkedC_eq B na line hn gas (j + 1)
      | none =>
        cases hc : lineEq line (B.getD j default) with
        | true => rfl
        | false => exact findFirstUnlinkedC_eq B na line hn gas (j + 1)
    · rw [if_neg hj, if_neg hj]

/-- The checked duplicate-resolution pass never fails and agrees with
the total embedding. -/
theorem linkNonUniqueGoC_eq (A B : List ComparableLine)
    (tbl : ComparableLine → Option (Nat × Nat)) :
    ∀ (gas i : Nat) (oa na : List (Option Nat)),
      oa.length = A.length → na.length = B.length →
      linkNonUniqueGoC A B tbl gas i oa na = some (linkNonUniqueGo A B tbl gas i oa na)
  | 0, i, oa, na, ho, hn => by rw [linkNonUniqueGoC, linkNonUniqueGo]
  | gas + 1, i, oa, na, ho, hn => by
    rw [linkNonUniqueGoC, linkNonUniqueGo]
    by_cases hi : i < A.length
    · rw [if_pos hi, if_pos hi]
      rw [getElem?_eq_some_getD oa i none (by omega)]
      cases ho2 : oa.getD i none with
      | some x => exact linkNonUniqueGoC_eq A B tbl gas (i + 1) oa na ho hn
      | none =>
        cases htbl : tbl (A.getD i default) with
        | none => exact linkNonUniqueGoC_eq A B tbl gas (i + 1) oa na ho hn
        | some p =>
          obtain ⟨ca, cb⟩ := p
          show (if ca = 0 ∨ cb = 0 then linkNonUniqueGoC A B tbl gas (i + 1) oa na
                else
                  match findFirstUnlinkedC B na (A.getD i default) B.length 0 with
                  | none => none
                  | some (some j) =>
                    match setC oa i (some j) with
                    | none => none
                    | some oa1 =>
                      match setC na j (some i) with
                      | none => none
                      | some na1 => linkNonUniqueGoC A B tbl gas (i + 1) oa1 na1
                  | some none => linkNonUniqueGoC A B tbl gas (i + 1) oa na) =
            some (if ca = 0 ∨ cb = 0 then linkNonUniqueGo A B tbl gas (i + 1) oa na
                else
                  match findFirstUnlinked B na (A.getD i default) B.length 0 with
                  | some j =>
                    linkNonUniqueGo A B tbl gas (i + 1) (oa.set i (some j))
                      (na.set j (some i))
                  | none => linkNonUniqueGo A B tbl gas (i + 1) oa na)
          by_cases hz : ca = 0 ∨ cb = 0
          · rw [if_pos hz, if_pos hz]
            exact linkNonUniqueGoC_eq A B tbl gas (i + 1) oa na ho hn
          · rw [if_neg hz, if_neg hz]
            rw [findFirstUnlinkedC_eq B na (A.getD i default) hn B.length 0]
            cases hf : findFirstUnlinked B na (A.getD i default) B.length 0 with
            | none => exact linkNonUniqueGoC_eq A B tbl gas (i + 1) oa na ho hn
            | some j =>
              have hjB : j < B.length :=
                ((findFirstUnlinked_go_spec B na (A.getD i default) B.length 0
                  (by omega)).1 j hf).2.1
              show (match setC oa i (some j) with
                    | none => none
                    | some oa1 =>
                      match setC na j (some i) with
                      | none => none
                      | some na1 => linkNonUniqueGoC A B tbl gas (i + 1) oa1 na1) =
                some (linkNonUniqueGo A B tbl gas (i + 1) (oa.set i (some j))
                  (na.set j (some i)))
              rw [setC_pos oa i (some j) (by omega)]
              rw [setC_pos na j (some i) (by omega)]
              exact linkNonUniqueGoC_eq A B tbl gas (i + 1) _ _
                (by rw [List.length_set]; exact ho)
                (by rw [List.length_set]; exact hn)
    · rw [if_neg hi, if_neg hi]

/-- Both linking loops preserve the array lengths (for any table). -/
theorem linkUniqueGo_lengths (A B : List ComparableLine)
    (tbl : ComparableLine → Option (Nat × Nat)) :
    ∀ (gas i : Nat) (oa na : List (Option Nat)),
      (linkUniqueGo A B tbl gas i oa na).1.length = oa.length ∧
      (linkUniqueGo A B tbl gas i oa na).2.length = na.length := by
  intro gas
  induction gas with
  | zero =>
    intro i oa na
    rw [linkUniqueGo]
    exact ⟨rfl, rfl⟩
  | succ gas ih =>
    intro i oa na
    by_cases hi : i < A.length
    · rw [linkUniqueGo, if_pos hi]
      split
      · split
        · next j hj =>
          obtain ⟨h1, h2⟩ := ih (i + 1) (oa.set i (some j)) (na.set j (some i))
          rw [h1, h2, List.length_set, List.length_set]
          exact ⟨rfl, rfl⟩
        · exact ih (i + 1) oa na
      · exact ih (i + 1) oa na
    · rw [linkUniqueGo, if_neg hi]
      exact ⟨rfl, rfl⟩

/-- The checked linking passes never fail and agree with the total
embedding. -/
theorem diffLinksC_eq (A B : List ComparableLine)
    (tbl : ComparableLine → Option (Nat × Nat)) :
    diffLinksC A B tbl = some (diffLinks A B tbl) := by
  rw [diffLinksC]
  rw [linkUniqueGoC_eq A B tbl A.length 0 _ _ (by simp) (by simp)]
  have hlen := linkUniqueGo_lengths A B tbl A.length 0
    (List.replicate A.length none) (List.replicate B.length none)
  show linkNonUniqueGoC A B tbl A.length 0
      (linkUniqueGo A B tbl A.length 0 (List.replicate A.length none)
        (List.replicate B.length none)).1
      (linkUniqueGo A B tbl A.length 0 (List.replicate A.length none)
        (List.replicate B.length none)).2 = some (diffLinks A B tbl)
  rw [linkNonUniqueGoC_eq A B tbl A.length 0 _ _
    (by rw [hlen.1]; simp) (by rw [hlen.2]; simp)]
  rfl

/-- The checked matched-old computation never fails and agrees with the
total embedding. -/
theorem matchedOldC_eq (oa na : List (Option Nat)) (processed : List Bool) (j : Nat)
    (hp : processed.length = oa.length) :
    matchedOldC oa na processed j = some (matchedOld oa na processed j) := by
  cases hn2 : na.getD j none with
  | none => simp only [matchedOldC, matchedOld, hn2]
  | some i =>
    by_cases hoj : oa.getD i none = some j
    · have hiL : i < oa.length := by
        by_contra hc
        rw [List.getD_eq_default _ _ (by omega)] at hoj
        exact Option.noConfusion hoj
      have h1 : processed[i]? = some (processed.getD i false) :=
        getElem?_eq_some_getD processed i false (by omega)
      simp only [matchedOldC, matchedOld, hn2, h1, if_pos hoj]
      cases hp2 : processed.getD i false with
      | false => rw [if_pos rfl, if_pos ⟨hoj, rfl⟩]
      | true =>
        rw [if_neg (fun h => Bool.noConfusion h), if_neg (fun h => Bool.noConfusion h.2)]
    · simp only [matchedOldC, matchedOld, hn2, if_neg hoj,
        if_neg (fun h : _ ∧ _ => hoj h.1)]

/-- The checked inner flush never fails and agrees with the total
embedding. -/
theorem flushBeforeGoC_eq (A : List ComparableLine) (oa : List (Option Nat))
    (j i_match : Nat) (ho : oa.length = A.length) (hm : i_match ≤ A.length) :
    ∀ (gas : Nat) (res : List DiffLine) (processed : List Bool) (i_ptr : Nat),
      processed.length = A.length →
      flushBeforeGoC A oa j i_match gas res processed i_ptr =
        some (flushBeforeGo A oa j i_match gas res processed i_ptr)
  | 0, res, processed, i_ptr, hp => by
    rw [flushBeforeGoC, flushBeforeGo]
  | gas + 1, res, processed, i_ptr, hp => by
    by_cases him : i_ptr < i_match
    · have h1 : processed[i_ptr]? = some (processed.getD i_ptr false) :=
        getElem?_eq_some_getD processed i_ptr false (by omega)
      cases hp2 : processed.getD i_ptr false with
      | true =>
        simp only [flushBeforeGoC, flushBeforeGo, if_pos him, h1, hp2, if_pos rfl]
        exact flushBeforeGoC_eq A oa j i_match ho hm gas res processed (i_ptr + 1) hp
      | false =>
        have h2 : oa[i_ptr]? = some (oa.getD i_ptr none) :=
          getElem?_eq_some_getD oa i_ptr none (by omega)
        cases hoi : oa.getD i_ptr none with
        | some mapped_j =>
          simp only [flushBeforeGoC, flushBeforeGo, if_pos him, h1, hp2, h2, hoi,
            Bool.false_eq_true, if_false]
          by_cases hmj : mapped_j ≥ j
          · rw [if_pos hmj, if_pos hmj]
          · rw [if_neg hmj, if_neg hmj]
            rw [setC_pos processed i_ptr true (by omega)]
            exact flushBeforeGoC_eq A oa j i_match ho hm gas res _ (i_ptr + 1)
              (by rw [List.length_set]; exact hp)
        | none =>
          have h3 : A[i_ptr]? = some (A.getD i_ptr default) :=
            getElem?_eq_some_getD A i_ptr default (by omega)
          simp only [flushBeforeGoC, flushBeforeGo, if_pos him, h1, hp2, h2, hoi, h3,
            Bool.false_eq_true, if_false]
          rw [setC_pos processed i_ptr true (by omega)]
          exact flushBeforeGoC_eq A oa j i_match ho hm gas _ _ (i_ptr + 1)
            (by rw [List.length_set]; exact hp)
    · rw [flushBeforeGoC, flushBeforeGo, if_neg him, if_neg him]

/-- The checked skip loop never fails and agrees with the total
embedding. -/
theorem skipProcessedGoC_eq (n : Nat) (processed : List Bool) (hp : processed.length = n) :
    ∀ (gas i_ptr : Nat),
      skipProcessedGoC n processed gas i_ptr = some (skipProcessedGo n processed gas i_ptr)
  | 0, i_ptr => by rw [skipProcessedGoC, skipProcessedGo]
  | gas + 1, i_ptr => by
    by_cases hi : i_ptr < n
    · have h1 : processed[i_ptr]? = some (processed.getD i_ptr false) :=
        getElem?_eq_some_getD processed i_ptr false (by omega)
      cases hp2 : processed.getD i_ptr false with
      | true =>
        simp only [skipProcessedGoC, skipProcessedGo, if_pos hi, h1, hp2, if_pos rfl]
        exact skipProcessedGoC_eq n processed hp gas (i_ptr + 1)
      | false =>
        simp only [skipProcessedGoC, skipProcessedGo, if_pos hi, h1, hp2,
          Bool.false_eq_true, if_false]
    · rw [skipProcessedGoC, skipProcessedGo, if_neg hi, if_neg hi]

/-- The checked final flush never fails and agrees with the total
embedding. -/
theorem flushRemainingGoC_eq (A : List ComparableLine) :
    ∀ (gas : Nat) (res : List DiffLine) (processed : List Bool) (i_ptr : Nat),
      processed.length = A.length →
      flushRemainingGoC A gas res processed i_ptr =
        some (flushRemainingGo A gas res processed i_ptr)
  | 0, res, processed, i_ptr, hp => by rw [flushRemainingGoC, flushRemainingGo]
  | gas + 1, res, processed, i_ptr, hp => by
    by_cases hi : i_ptr < A.length
    · have h1 : processed[i_ptr]? = some (processed.getD i_ptr false) :=
        getElem?_eq_some_getD processed i_ptr false (by omega)
      cases hp2 : processed.getD i_ptr false with
      | true =>
        simp only [flushRemainingGoC, flushRemainingGo, if_pos hi, h1, hp2, if_pos rfl]
        exact flushRemainingGoC_eq A gas res processed (i_ptr + 1) hp
      | false =>
        have h3 : A[i_ptr]? = some (A.getD i_ptr default) :=
          getElem?_eq_some_getD A i_ptr default (by omega)
        simp only [flushRemainingGoC, flushRemainingGo, if_pos hi, h1, hp2, h3,
          Bool.false_eq_true, if_false]
        rw [setC_pos processed i_ptr true (by omega)]
        exact flushRemainingGoC_eq A gas _ _ (i_ptr + 1)
          (by rw [List.length_set]; exact hp)
    · rw [flushRemainingGoC, flushRemainingGo, if_neg hi, if_neg hi]

/-- The inner flush preserves the length of `processed_old`. -/
theorem flushBeforeGo_lengths (A : List ComparableLine) (oa : List (Option Nat))
    (j i_match : Nat) :
    ∀ (gas : Nat) (res : List DiffLine) (processed : List Bool) (i_ptr : Nat),
      (flushBeforeGo A oa j i_match gas res processed i_ptr).2.1.length =
        processed.length := by
  intro gas
  induction gas with
  | zero =>
    intro res processed i_ptr
    rw [flushBeforeGo]
  | succ gas ih =>
    intro res processed i_ptr
    rw [flushBeforeGo]
    by_cases him : i_ptr < i_match
    · rw [if_pos him]
      cases hp : processed.getD i_ptr false with
      | true =>
        rw [if_pos rfl]
        exact ih res processed (i_ptr + 1)
      | false =>
        rw [if_neg (fun h => Bool.noConfusion h)]
        cases hoi : oa.getD i_ptr none with
        | some mapped_j =>
          show (if mapped_j ≥ j then (res, processed, i_ptr)
            else flushBeforeGo A oa j i_match gas res (processed.set i_ptr true)
              (i_ptr + 1)).2.1.length = processed.length
          by_cases hmj : mapped_j ≥ j
          · rw [if_pos hmj]
          · rw [if_neg hmj, ih res _ (i_ptr + 1), List.length_set]
        | none =>
          show (flushBeforeGo A oa j i_match gas (res ++ [deletedLine A i_ptr])
            (processed.set i_ptr true) (i_ptr + 1)).2.1.length = processed.length
          rw [ih _ _ (i_ptr + 1), List.length_set]
    · rw [if_neg him]

/-- The checked outer build loop never fails and agrees with the total
embedding. -/
theorem buildGoC_eq (A B : List ComparableLine) (oa na : List (Option Nat))
    (ho : oa.length = A.length) :
    ∀ (gas j : Nat) (res : List DiffLine) (matched : List (Nat × Nat × Nat))
      (processed : List Bool) (i_ptr : Nat),
      processed.length = A.length →
      buildGoC A B oa na gas j res matched processed i_ptr =
        some (buildGo A B oa na gas j res matched processed i_ptr)
  | 0, j, res, matched, processed, i_ptr, hp => by rw [buildGoC, buildGo]
  | gas + 1, j, res, matched, processed, i_ptr, hp => by
    by_cases hj : j < B.length
    · have hmoC := matchedOldC_eq oa na processed j (by omega)
      have hB : B[j]? = some (B.getD j default) := getElem?_eq_some_getD B j default hj
      cases hmo : matchedOld oa na processed j with
      | none =>
        rw [hmo] at hmoC
        simp only [buildGoC, buildGo, if_pos hj, hmoC, hmo, hB]
        exact buildGoC_eq A B oa na ho gas (j + 1) _ matched processed i_ptr hp
      | some i_match =>
        rw [hmo] at hmoC
        have hiM : i_match < A.length := by
          have h := ((matchedOld_eq_some oa na processed j i_match).mp hmo).2.1
          by_contra hc
          rw [List.getD_eq_default _ _ (by omega)] at h
          exact Option.noConfusion h
        have hfl := flushBeforeGoC_eq A oa j i_match ho (by omega)
          (i_match - i_ptr) res processed i_ptr hp
        set fl := flushBeforeGo A oa j i_match (i_match - i_ptr) res processed i_ptr
          with hfldef
        have hflLen : fl.2.1.length = processed.length :=
          flushBeforeGo_lengths A oa j i_match (i_match - i_ptr) res processed i_ptr
        have hA : A[i_match]? = some (A.getD i_match default) :=
          getElem?_eq_some_getD A i_match default hiM
        have hset : setC fl.2.1 i_match true = some (fl.2.1.set i_match true) :=
          setC_pos _ _ _ (by rw [hflLen, hp]; exact hiM)
        have hskip := skipProcessedGoC_eq A.length (fl.2.1.set i_match true)
          (by rw [List.length_set, hflLen, hp])
        simp only [buildGoC, buildGo, if_pos hj, hmoC, hmo, hfl, hA, hB, hset, hskip]
        exact buildGoC_eq A B oa na ho gas (j + 1) _ _ _ _
          (by rw [List.length_set, hflLen]; exact hp)
    · rw [buildGoC, buildGo, if_neg hj, if_neg hj]

/-- The checked binary search never fails and agrees with the total
embedding (both indexed reads are in bounds). -/
theorem bsearchGoC_eq (seq tails : List Nat) (value len : Nat)
    (hbound : ∀ l, l < len → tails.getD l 0 < seq.length)
    (htlen : len ≤ tails.length) :
    ∀ (gas left right : Nat), right ≤ len →
      bsearchGoC seq tails value gas left right =
        some (bsearchGo seq tails value gas left right)
  | 0, left, right, hr => by rw [bsearchGoC, bsearchGo]
  | gas + 1, left, right, hr => by
    by_cases hlr : left < right
    · have hmid : (left + right) / 2 < right := by omega
      have h1 : tails[(left + right) / 2]? = some (tails.getD ((left + right) / 2) 0) :=
        getElem?_eq_some_getD tails _ 0 (by omega)
      have h2 : seq[tails.getD ((left + right) / 2) 0]? =
          some (seq.getD (tails.getD ((left + right) / 2) 0) 0) :=
        getElem?_eq_some_getD seq _ 0 (hbound _ (by omega))
      simp only [bsearchGoC, bsearchGo, if_pos hlr, h1, h2]
      by_cases hv : seq.getD (tails.getD ((left + right) / 2) 0) 0 < value
      · rw [if_pos hv, if_pos hv]
        exact bsearchGoC_eq seq tails value len hbound htlen gas _ right hr
      · rw [if_neg hv, if_neg hv]
        exact bsearchGoC_eq seq tails value len hbound htlen gas left _ (by omega)
    · rw [bsearchGoC, bsearchGo, if_neg hlr, if_neg hlr]

/-- The checked patience loop never fails and agrees with the total
embedding (all array writes and reads are in bounds). -/
theorem lisGoC_eq (seq : List Nat) :
    ∀ (gas i : Nat) (tails : List Nat) (preds : List (Option Nat)) (len : Nat),
      i ≤ seq.length → LisInv seq i tails preds len →
      lisGoC seq gas i tails preds len = some (lisGo seq gas i tails preds len)
  | 0, i, tails, preds, len, hile, hinv => by rw [lisGoC, lisGo]
  | gas + 1, i, tails, preds, len, hile, hinv => by
    by_cases hi : i < seq.length
    · have hlenI : len ≤ i := hinv.lenLeI
      have hbound : ∀ l, l < len → tails.getD l 0 < seq.length :=
        fun l hl => Nat.lt_of_lt_of_le (hinv.tailsLt l hl) (by omega)
      have hsC := bsearchGoC_eq seq tails (seq.getD i 0) len hbound
        (by rw [hinv.tlen]; omega) len 0 len (le_refl _)
      obtain ⟨hb1, hb2, hblow, hbhigh⟩ := bsearchGo_spec seq tails (seq.getD i 0) len
        hinv.tailsMono len 0 len (by omega) (by omega) (le_refl _)
        (by intro l h; omega) (by intro m h1 h2; omega)
      set left := bsearchGo seq tails (seq.getD i 0) len 0 len with hleft
      have hst : setC tails left i = some (tails.set left i) :=
        setC_pos _ _ _ (by rw [hinv.tlen]; omega)
      have hinv2 := lisStep_inv seq i tails preds len hinv hi left hleft
        (if left + 1 > len then left + 1 else len) rfl
      by_cases h0 : 0 < left
      · have ht : tails[left - 1]? = some (tails.getD (left - 1) 0) :=
          getElem?_eq_some_getD tails _ 0 (by rw [hinv.tlen]; omega)
        have hsp : setC preds i (some (tails.getD (left - 1) 0)) =
            some (preds.set i (some (tails.getD (left - 1) 0))) :=
          setC_pos _ _ _ (by rw [hinv.plen]; omega)
        rw [if_pos h0] at hinv2
        simp only [lisGoC, lisGo, if_pos hi, hsC, if_pos h0, ht, hsp, hst]
        exact lisGoC_eq seq gas (i + 1) _ _ _ (by omega) hinv2
      · rw [if_neg h0] at hinv2
        simp only [lisGoC, lisGo, if_pos hi, hsC, if_neg h0, hst]
        exact lisGoC_eq seq gas (i + 1) _ _ _ (by omega) hinv2
    · rw [lisGoC, lisGo, if_neg hi, if_neg hi]

/-- The checked chain reconstruction terminates within its gas and agrees
with the total embedding: predecessor links point strictly backwards. -/
theorem buildChainC_eq (preds : List (Option Nat))
    (hp : ∀ k p, preds.getD k none = some p → p < k) :
    ∀ (gas k : Nat), k < preds.length → k ≤ gas →
      buildChainC preds gas k = some (buildChain preds gas k)
  | 0, k, hk, hg => by
    have h0 : k = 0 := by omega
    subst h0
    have h1 : preds[0]? = some (preds.getD 0 none) := getElem?_eq_some_getD preds 0 none hk
    cases hv : preds.getD 0 none with
    | some prev => exact absurd (hp 0 prev hv) (by omega)
    | none => simp only [buildChainC, buildChain, h1, hv]
  | gas + 1, k, hk, hg => by
    have h1 : preds[k]? = some (preds.getD k none) := getElem?_eq_some_getD preds k none hk
    cases hv : preds.getD k none with
    | none => simp only [buildChainC, buildChain, h1, hv]
    | some prev =>
      have hpk := hp k prev hv
      simp only [buildChainC, buildChain, h1, hv]
      rw [buildChainC_eq preds hp gas prev (by omega) (by omega)]

/-- `is_in_lis` has one flag per matched entry. -/
theorem markLis_length (n : Nat) (lis : List Nat) : (markLis n lis).length = n := by
  rw [markLis]
  exact (markLisGo_getD n lis (List.replicate n false) (by simp)).1

/-- The checked LIS computation never fails and agrees with the total
embedding. -/
theorem lisIndicesC_eq (seq : List Nat) :
    lisIndicesC seq = some (longest_increasing_subsequence_indices seq) := by
  rw [lisIndicesC, longest_increasing_subsequence_indices]
  by_cases hemp : seq.isEmpty
  · rw [if_pos hemp, if_pos hemp]
  · rw [if_neg hemp, if_neg hemp]
    have hinv := lisGo_inv seq seq.length 0 (List.replicate seq.length 0)
      (List.replicate seq.length none) 0 (by omega) (by omega) (lisInv_init seq)
    have hC := lisGoC_eq seq seq.length 0 (List.replicate seq.length 0)
      (List.replicate seq.length none) 0 (by omega) (lisInv_init seq)
    simp only [hC]
    set st := lisGo seq seq.length 0 (List.replicate seq.length 0)
      (List.replicate seq.length none) 0 with hst
    by_cases h0 : st.2.2 = 0
    · rw [if_pos h0, if_pos h0]
    · rw [if_neg h0, if_neg h0]
      have hlenB : st.2.2 ≤ seq.length := hinv.lenLeI
      have hlt : st.2.2 - 1 < st.1.length := by
        rw [hinv.tlen]
        omega
      have h1 : st.1[st.2.2 - 1]? = some (st.1.getD (st.2.2 - 1) 0) :=
        getElem?_eq_some_getD _ _ 0 hlt
      simp only [h1]
      have hk : st.1.getD (st.2.2 - 1) 0 < seq.length := hinv.tailsLt _ (by omega)
      exact buildChainC_eq st.2.1 (fun k p h => (hinv.predsLt k p h).1)
        (st.1.getD (st.2.2 - 1) 0) (st.1.getD (st.2.2 - 1) 0)
        (by rw [hinv.plen]; exact hk) (le_refl _)

/-- The checked classification loop never fails and agrees with the
total embedding (matched line indices address real lines and every flag
slot exists). -/
theorem classifyGoC_eq (isin : List Bool) :
    ∀ (rest : List (Nat × Nat × Nat)) (idx : Nat) (lines : List DiffLine)
      (cur : Option (Nat × Nat × Nat × Nat)) (blocks : List MovedBlock),
      (∀ e ∈ rest, e.1 < lines.length) →
      idx + rest.length ≤ isin.length →
      classifyGoC isin rest idx lines cur blocks =
        some (classifyGo isin rest idx lines cur blocks)
  | [], idx, lines, cur, blocks, _, _ => by cases cur <;> rfl
  | e :: tl, idx, lines, cur, blocks, hbd, hlen => by
    obtain ⟨li, oi, ni⟩ := e
    have hli : li < lines.length := hbd (li, oi, ni) (List.mem_cons_self _ _)
    have hlen2 : idx + (tl.length + 1) ≤ isin.length := by
      simp only [List.length_cons] at hlen
      omega
    have h1 : lines[li]? = some (lines.getD li default) :=
      getElem?_eq_some_getD lines li default hli
    have h2 : isin[idx]? = some (isin.getD idx false) :=
      getElem?_eq_some_getD isin idx false (by omega)
    cases hf : isin.getD idx false with
    | true =>
      have hset : setC lines li (relabel true oi ni (lines.getD li default)) =
          some (lines.set li (relabel true oi ni (lines.getD li default))) :=
        setC_pos _ _ _ hli
      simp only [classifyGoC, classifyGo, h1, h2, hf, if_pos rfl, hset]
      exact classifyGoC_eq isin tl (idx + 1) _ none _
        (fun e he => by rw [List.length_set]; exact hbd e (List.mem_cons_of_mem _ he))
        (by omega)
    | false =>
      have hset : setC lines li (relabel false oi ni (lines.getD li default)) =
          some (lines.set li (relabel false oi ni (lines.getD li default))) :=
        setC_pos _ _ _ hli
      simp only [classifyGoC, classifyGo, h1, h2, hf, Bool.false_eq_true, if_false, hset]
      exact classifyGoC_eq isin tl (idx + 1) _ _ _
        (fun e he => by rw [List.length_set]; exact hbd e (List.mem_cons_of_mem _ he))
        (by omega)

/-- The checked classification never fails and agrees with the total
embedding. -/
theorem classify_matched_linesC_eq (lines : List DiffLine)
    (matched : List (Nat × Nat × Nat)) (hbd : ∀ e ∈ matched, e.1 < lines.length) :
    classify_matched_linesC lines matched = some (classify_matched_lines lines matched) := by
  rw [classify_matched_linesC, classify_matched_lines]
  by_cases hemp : matched.isEmpty
  · rw [if_pos hemp, if_pos hemp]
  · rw [if_neg hemp, if_neg hemp]
    simp only [lisIndicesC_eq]
    exact classifyGoC_eq _ matched 0 lines none [] hbd
      (by rw [markLis_length]; omega)

/-- The outer build loop preserves the length of `processed_old`. -/
theorem buildGo_plen (A B : List ComparableLine) (oa na : List (Option Nat)) :
    ∀ (gas j : Nat) (res : List DiffLine) (matched : List (Nat × Nat × Nat))
      (processed : List Bool) (i_ptr : Nat),
      (buildGo A B oa na gas j res matched processed i_ptr).2.2.1.length =
        processed.length := by
  intro gas
  induction gas with
  | zero =>
    intro j res matched processed i_ptr
    rw [buildGo]
  | succ gas ih =>
    intro j res matched processed i_ptr
    by_cases hj : j < B.length
    · cases hmo : matchedOld oa na processed j with
      | some i_match =>
        rw [buildGo_step_matched A B oa na gas j res matched processed i_ptr i_match hj
          hmo _ rfl _ rfl]
        rw [ih]
        rw [List.length_set, flushBeforeGo_lengths]
      | none =>
        rw [buildGo_step_added A B oa na gas j res matched processed i_ptr hj hmo]
        exact ih (j + 1) _ matched processed i_ptr
    · rw [buildGo, if_neg hj]

/-- The checked `build_diff_lines` never fails and agrees with the total
embedding. -/
theorem build_diff_linesC_eq (A B : List ComparableLine) (oa na : List (Option Nat))
    (hls : LinkState A B oa na) :
    build_diff_linesC A B oa na = some (build_diff_lines A B oa na) := by
  rw [build_diff_linesC]
  have hbg := buildGoC_eq A B oa na hls.lenA B.length 0 [] []
    (List.replicate A.length false) 0 (by simp)
  simp only [hbg]
  set st := buildGo A B oa na B.length 0 [] [] (List.replicate A.length false) 0 with hst
  have hplen : st.2.2.1.length = A.length := by
    rw [hst, buildGo_plen]
    simp
  have hfr := flushRemainingGoC_eq A (A.length - st.2.2.2) st.1 st.2.2.1 st.2.2.2 hplen
  simp only [hfr]
  have hpre := (build_matched_spec A B oa na hls).1
  exact classify_matched_linesC_eq _ st.2.1 (fun e he => (hpre.mEntry e he).1)

/-- C5: `compute_diff` is total — the checked mirror, in which every
panicking index access of the source is guarded (and the reconstruction
loop must terminate within its gas), never takes an error branch: it
returns exactly `some (compute_diff A B)` for all inputs, empty ones
included. -/
theorem compute_diff_total (A B : List ComparableLine) :
    compute_diffC A B = some (compute_diff A B) := by
  rw [compute_diffC]
  simp only [diffLinksC_eq]
  have hls := diffLinks_linkState A B
  simp only [build_diff_linesC_eq A B _ _ hls]
  rfl

end ChronoDiff
